import Mathlib

/-!
Verification of the graph model and the combined Tarjan-style analyzer
(articulation points, bridges, biconnected components) of the
Anticurculation_Points_visualizer repository.

The JavaScript source (`graph.js`, `app.js`) is shallowly embedded:

* A JS `Map` (insertion ordered, unique keys) is an association list
  `List (κ × α)` manipulated by `mapHas` / `mapGet?` / `mapSet` / `mapDelete`.
* A JS `Set` of numbers (insertion ordered, no duplicates) is a `List Nat`
  manipulated by `setAdd` / `setDelete`.
* JS arrays `disc` / `low` / `parent` (length `nextId`, `undefined` beyond)
  are functions `Nat → Option Int`, where `none` models `undefined`;
  comparisons involving `undefined`/NaN are `false`, as in JS.
* The mutually recursive DFS is embedded with explicit fuel (structural
  recursion, so everything computes by `decide`); fuel exhaustion yields
  `none`, and sufficiency of the chosen fuel is proved.
-/

namespace AV

/-! ### JS `Map` and `Set` primitives -/

/-- JS `Map.prototype.has`. -/
def mapHas {κ α : Type} [DecidableEq κ] (m : List (κ × α)) (k : κ) : Bool :=
  m.any (fun p => p.1 = k)

/-- JS `Map.prototype.get` (`none` = `undefined`). -/
def mapGet? {κ α : Type} [DecidableEq κ] (m : List (κ × α)) (k : κ) : Option α :=
  (m.find? (fun p => p.1 = k)).map (·.2)

/-- JS `Map.prototype.set`: replace in place if the key exists, else append. -/
def mapSet {κ α : Type} [DecidableEq κ] (m : List (κ × α)) (k : κ) (v : α) :
    List (κ × α) :=
  if mapHas m k then m.map (fun p => if p.1 = k then (k, v) else p) else m ++ [(k, v)]

/-- JS `Map.prototype.delete` (keeps the order of the remaining entries). -/
def mapDelete {κ α : Type} [DecidableEq κ] (m : List (κ × α)) (k : κ) :
    List (κ × α) :=
  m.filter (fun p => ¬ p.1 = k)

/-- JS `Set.prototype.add`: append if absent. -/
def setAdd {α : Type} [DecidableEq α] (s : List α) (x : α) : List α :=
  if x ∈ s then s else s ++ [x]

/-- JS `Set.prototype.delete`. -/
def setDelete {α : Type} [DecidableEq α] (s : List α) (x : α) : List α :=
  s.filter (fun y => ¬ y = x)

/-! ### The graph model (`class Graph` in graph.js) -/

/-- A node `{id, x, y}`; the coordinates are display-only data. -/
structure Node where
  id : Nat
  x : Int
  y : Int
deriving DecidableEq, Repr

/-- An edge-map key: `".."-style `${u}-${v}`` for undirected (with `u ≤ v`),
`` `${a}>${b}` `` for directed.  Decimal rendering of naturals is injective,
so the inductive presentation is faithful to the JS string keys. -/
inductive EdgeKey where
  | undir (u v : Nat)
  | dir (a b : Nat)
deriving DecidableEq, Repr

/-- An edge-map value `{a, b, directed}`. -/
structure EdgeRec where
  a : Nat
  b : Nat
  directed : Bool
deriving DecidableEq, Repr

/-- The graph model: node list, adjacency index, id allocator, edge map. -/
structure Graph where
  nodes : List Node
  adj : List (Nat × List Nat)
  nextId : Nat
  edgeMap : List (EdgeKey × EdgeRec)
deriving DecidableEq, Repr

namespace Graph

/-- `new Graph()` / the state after `clear()`. -/
def empty : Graph := { nodes := [], adj := [], nextId := 0, edgeMap := [] }

/-- `addNode(x, y)`: allocate the next id, append the node, create an empty
adjacency entry.  Returns the mutated graph together with the fresh id. -/
def addNode (g : Graph) (x : Int := 100) (y : Int := 100) : Graph × Nat :=
  let id := g.nextId
  ({ g with
      nodes := g.nodes ++ [{ id := id, x := x, y := y }]
      adj := mapSet g.adj id []
      nextId := id + 1 }, id)

/-- `addEdge(a, b, directed)`.  `none` models the JS `TypeError` raised by
`this.adj.get(a).add(b)` when an endpoint has no adjacency entry; note that
the edge-map insertion precedes that lookup, exactly as in the source. -/
def addEdge (g : Graph) (a b : Nat) (directed : Bool := false) :
    Option (Graph × Bool) :=
  if a = b then some (g, false)
  else if directed then
    let key := EdgeKey.dir a b
    if mapHas g.edgeMap key then some (g, false)
    else
      let g1 := { g with edgeMap := mapSet g.edgeMap key ⟨a, b, true⟩ }
      match mapGet? g1.adj a with
      | none => none
      | some sa =>
        let g2 := { g1 with adj := mapSet g1.adj a (setAdd sa b) }
        match mapGet? g2.adj b with
        | none => none
        | some sb => some ({ g2 with adj := mapSet g2.adj b (setAdd sb a) }, true)
  else
    let u := min a b
    let v := max a b
    let key := EdgeKey.undir u v
    if mapHas g.edgeMap key then some (g, false)
    else
      let g1 := { g with edgeMap := mapSet g.edgeMap key ⟨u, v, false⟩ }
      match mapGet? g1.adj a with
      | none => none
      | some sa =>
        let g2 := { g1 with adj := mapSet g1.adj a (setAdd sa b) }
        match mapGet? g2.adj b with
        | none => none
        | some sb => some ({ g2 with adj := mapSet g2.adj b (setAdd sb a) }, true)

/-- `deleteEdge(a, b, directed)`; `none` models the `TypeError` from an
unguarded `this.adj.get(·)` on a missing adjacency entry. -/
def deleteEdge (g : Graph) (a b : Nat) (directed : Bool := false) :
    Option (Graph × Bool) :=
  let key := if directed then EdgeKey.dir a b else EdgeKey.undir (min a b) (max a b)
  if mapHas g.edgeMap key then
    let g1 := { g with edgeMap := mapDelete g.edgeMap key }
    match mapGet? g1.adj a with
    | none => none
    | some sa =>
      let g2 := { g1 with adj := mapSet g1.adj a (setDelete sa b) }
      match mapGet? g2.adj b with
      | none => none
      | some sb => some ({ g2 with adj := mapSet g2.adj b (setDelete sb a) }, true)
  else some (g, false)

/-- `deleteEdgeByKey(key)`: both adjacency updates are guarded by `has`,
so this operation is total. -/
def deleteEdgeByKey (g : Graph) (key : EdgeKey) : Graph × Bool :=
  if mapHas g.edgeMap key then
    match mapGet? g.edgeMap key with
    | none => (g, false)
    | some e =>
      let g1 := { g with edgeMap := mapDelete g.edgeMap key }
      let g2 :=
        if mapHas g1.adj e.a then
          { g1 with adj := mapSet g1.adj e.a (setDelete ((mapGet? g1.adj e.a).getD []) e.b) }
        else g1
      let g3 :=
        if mapHas g2.adj e.b then
          { g2 with adj := mapSet g2.adj e.b (setDelete ((mapGet? g2.adj e.b).getD []) e.a) }
        else g2
      (g3, true)
  else (g, false)

/-- `deleteNode(id)`: drop the node, scrub `id` out of the adjacency index,
drop incident edges.  Always returns `true`. -/
def deleteNode (g : Graph) (id : Nat) : Graph × Bool :=
  let nodes := g.nodes.filter (fun n => ¬ n.id = id)
  let adj1 :=
    if mapHas g.adj id then
      let neigh := (mapGet? g.adj id).getD []
      let adj0 := neigh.foldl
        (fun m v =>
          if mapHas m v then mapSet m v (setDelete ((mapGet? m v).getD []) id) else m)
        g.adj
      mapDelete adj0 id
    else g.adj
  let adj2 := adj1.map (fun p => (p.1, if id ∈ p.2 then setDelete p.2 id else p.2))
  let edgeMap := g.edgeMap.filter (fun p => ¬ (p.2.a = id ∨ p.2.b = id))
  ({ g with nodes := nodes, adj := adj2, edgeMap := edgeMap }, true)

/-- `renameNode(oldId, newId)`. -/
def renameNode (g : Graph) (oldId newId : Nat) : Graph × Bool :=
  if oldId = newId then (g, true)
  else if g.nodes.any (fun n => n.id = newId) then (g, false)
  else
    let nodes := g.nodes.map (fun n => if n.id = oldId then { n with id := newId } else n)
    let oldNeighbors := (mapGet? g.adj oldId).getD []
    let adj1 := mapDelete g.adj oldId
    let adj2 := mapSet adj1 newId oldNeighbors
    let adj3 := adj2.map (fun p =>
      if p.1 = newId then p
      else if oldId ∈ p.2 then (p.1, setAdd (setDelete p.2 oldId) newId) else p)
    let newEdgeMap := g.edgeMap.foldl
      (fun m p =>
        let a := if p.2.a = oldId then newId else p.2.a
        let b := if p.2.b = oldId then newId else p.2.b
        if p.2.directed then mapSet m (EdgeKey.dir a b) ⟨a, b, true⟩
        else mapSet m (EdgeKey.undir (min a b) (max a b)) ⟨min a b, max a b, false⟩)
      []
    ({ g with
        nodes := nodes
        adj := adj3
        edgeMap := newEdgeMap
        nextId := max g.nextId (newId + 1) }, true)

/-- `clear()`. -/
def clear (_g : Graph) : Graph := empty

/-- `edgeKey(a, b)`: the canonical undirected key. -/
def edgeKey (a b : Nat) : EdgeKey := EdgeKey.undir (min a b) (max a b)

/-- Neighbor list of `u`: `this.adj.get(u) || new Set()`. -/
def adjGet (g : Graph) (u : Nat) : List Nat := (mapGet? g.adj u).getD []

/-- Membership of `v` in `nodesPresent`. -/
def present (g : Graph) (v : Nat) : Bool := g.nodes.any (fun n => n.id = v)

end Graph

/-! ### Analyzer state and JS-number helpers

`Option Int` models a JS number that may be `undefined`; any comparison or
`Math.min` involving `undefined` (i.e. NaN) is false resp. NaN (= `none`). -/

/-- `Math.min` on possibly-undefined numbers. -/
def jmin : Option Int → Option Int → Option Int
  | some x, some y => some (min x y)
  | _, _ => none

/-- `x >= y` on possibly-undefined numbers (false on NaN, as in JS). -/
def oGe : Option Int → Option Int → Bool
  | some x, some y => decide (y ≤ x)
  | _, _ => false

/-- `x > y` on possibly-undefined numbers. -/
def oGt : Option Int → Option Int → Bool
  | some x, some y => decide (y < x)
  | _, _ => false

/-- `x < y` on possibly-undefined numbers. -/
def oLt : Option Int → Option Int → Bool
  | some x, some y => decide (x < y)
  | _, _ => false

/-- Pointwise function update (a write to a JS array cell). -/
def updF (f : Nat → Option Int) (u : Nat) (x : Option Int) : Nat → Option Int :=
  fun i => if i = u then x else f i

/-- One biconnected component `{edges, verts}`. -/
structure Comp where
  edges : List (Nat × Nat)
  verts : List Nat
deriving DecidableEq, Repr

/-- The record returned by `analyze`. -/
structure AResult where
  articulationPoints : List Nat
  bridges : List (Nat × Nat)
  components : List Comp
  edgeToComp : List (EdgeKey × Nat)
deriving DecidableEq, Repr

/-- The mutable traversal state of `analyze` (`disc`, `low`, `parent`,
`ap`, `bridges`, `components`, `edgeStack`, `time`).  The stack top is the
list head. -/
structure St where
  disc : Nat → Option Int
  low : Nat → Option Int
  parent : Nat → Option Int
  ap : List Nat
  bridges : List (Nat × Nat)
  comps : List Comp
  edgeStack : List (Nat × Nat)
  time : Nat

/-- The initial state: arrays of length `nextId` filled with `-1` / `0` /
`-1`; `undefined` beyond. -/
def initSt (g : Graph) : St where
  disc := fun i => if i < g.nextId then some (-1) else none
  low := fun i => if i < g.nextId then some 0 else none
  parent := fun i => if i < g.nextId then some (-1) else none
  ap := []
  bridges := []
  comps := []
  edgeStack := []
  time := 0

/-- `disc[u] = low[u] = ++time`. -/
def visitUpd (st : St) (u : Nat) : St :=
  let t := st.time + 1
  { st with
      time := t
      disc := updF st.disc u (some (t : Int))
      low := updF st.low u (some (t : Int)) }

/-- Tree-edge prelude: `parent[v] = u; edgeStack.push([u, v])` (the
`children++` is threaded through the loop separately). -/
def treePre (st : St) (u v : Nat) : St :=
  { st with
      parent := updF st.parent v (some (u : Int))
      edgeStack := (u, v) :: st.edgeStack }

/-- The back-edge condition `v !== parent[u] && disc[v] < disc[u]`. -/
def backCond (st : St) (u v : Nat) : Bool :=
  decide (¬ st.parent u = some (v : Int)) && oLt (st.disc v) (st.disc u)

/-- Back-edge body: `edgeStack.push([u, v]); low[u] = min(low[u], disc[v])`. -/
def backUpd (st : St) (u v : Nat) : St :=
  { st with
      edgeStack := (u, v) :: st.edgeStack
      low := updF st.low u (jmin (st.low u) (st.disc v)) }

/-- The component-close `while` loop: pop until (and including) the first
occurrence of the triggering edge `(u,v)` in either orientation.  Returns
the popped edges (in pop order) and the remaining stack. -/
def popUntil (u v : Nat) : List (Nat × Nat) → List (Nat × Nat) × List (Nat × Nat)
  | [] => ([], [])
  | e :: rest =>
    if (e.1 = u ∧ e.2 = v) ∨ (e.1 = v ∧ e.2 = u) then ([e], rest)
    else
      let pr := popUntil u v rest
      (e :: pr.1, pr.2)

/-- `compVerts`: both endpoints of each popped edge, in pop order,
deduplicated with insertion order (a JS `Set`). -/
def vertsOf (es : List (Nat × Nat)) : List Nat :=
  es.foldl (fun s e => setAdd (setAdd s e.1) e.2) []

/-- Everything after `dfs(v)` returns inside the tree-edge branch:
low-link update, the two articulation rules, the bridge rule and the
component-close rule, in source order. -/
def afterChild (st : St) (u v : Nat) (children : Nat) : St :=
  let st1 := { st with low := updF st.low u (jmin (st.low u) (st.low v)) }
  let st2 :=
    if st1.parent u = some (-1) ∧ 1 < children then { st1 with ap := setAdd st1.ap u }
    else st1
  let st3 :=
    if ¬ st2.parent u = some (-1) ∧ oGe (st2.low v) (st2.disc u) then
      { st2 with ap := setAdd st2.ap u }
    else st2
  let st4 :=
    if oGt (st3.low v) (st3.disc u) then { st3 with bridges := st3.bridges ++ [(u, v)] }
    else st3
  if oGe (st4.low v) (st4.disc u) then
    let pr := popUntil u v st4.edgeStack
    if pr.1.isEmpty then { st4 with edgeStack := pr.2 }
    else { st4 with comps := st4.comps ++ [⟨pr.1, vertsOf pr.1⟩], edgeStack := pr.2 }
  else st4

/-- After a root's DFS returns: any remaining stacked edges form one
component. -/
def residual (st : St) : St :=
  match st.edgeStack with
  | [] => st
  | e :: rest =>
    { st with comps := st.comps ++ [⟨e :: rest, vertsOf (e :: rest)⟩], edgeStack := [] }

/-- The neighbor loop of `dfs(u)`, generic in the recursive call `rec`
(instantiated with `dfsGo g fuel`), so that the whole development is
structurally recursive and computes in the kernel. -/
def dfsLoop (g : Graph) (rec : St → Nat → Option St) (u : Nat) :
    St → Nat → List Nat → Option St
  | st, _, [] => some st
  | st, ch, v :: rest =>
    if g.present v then
      if st.disc v = some (-1) then
        match rec (treePre st u v) v with
        | none => none
        | some st2 => dfsLoop g rec u (afterChild st2 u v (ch + 1)) (ch + 1) rest
      else if backCond st u v then dfsLoop g rec u (backUpd st u v) ch rest
      else dfsLoop g rec u st ch rest
    else dfsLoop g rec u st ch rest

/-- `dfs(u)` with fuel; `none` models a non-terminating (fuel-exhausted)
run and is proved unreachable for the fuel used by `analyze`. -/
def dfsGo (g : Graph) : Nat → St → Nat → Option St
  | 0, _, _ => none
  | fuel + 1, st, u => dfsLoop g (dfsGo g fuel) u (visitUpd st u) 0 (g.adjGet u)

/-- One iteration of the root loop `for (const node of this.nodes)`. -/
def rootStep (g : Graph) (fuel : Nat) (st : St) (nd : Node) : Option St :=
  if st.disc nd.id = some (-1) then
    match dfsGo g fuel st nd.id with
    | none => none
    | some st1 => some (residual st1)
  else some st

/-- The root loop over the node list. -/
def rootsLoop (g : Graph) (fuel : Nat) : St → List Node → Option St
  | st, [] => some st
  | st, nd :: nds =>
    match rootStep g fuel st nd with
    | none => none
    | some st1 => rootsLoop g fuel st1 nds

/-- `edgeToComp`: map each component edge's canonical key to the component
index (`components.forEach((c, idx) => ...)`). -/
def buildEdgeToComp (comps : List Comp) : List (EdgeKey × Nat) :=
  (comps.enum).foldl
    (fun m p => p.2.edges.foldl (fun m e => mapSet m (Graph.edgeKey e.1 e.2) p.1) m)
    []

/-- Fuel used by `analyze`: one more than the number of nodes (the DFS can
visit each present node at most once). -/
def fuelOf (g : Graph) : Nat := g.nodes.length + 1

/-- `Graph.analyze()`. -/
def Graph.analyze (g : Graph) : Option AResult :=
  (rootsLoop g (fuelOf g) (initSt g) g.nodes).map fun st =>
    { articulationPoints := st.ap
      bridges := st.bridges
      components := st.comps
      edgeToComp := buildEdgeToComp st.comps }

/-! ### The instrumented analyzer `analyzeWithSteps` -/

/-- A trace event (the JS step objects, as a closed sum).  An absent JS
field (`back`, `child`, `backTo`) is `false` resp. `none`. -/
inductive Step where
  | visit (u : Nat) (disc : Int) (low : Int)
  | pushEdge (u v : Nat) (back : Bool)
  | updateLow (u : Nat) (low : Option Int) (child : Option Nat) (backTo : Option Nat)
  | markAP (u : Nat)
  | markBridge (u v : Nat)
  | popComponent (compIndex : Nat) (edges : List (Nat × Nat)) (verts : List Nat)
deriving DecidableEq, Repr

/-- Traversal state of `analyzeWithSteps`: the algorithmic state plus the
accumulated `steps` array. -/
structure StS where
  base : St
  steps : List Step

/-- `disc[u] = low[u] = ++time` followed by the `visit` emission. -/
def visitUpdS (s : StS) (u : Nat) : StS :=
  let t := s.base.time + 1
  { base := visitUpd s.base u
    steps := s.steps ++ [Step.visit u (t : Int) (t : Int)] }

/-- Tree-edge prelude plus the `pushEdge` emission. -/
def treePreS (s : StS) (u v : Nat) : StS :=
  { base := treePre s.base u v, steps := s.steps ++ [Step.pushEdge u v false] }

/-- Back-edge body with its two emissions. -/
def backUpdS (s : StS) (u v : Nat) : StS :=
  let st1 := { s.base with edgeStack := (u, v) :: s.base.edgeStack }
  let s1 : StS := ⟨st1, s.steps ++ [Step.pushEdge u v true]⟩
  ⟨{ st1 with low := updF st1.low u (jmin (st1.low u) (st1.disc v)) },
    s1.steps ++ [Step.updateLow u (jmin (st1.low u) (st1.disc v)) none (some v)]⟩

/-- The post-child block of `analyzeWithSteps`, with interleaved
emissions, in source order. -/
def afterChildS (s : StS) (u v : Nat) (children : Nat) : StS :=
  let st := s.base
  let st1 := { st with low := updF st.low u (jmin (st.low u) (st.low v)) }
  let s1 : StS := ⟨st1, s.steps ++ [Step.updateLow u (jmin (st.low u) (st.low v)) (some v) none]⟩
  let s2 : StS :=
    if st1.parent u = some (-1) ∧ 1 < children then
      ⟨{ s1.base with ap := setAdd s1.base.ap u }, s1.steps ++ [Step.markAP u]⟩
    else s1
  let s3 : StS :=
    if ¬ s2.base.parent u = some (-1) ∧ oGe (s2.base.low v) (s2.base.disc u) then
      ⟨{ s2.base with ap := setAdd s2.base.ap u }, s2.steps ++ [Step.markAP u]⟩
    else s2
  let s4 : StS :=
    if oGt (s3.base.low v) (s3.base.disc u) then
      ⟨{ s3.base with bridges := s3.base.bridges ++ [(u, v)] }, s3.steps ++ [Step.markBridge u v]⟩
    else s3
  if oGe (s4.base.low v) (s4.base.disc u) then
    let pr := popUntil u v s4.base.edgeStack
    if pr.1.isEmpty then ⟨{ s4.base with edgeStack := pr.2 }, s4.steps⟩
    else
      ⟨{ s4.base with comps := s4.base.comps ++ [⟨pr.1, vertsOf pr.1⟩], edgeStack := pr.2 },
        s4.steps ++ [Step.popComponent s4.base.comps.length pr.1 (vertsOf pr.1)]⟩
  else s4

/-- Root residual of `analyzeWithSteps`, with its `popComponent`
emission. -/
def residualS (s : StS) : StS :=
  match s.base.edgeStack with
  | [] => s
  | e :: rest =>
    ⟨{ s.base with comps := s.base.comps ++ [⟨e :: rest, vertsOf (e :: rest)⟩], edgeStack := [] },
      s.steps ++ [Step.popComponent s.base.comps.length (e :: rest) (vertsOf (e :: rest))]⟩

/-- Neighbor loop of the instrumented DFS. -/
def dfsLoopS (g : Graph) (rec : StS → Nat → Option StS) (u : Nat) :
    StS → Nat → List Nat → Option StS
  | s, _, [] => some s
  | s, ch, v :: rest =>
    if g.present v then
      if s.base.disc v = some (-1) then
        match rec (treePreS s u v) v with
        | none => none
        | some s2 => dfsLoopS g rec u (afterChildS s2 u v (ch + 1)) (ch + 1) rest
      else if backCond s.base u v then dfsLoopS g rec u (backUpdS s u v) ch rest
      else dfsLoopS g rec u s ch rest
    else dfsLoopS g rec u s ch rest

/-- Instrumented DFS with fuel. -/
def dfsGoS (g : Graph) : Nat → StS → Nat → Option StS
  | 0, _, _ => none
  | fuel + 1, s, u => dfsLoopS g (dfsGoS g fuel) u (visitUpdS s u) 0 (g.adjGet u)

/-- One root iteration of `analyzeWithSteps`. -/
def rootStepS (g : Graph) (fuel : Nat) (s : StS) (nd : Node) : Option StS :=
  if s.base.disc nd.id = some (-1) then
    match dfsGoS g fuel s nd.id with
    | none => none
    | some s1 => some (residualS s1)
  else some s

/-- Root loop of `analyzeWithSteps`. -/
def rootsLoopS (g : Graph) (fuel : Nat) : StS → List Node → Option StS
  | s, [] => some s
  | s, nd :: nds =>
    match rootStepS g fuel s nd with
    | none => none
    | some s1 => rootsLoopS g fuel s1 nds

/-- `Graph.analyzeWithSteps()`: the result together with the event
trace. -/
def Graph.analyzeWithSteps (g : Graph) : Option (AResult × List Step) :=
  (rootsLoopS g (fuelOf g) ⟨initSt g, []⟩ g.nodes).map fun s =>
    ({ articulationPoints := s.base.ap
       bridges := s.base.bridges
       components := s.base.comps
       edgeToComp := buildEdgeToComp s.base.comps }, s.steps)

/-! ### Ghost-instrumented analyzer

`analyzeWithStepsGhost` runs exactly the algorithm of `analyzeWithSteps`
but pairs every emitted event with verification-only snapshots of the live
algorithm state at the moment of emission: the edge stack, the set of
visited nodes (in discovery order), and the cumulative list of all edges
ever pushed.  Its projection onto `analyzeWithSteps` is proved below; the
snapshots are the "actual execution state" against which trace replay is
judged. -/

/-- An event with emission-time snapshots. -/
structure GStep where
  step : Step
  stackSnap : List (Nat × Nat)
  visitedSnap : List Nat
  pushedSnap : List (Nat × Nat)
deriving DecidableEq, Repr

/-- Ghost traversal state. -/
structure StG where
  base : St
  gvis : List Nat
  gpushed : List (Nat × Nat)
  gsteps : List GStep

/-- Emit an event, snapshotting the current state. -/
def emitG (s : StG) (e : Step) : StG :=
  { s with gsteps := s.gsteps ++ [⟨e, s.base.edgeStack, s.gvis, s.gpushed⟩] }

/-- Ghost `visit`. -/
def visitUpdG (s : StG) (u : Nat) : StG :=
  let t := s.base.time + 1
  emitG { s with base := visitUpd s.base u, gvis := setAdd s.gvis u }
    (Step.visit u (t : Int) (t : Int))

/-- Ghost tree-edge prelude. -/
def treePreG (s : StG) (u v : Nat) : StG :=
  emitG { s with base := treePre s.base u v, gpushed := s.gpushed ++ [(u, v)] }
    (Step.pushEdge u v false)

/-- Ghost back-edge body. -/
def backUpdG (s : StG) (u v : Nat) : StG :=
  let st1 := { s.base with edgeStack := (u, v) :: s.base.edgeStack }
  let s1 := emitG { s with base := st1, gpushed := s.gpushed ++ [(u, v)] }
    (Step.pushEdge u v true)
  emitG { s1 with base := { st1 with low := updF st1.low u (jmin (st1.low u) (st1.disc v)) } }
    (Step.updateLow u (jmin (st1.low u) (st1.disc v)) none (some v))

/-- Ghost post-child block. -/
def afterChildG (s : StG) (u v : Nat) (children : Nat) : StG :=
  let st := s.base
  let st1 := { st with low := updF st.low u (jmin (st.low u) (st.low v)) }
  let s1 := emitG { s with base := st1 }
    (Step.updateLow u (jmin (st.low u) (st.low v)) (some v) none)
  let s2 :=
    if st1.parent u = some (-1) ∧ 1 < children then
      emitG { s1 with base := { s1.base with ap := setAdd s1.base.ap u } } (Step.markAP u)
    else s1
  let s3 :=
    if ¬ s2.base.parent u = some (-1) ∧ oGe (s2.base.low v) (s2.base.disc u) then
      emitG { s2 with base := { s2.base with ap := setAdd s2.base.ap u } } (Step.markAP u)
    else s2
  let s4 :=
    if oGt (s3.base.low v) (s3.base.disc u) then
      emitG { s3 with base := { s3.base with bridges := s3.base.bridges ++ [(u, v)] } }
        (Step.markBridge u v)
    else s3
  if oGe (s4.base.low v) (s4.base.disc u) then
    let pr := popUntil u v s4.base.edgeStack
    if pr.1.isEmpty then { s4 with base := { s4.base with edgeStack := pr.2 } }
    else
      emitG
        { s4 with base :=
            { s4.base with comps := s4.base.comps ++ [⟨pr.1, vertsOf pr.1⟩], edgeStack := pr.2 } }
        (Step.popComponent s4.base.comps.length pr.1 (vertsOf pr.1))
  else s4

/-- Ghost root residual. -/
def residualG (s : StG) : StG :=
  match s.base.edgeStack with
  | [] => s
  | e :: rest =>
    let b := { s.base with
      comps := s.base.comps ++ [⟨e :: rest, vertsOf (e :: rest)⟩]
      edgeStack := ([] : List (Nat × Nat)) }
    emitG { s with base := b }
      (Step.popComponent s.base.comps.length (e :: rest) (vertsOf (e :: rest)))

/-- Ghost neighbor loop. -/
def dfsLoopG (g : Graph) (rec : StG → Nat → Option StG) (u : Nat) :
    StG → Nat → List Nat → Option StG
  | s, _, [] => some s
  | s, ch, v :: rest =>
    if g.present v then
      if s.base.disc v = some (-1) then
        match rec (treePreG s u v) v with
        | none => none
        | some s2 => dfsLoopG g rec u (afterChildG s2 u v (ch + 1)) (ch + 1) rest
      else if backCond s.base u v then dfsLoopG g rec u (backUpdG s u v) ch rest
      else dfsLoopG g rec u s ch rest
    else dfsLoopG g rec u s ch rest

/-- Ghost DFS with fuel. -/
def dfsGoG (g : Graph) : Nat → StG → Nat → Option StG
  | 0, _, _ => none
  | fuel + 1, s, u => dfsLoopG g (dfsGoG g fuel) u (visitUpdG s u) 0 (g.adjGet u)

/-- Ghost root iteration. -/
def rootStepG (g : Graph) (fuel : Nat) (s : StG) (nd : Node) : Option StG :=
  if s.base.disc nd.id = some (-1) then
    match dfsGoG g fuel s nd.id with
    | none => none
    | some s1 => some (residualG s1)
  else some s

/-- Ghost root loop. -/
def rootsLoopG (g : Graph) (fuel : Nat) : StG → List Node → Option StG
  | s, [] => some s
  | s, nd :: nds =>
    match rootStepG g fuel s nd with
    | none => none
    | some s1 => rootsLoopG g fuel s1 nds

/-- Ghost analyzer entry point. -/
def Graph.analyzeWithStepsGhost (g : Graph) : Option (AResult × List GStep) :=
  (rootsLoopG g (fuelOf g) ⟨initSt g, [], [], []⟩ g.nodes).map fun s =>
    ({ articulationPoints := s.base.ap
       bridges := s.base.bridges
       components := s.base.comps
       edgeToComp := buildEdgeToComp s.base.comps }, s.gsteps)

/-! ### Trace replay (`applyStepsUpTo` in app.js) -/

/-- A formed component as reconstructed by the stepper. -/
structure RComp where
  idx : Nat
  edges : List EdgeKey
deriving DecidableEq, Repr

/-- The visible state reconstructed by `applyStepsUpTo`. -/
structure Replay where
  pushedEdges : List EdgeKey
  formedComps : List RComp
  aps : List Nat
  bridges : List (Nat × Nat)
  currentVisit : Option Nat
  visitedNodes : List Nat
deriving DecidableEq, Repr

/-- The empty reconstruction state. -/
def initReplay : Replay := ⟨[], [], [], [], none, []⟩

/-- One iteration of the replay loop body. -/
def replayStep (r : Replay) (s : Step) : Replay :=
  match s with
  | .visit u _ _ =>
    { r with currentVisit := some u, visitedNodes := setAdd r.visitedNodes u }
  | .pushEdge u v _ => { r with pushedEdges := setAdd r.pushedEdges (Graph.edgeKey u v) }
  | .updateLow _ _ _ _ => r
  | .markAP u => { r with aps := setAdd r.aps u }
  | .markBridge u v => { r with bridges := r.bridges ++ [(u, v)] }
  | .popComponent idx edges _ =>
    { r with formedComps :=
        r.formedComps ++ [⟨idx, edges.map (fun e => Graph.edgeKey e.1 e.2)⟩] }

/-- `applyStepsUpTo(idx)`: replay events `0 .. idx` from scratch. -/
def applyStepsUpTo (steps : List Step) (idx : Nat) : Replay :=
  (steps.take (idx + 1)).foldl replayStep initReplay

/-! ### Graph invariants -/

/-- The ids of the current nodes. -/
def Graph.nodeIds (g : Graph) : List Nat := g.nodes.map (·.id)

/-- Adjacency symmetry: `b ∈ adjacency[a] ⇔ a ∈ adjacency[b]` (stated as an
implication over all ordered pairs, which is equivalent). -/
def Symm (g : Graph) : Prop :=
  ∀ a b : Nat, b ∈ g.adjGet a → a ∈ g.adjGet b

/-- Allocator invariant: every present node id is below `nextId`. -/
def idsBound (g : Graph) : Prop := ∀ n ∈ g.nodes, n.id < g.nextId

/-- The canonical unordered pair of an edge. -/
def canonPair (a b : Nat) : Nat × Nat := (min a b, max a b)

/-- Full well-formedness of a graph model state (the spec's §3 invariants
plus the allocator bound): unique node ids; adjacency keys unique, sets
duplicate-free, keyed exactly by present nodes, symmetric; ids below the
allocator; edge endpoints present and distinct; at most one edge per
unordered pair; edge collection and adjacency in lock-step.  Every clause
is bounded, so the predicate is decidable. -/
def WF (g : Graph) : Prop :=
  g.nodeIds.Nodup ∧
  (g.adj.map Prod.fst).Nodup ∧
  (∀ p ∈ g.adj, p.2.Nodup) ∧
  (∀ p ∈ g.adj, g.present p.1 = true) ∧
  (∀ n ∈ g.nodes, mapHas g.adj n.id = true) ∧
  (∀ p ∈ g.adj, ∀ j ∈ p.2, p.1 ∈ g.adjGet j) ∧
  (∀ n ∈ g.nodes, n.id < g.nextId) ∧
  (∀ p ∈ g.edgeMap, g.present p.2.a = true ∧ g.present p.2.b = true ∧ ¬ p.2.a = p.2.b) ∧
  (g.edgeMap.map (fun p => canonPair p.2.a p.2.b)).Nodup ∧
  (∀ p ∈ g.edgeMap, p.2.b ∈ g.adjGet p.2.a ∧ p.2.a ∈ g.adjGet p.2.b) ∧
  (∀ p ∈ g.adj, ∀ j ∈ p.2,
    ∃ q ∈ g.edgeMap, canonPair q.2.a q.2.b = canonPair p.1 j) ∧
  (∀ p ∈ g.edgeMap,
    (p.2.directed = true → p.1 = EdgeKey.dir p.2.a p.2.b) ∧
    (p.2.directed = false → p.1 = EdgeKey.undir p.2.a p.2.b ∧ p.2.a ≤ p.2.b))

instance (g : Graph) : Decidable (WF g) := by
  unfold WF
  exact inferInstance

instance (g : Graph) : Decidable (idsBound g) := by
  unfold idsBound
  exact inferInstance

/-- Present node ids still carrying the unvisited sentinel `-1`; the DFS
termination measure is its length. -/
def unvis (g : Graph) (st : St) : List Nat :=
  g.nodeIds.dedup.filter (fun i => decide (st.disc i = some (-1)))

/-- The DFS termination measure. -/
def uv (g : Graph) (st : St) : Nat := (unvis g st).length

/-- Canonical keys of a list of pushed edges. -/
def pushKeys (l : List (Nat × Nat)) : List EdgeKey :=
  l.map (fun e => Graph.edgeKey e.1 e.2)

/-- Does a component contain the edge `{a, b}` (matched as an unordered
pair)? -/
def compHasEdge (c : Comp) (a b : Nat) : Bool :=
  c.edges.any (fun e => decide (canonPair e.1 e.2 = canonPair a b))

/-- The ghost trace of a graph (empty if the analyzer ran out of fuel,
which is proved not to happen). -/
def ghostSteps (g : Graph) : List GStep :=
  ((g.analyzeWithStepsGhost).map (·.2)).getD []

/-! ### Concrete graphs used as witnesses and counterexamples -/

/-- The path `0-1-2-3`, built through the model's API. -/
def pathG : Graph :=
  let g := Graph.empty
  let g := (g.addNode 0 0).1
  let g := (g.addNode 0 0).1
  let g := (g.addNode 0 0).1
  let g := (g.addNode 0 0).1
  let g := ((g.addEdge 0 1 false).getD (g, false)).1
  let g := ((g.addEdge 1 2 false).getD (g, false)).1
  ((g.addEdge 2 3 false).getD (g, false)).1

/-- Two nodes joined by a single undirected edge. -/
def twoG : Graph :=
  let g := Graph.empty
  let g := (g.addNode 0 0).1
  let g := (g.addNode 0 0).1
  ((g.addEdge 0 1 false).getD (g, false)).1

/-- A single node and nothing else. -/
def oneG : Graph := (Graph.empty.addNode 0 0).1

/-- A state with symmetric adjacency but a stale allocator: node set is
empty, yet the adjacency index pairs `0` and `1` and `nextId` is `0`. -/
def stale01 : Graph := { nodes := [], adj := [(0, [1]), (1, [0])], nextId := 0, edgeMap := [] }

/-- The `Result` computed by `analyze` on `pathG` (verified by `decide`). -/
def pathResult : AResult :=
  { articulationPoints := [2, 1]
    bridges := [(2, 3), (1, 2), (0, 1)]
    components := [⟨[(2, 3)], [2, 3]⟩, ⟨[(1, 2)], [1, 2]⟩, ⟨[(0, 1)], [0, 1]⟩]
    edgeToComp := [(EdgeKey.undir 2 3, 0), (EdgeKey.undir 1 2, 1), (EdgeKey.undir 0 1, 2)] }

/-- The triangle `0-1, 1-2, 2-0`. -/
def triG : Graph :=
  let g := Graph.empty
  let g := (g.addNode 0 0).1
  let g := (g.addNode 0 0).1
  let g := (g.addNode 0 0).1
  let g := ((g.addEdge 0 1 false).getD (g, false)).1
  let g := ((g.addEdge 1 2 false).getD (g, false)).1
  ((g.addEdge 2 0 false).getD (g, false)).1

/-- Projection from the ghost-instrumented state onto the state of
`analyzeWithSteps` (drop the snapshots). -/
def StG.toS (s : StG) : StS := ⟨s.base, s.gsteps.map (fun gs => gs.step)⟩

/-- A snapshot triple: live edge stack, visited list, cumulative pushes. -/
def Snap : Type := List (Nat × Nat) × List Nat × List (Nat × Nat)

/-- The snapshot carried by a ghost step. -/
def GStep.snap (gs : GStep) : Snap := (gs.stackSnap, gs.visitedSnap, gs.pushedSnap)

/-- Local coherence of one ghost step with the preceding snapshot: each
event kind changes the live stack / visited list / pushes in exactly the
way the event describes. -/
def snapOK (prev : Snap) (gs : GStep) : Prop :=
  match gs.step with
  | .visit u _ _ =>
    gs.stackSnap = prev.1 ∧ gs.visitedSnap = setAdd prev.2.1 u ∧ gs.pushedSnap = prev.2.2
  | .pushEdge u v _ =>
    gs.stackSnap = (u, v) :: prev.1 ∧ gs.visitedSnap = prev.2.1 ∧
      gs.pushedSnap = prev.2.2 ++ [(u, v)]
  | .updateLow _ _ _ _ => gs.snap = prev
  | .markAP _ => gs.snap = prev
  | .markBridge _ _ => gs.snap = prev
  | .popComponent _ edges _ =>
    prev.1 = edges ++ gs.stackSnap ∧ gs.visitedSnap = prev.2.1 ∧ gs.pushedSnap = prev.2.2

/-- Coherence of a ghost trace, threaded from a starting snapshot. -/
def cohFrom : Snap → List GStep → Prop
  | _, [] => True
  | prev, gs :: rest => snapOK prev gs ∧ cohFrom gs.snap rest

/-- The last snapshot of a ghost trace (or the given default). -/
def lastSnap (dflt : Snap) : List GStep → Snap
  | [] => dflt
  | gs :: rest => lastSnap gs.snap rest

/-- The initial (empty) snapshot. -/
def snap0 : Snap := (([] : List (Nat × Nat)), ([] : List Nat), ([] : List (Nat × Nat)))

/-- The live snapshot triple of a ghost state. -/
def liveSnap (s : StG) : Snap := (s.base.edgeStack, s.gvis, s.gpushed)

/-- Ghost-execution invariant: the trace emitted so far is coherent and
its last snapshot is exactly the live state. -/
def Coh (s : StG) : Prop :=
  cohFrom snap0 s.gsteps ∧ lastSnap snap0 s.gsteps = liveSnap s

/-- A JS `Set` built from a list by repeated `add` (insertion-ordered,
deduplicated). -/
def jsSet {α : Type} [DecidableEq α] (l : List α) : List α := l.foldl setAdd []

/-- `afterChildG`, stage 1: the low-link update and its event. -/
def gLow1 (u v : Nat) (s : StG) : StG :=
  emitG { s with base :=
      { s.base with low := updF s.base.low u (jmin (s.base.low u) (s.base.low v)) } }
    (Step.updateLow u (jmin (s.base.low u) (s.base.low v)) (some v) none)

/-- `afterChildG`, stage 2: the root articulation rule. -/
def gAp1 (u children : Nat) (s : StG) : StG :=
  if s.base.parent u = some (-1) ∧ 1 < children then
    emitG { s with base := { s.base with ap := setAdd s.base.ap u } } (Step.markAP u)
  else s

/-- `afterChildG`, stage 3: the non-root articulation rule. -/
def gAp2 (u v : Nat) (s : StG) : StG :=
  if ¬ s.base.parent u = some (-1) ∧ oGe (s.base.low v) (s.base.disc u) then
    emitG { s with base := { s.base with ap := setAdd s.base.ap u } } (Step.markAP u)
  else s

/-- `afterChildG`, stage 4: the bridge rule. -/
def gBridge (u v : Nat) (s : StG) : StG :=
  if oGt (s.base.low v) (s.base.disc u) then
    emitG { s with base := { s.base with bridges := s.base.bridges ++ [(u, v)] } }
      (Step.markBridge u v)
  else s

/-- `afterChildG`, stage 5: the component-close rule. -/
def gPop (u v : Nat) (s : StG) : StG :=
  if oGe (s.base.low v) (s.base.disc u) then
    if (popUntil u v s.base.edgeStack).1.isEmpty then
      { s with base := { s.base with edgeStack := (popUntil u v s.base.edgeStack).2 } }
    else
      emitG { s with base :=
          { s.base with
              comps := s.base.comps ++
                [⟨(popUntil u v s.base.edgeStack).1, vertsOf (popUntil u v s.base.edgeStack).1⟩]
              edgeStack := (popUntil u v s.base.edgeStack).2 } }
        (Step.popComponent s.base.comps.length (popUntil u v s.base.edgeStack).1
          (vertsOf (popUntil u v s.base.edgeStack).1))
  else s

/-- The `Result` computed on `twoG` (verified by `decide`). -/
def twoRes : AResult :=
  { articulationPoints := []
    bridges := [(0, 1)]
    components := [⟨[(0, 1)], [0, 1]⟩]
    edgeToComp := [(EdgeKey.undir 0 1, 0)] }

/-- The ghost trace emitted on `twoG` (verified by `decide`): visit `0`,
push the tree edge, visit `1`, low-link update, bridge mark, and the
component close that empties the live stack. -/
def twoGhost : List GStep :=
  [ ⟨Step.visit 0 1 1, [], [0], []⟩,
    ⟨Step.pushEdge 0 1 false, [(0, 1)], [0], [(0, 1)]⟩,
    ⟨Step.visit 1 2 2, [(0, 1)], [0, 1], [(0, 1)]⟩,
    ⟨Step.updateLow 0 (some 1) (some 1) none, [(0, 1)], [0, 1], [(0, 1)]⟩,
    ⟨Step.markBridge 0 1, [(0, 1)], [0, 1], [(0, 1)]⟩,
    ⟨Step.popComponent 0 [(0, 1)] [0, 1], [], [0, 1], [(0, 1)]⟩ ]

/-! ### Accounting invariants of the ghost run (edge/component conservation) -/

/-- A node counts as visited once its discovery sentinel `-1` is gone. -/
def vis (st : St) (w : Nat) : Prop := ¬ st.disc w = some (-1)

/-- Canonical unordered pairs of a pushed-edge list. -/
def cpairs (l : List (Nat × Nat)) : List (Nat × Nat) := l.map (fun p => canonPair p.1 p.2)

/-- All component edges of a component list, concatenated. -/
def flatEdges (cs : List Comp) : List (Nat × Nat) := (cs.map Comp.edges).flatten

/-- The global accounting invariant of the ghost analyzer state:
every pushed edge sits in exactly one place (still on the stack or in one
finalized component), pushed edges are pairwise distinct as unordered
pairs, their endpoints are visited, each push is oriented (a tree edge
into its child, or a back edge to an earlier discovery time), discovery
times are bounded by the clock, and present nodes have a `disc` cell. -/
structure GInv (g : Graph) (s : StG) : Prop where
  conserve : s.gpushed.Perm (s.base.edgeStack ++ flatEdges s.base.comps)
  nodup : (cpairs s.gpushed).Nodup
  both : ∀ p ∈ s.gpushed, vis s.base p.1 ∧ vis s.base p.2
  orient : ∀ p ∈ s.gpushed,
    s.base.parent p.2 = some (p.1 : Int) ∨
      (vis s.base p.2 ∧ oLt (s.base.disc p.2) (s.base.disc p.1) = true)
  timeB : ∀ w d, s.base.disc w = some d → d ≤ (s.base.time : Int)
  discSome : ∀ w, g.present w = true → (s.base.disc w).isSome = true

/-- `GInv` relaxed at the entry of `dfs(u)`: the tree edge from the parent
into the still-unvisited `u` has already been pushed. -/
structure GInvA (g : Graph) (s : StG) (u : Nat) : Prop where
  conserve : s.gpushed.Perm (s.base.edgeStack ++ flatEdges s.base.comps)
  nodup : (cpairs s.gpushed).Nodup
  both : ∀ p ∈ s.gpushed, vis s.base p.1 ∧ (vis s.base p.2 ∨ p.2 = u)
  orient : ∀ p ∈ s.gpushed,
    s.base.parent p.2 = some (p.1 : Int) ∨
      (vis s.base p.2 ∧ oLt (s.base.disc p.2) (s.base.disc p.1) = true)
  timeB : ∀ w d, s.base.disc w = some d → d ≤ (s.base.time : Int)
  discSome : ∀ w, g.present w = true → (s.base.disc w).isSome = true

/-- Evolution facts of a ghost-execution segment: pushes only append, and
discovery/parent data of visited nodes is frozen (parents of
still-unvisited nodes too). -/
structure EFacts (s s2 : StG) : Prop where
  pushes : ∃ l, s2.gpushed = s.gpushed ++ l
  discSt : ∀ w, vis s.base w → s2.base.disc w = s.base.disc w
  parSt : ∀ w, vis s.base w → s2.base.parent w = s.base.parent w
  parUn : ∀ w, ¬ vis s2.base w → s2.base.parent w = s.base.parent w
  visMono : ∀ w, vis s.base w → vis s2.base w

/-- Edge coverage of a segment: every adjacency pair whose first endpoint
the segment newly visits and whose other endpoint ends up visited has been
pushed by the end of the segment. -/
def Covers (g : Graph) (s s2 : StG) : Prop :=
  ∀ w, g.present w = true → s.base.disc w = some (-1) → vis s2.base w →
    ∀ x ∈ g.adjGet w, g.present x = true → vis s2.base x →
      canonPair w x ∈ cpairs s2.gpushed

/-- Precondition of `dfs(u)` on the ghost state. -/
structure DPre (g : Graph) (s : StG) (u : Nat) : Prop where
  inv : GInvA g s u
  presU : g.present u = true
  sentinel : s.base.disc u = some (-1)
  parEdge : ∀ pv : Nat, s.base.parent u = some (pv : Int) → canonPair pv u ∈ cpairs s.gpushed

/-- Postcondition of `dfs(u)` on the ghost state. -/
structure DPost (g : Graph) (s s2 : StG) (u : Nat) : Prop where
  inv : GInv g s2
  facts : EFacts s s2
  covers : Covers g s s2
  visd : vis s2.base u
  newPush : ∃ l, s2.gpushed = s.gpushed ++ l ∧ ∀ p ∈ l, ¬ vis s.base p.1

/-- The root-loop invariant: the accounting invariant with an empty live
stack, and untouched parent cells for unvisited nodes. -/
structure RootInv (g : Graph) (s : StG) : Prop where
  inv : GInv g s
  stack : s.base.edgeStack = []
  par0 : ∀ w, ¬ vis s.base w → s.base.parent w = some (-1) ∨ s.base.parent w = none

/-! ### Association-list and JS-set lemmas -/

theorem mem_setAdd {α : Type} [DecidableEq α] {s : List α} {x y : α} :
    x ∈ setAdd s y ↔ x ∈ s ∨ x = y := by
  unfold setAdd
  split_ifs with h
  · constructor
    · exact Or.inl
    · rintro (hx | rfl)
      · exact hx
      · exact h
  · simp [List.mem_append]

theorem mem_setDelete {α : Type} [DecidableEq α] {s : List α} {x y : α} :
    x ∈ setDelete s y ↔ x ∈ s ∧ ¬ x = y := by
  unfold setDelete
  simp [List.mem_filter]

theorem setAdd_nodup {α : Type} [DecidableEq α] {s : List α} (h : s.Nodup) (y : α) :
    (setAdd s y).Nodup := by
  unfold setAdd
  split_ifs with hy
  · exact h
  · simpa [List.nodup_append] using ⟨h, hy⟩

theorem setDelete_nodup {α : Type} [DecidableEq α] {s : List α} (h : s.Nodup) (y : α) :
    (setDelete s y).Nodup :=
  h.filter _

theorem mapHas_iff {κ α : Type} [DecidableEq κ] {m : List (κ × α)} {k : κ} :
    mapHas m k = true ↔ ∃ v, (k, v) ∈ m := by
  unfold mapHas
  rw [List.any_eq_true]
  constructor
  · rintro ⟨p, hp, hk⟩
    have hk1 : p.1 = k := by simpa using hk
    exact ⟨p.2, by rw [← hk1]; exact hp⟩
  · rintro ⟨v, hv⟩
    exact ⟨(k, v), hv, by simp⟩

theorem mapGet?_isSome {κ α : Type} [DecidableEq κ] {m : List (κ × α)} {k : κ} :
    (mapGet? m k).isSome = true ↔ mapHas m k = true := by
  unfold mapGet? mapHas
  have hsome : (Option.map (fun p : κ × α => p.2) (m.find? (fun p => decide (p.1 = k)))).isSome
      = (m.find? (fun p => decide (p.1 = k))).isSome := by
    cases m.find? (fun p => decide (p.1 = k)) <;> rfl
  rw [hsome, List.find?_isSome, List.any_eq_true]

theorem mapGet?_eq_none {κ α : Type} [DecidableEq κ] {m : List (κ × α)} {k : κ} :
    mapGet? m k = none ↔ mapHas m k = false := by
  rw [← Option.not_isSome_iff_eq_none, ← Bool.not_eq_true, not_iff_not, mapGet?_isSome]

theorem mapGet?_mem {κ α : Type} [DecidableEq κ] {m : List (κ × α)} {k : κ} {v : α}
    (h : mapGet? m k = some v) : (k, v) ∈ m := by
  unfold mapGet? at h
  rcases Option.map_eq_some'.mp h with ⟨p, hp, hv⟩
  have hk : p.1 = k := by simpa using List.find?_some hp
  have := List.mem_of_find?_eq_some hp
  rwa [show p = (k, v) from Prod.ext hk hv] at this

theorem find?_key_eq {κ α : Type} [DecidableEq κ] {m : List (κ × α)} {k : κ} {s : α}
    (h : mapGet? m k = some s) :
    m.find? (fun p => decide (p.1 = k)) = some (k, s) := by
  unfold mapGet? at h
  rcases Option.map_eq_some'.mp h with ⟨p, hp, hv⟩
  have hk : p.1 = k := by simpa using List.find?_some hp
  rwa [show p = (k, s) from Prod.ext hk hv] at hp

theorem mapGet?_map_pair {κ α β : Type} [DecidableEq κ] (t : κ × α → β)
    (m : List (κ × α)) (k : κ) :
    mapGet? (m.map (fun p => (p.1, t p))) k =
      (m.find? (fun p => decide (p.1 = k))).map t := by
  induction m with
  | nil => rfl
  | cons p m ih =>
    by_cases hp : p.1 = k
    · unfold mapGet?
      rw [List.map_cons, List.find?_cons_of_pos _ (by simpa using hp),
        List.find?_cons_of_pos _ (by simpa using hp)]
      rfl
    · unfold mapGet?
      rw [List.map_cons, List.find?_cons_of_neg _ (by simpa using hp),
        List.find?_cons_of_neg _ (by simpa using hp)]
      exact ih

theorem mapHas_map_pair2 {κ α β : Type} [DecidableEq κ] (t : κ × α → β)
    (m : List (κ × α)) (k : κ) :
    mapHas (m.map (fun p => (p.1, t p))) k = mapHas m k := by
  unfold mapHas
  induction m with
  | nil => rfl
  | cons p m ih => simp only [List.map_cons, List.any_cons, ih]

theorem mapSet_eq_map {κ α : Type} [DecidableEq κ] {m : List (κ × α)} {k : κ} {v : α}
    (h : mapHas m k = true) :
    mapSet m k v = m.map (fun p => (p.1, if p.1 = k then v else p.2)) := by
  unfold mapSet
  rw [if_pos h]
  refine List.map_congr_left fun p _ => ?_
  by_cases hp : p.1 = k
  · simp [hp]
  · simp [hp]

theorem mapSet_eq_append {κ α : Type} [DecidableEq κ] {m : List (κ × α)} {k : κ} {v : α}
    (h : mapHas m k = false) : mapSet m k v = m ++ [(k, v)] := by
  unfold mapSet
  rw [if_neg (by simp [h])]

theorem mapGet?_append_single {κ α : Type} [DecidableEq κ] {m : List (κ × α)} {k k' : κ} {v : α} :
    mapGet? (m ++ [(k, v)]) k' =
      (mapGet? m k').or (if k = k' then some v else none) := by
  unfold mapGet?
  rw [List.find?_append]
  cases hf : m.find? (fun p => decide (p.1 = k')) with
  | some p => simp
  | none =>
    by_cases hk : k = k'
    · simp [List.find?_cons, hk]
    · simp [List.find?_cons, hk]

theorem mapGet?_mapSet_self {κ α : Type} [DecidableEq κ] {m : List (κ × α)} {k : κ} {v : α} :
    mapGet? (mapSet m k v) k = some v := by
  by_cases h : mapHas m k = true
  · rw [mapSet_eq_map h, mapGet?_map_pair]
    obtain ⟨w, hw⟩ := mapHas_iff.mp h
    have hs : (m.find? (fun p => decide (p.1 = k))).isSome = true :=
      List.find?_isSome.mpr ⟨(k, w), hw, by simp⟩
    obtain ⟨pr, hpr⟩ := Option.isSome_iff_exists.mp hs
    rw [hpr]
    have hk1 : pr.1 = k := by simpa using List.find?_some hpr
    simp [hk1]
  · rw [mapSet_eq_append (by simpa using h), mapGet?_append_single]
    have hn : mapGet? m k = none := mapGet?_eq_none.mpr (by simpa using h)
    rw [hn]
    simp

theorem mapGet?_mapSet_ne {κ α : Type} [DecidableEq κ] {m : List (κ × α)} {k k' : κ} {v : α}
    (h : ¬ k' = k) : mapGet? (mapSet m k v) k' = mapGet? m k' := by
  by_cases hh : mapHas m k = true
  · rw [mapSet_eq_map hh, mapGet?_map_pair]
    conv_rhs => unfold mapGet?
    cases hf : m.find? (fun p => decide (p.1 = k')) with
    | none => simp
    | some pr =>
      have hk1 : pr.1 = k' := by simpa using List.find?_some hf
      simp [hk1, h]
  · rw [mapSet_eq_append (by simpa using hh), mapGet?_append_single]
    have hk : ¬ (k = k') := fun hc => h hc.symm
    rw [if_neg hk]
    cases mapGet? m k' <;> rfl

theorem mapGet?_mapDelete_self {κ α : Type} [DecidableEq κ] {m : List (κ × α)} {k : κ} :
    mapGet? (mapDelete m k) k = none := by
  unfold mapGet? mapDelete
  rw [Option.map_eq_none', List.find?_eq_none]
  intro p hp
  have := (List.mem_filter.mp hp).2
  simpa using this

theorem mapGet?_mapDelete_ne {κ α : Type} [DecidableEq κ] {m : List (κ × α)} {k k' : κ}
    (h : ¬ k' = k) : mapGet? (mapDelete m k) k' = mapGet? m k' := by
  unfold mapGet? mapDelete
  congr 1
  induction m with
  | nil => rfl
  | cons p m ih =>
    rw [List.filter_cons]
    by_cases hp : p.1 = k
    · rw [if_neg (by simp [hp])]
      rw [List.find?_cons_of_neg _ (by simp [hp]; exact fun hc => h hc.symm)]
      exact ih
    · rw [if_pos (by simpa using hp)]
      by_cases hp' : p.1 = k'
      · rw [List.find?_cons_of_pos _ (by simpa using hp'),
          List.find?_cons_of_pos _ (by simpa using hp')]
      · rw [List.find?_cons_of_neg _ (by simpa using hp'),
          List.find?_cons_of_neg _ (by simpa using hp')]
        exact ih

theorem mapHas_eq_isSome {κ α : Type} [DecidableEq κ] {m : List (κ × α)} {k : κ} :
    mapHas m k = (mapGet? m k).isSome := by
  rw [Bool.eq_iff_iff]
  exact mapGet?_isSome.symm

theorem mapHas_mapSet_self {κ α : Type} [DecidableEq κ] {m : List (κ × α)} {k : κ} {v : α} :
    mapHas (mapSet m k v) k = true := by
  rw [mapHas_eq_isSome, mapGet?_mapSet_self]
  rfl

theorem mapHas_mapSet_ne {κ α : Type} [DecidableEq κ] {m : List (κ × α)} {k k' : κ} {v : α}
    (h : ¬ k' = k) : mapHas (mapSet m k v) k' = mapHas m k' := by
  rw [mapHas_eq_isSome, mapHas_eq_isSome, mapGet?_mapSet_ne h]

theorem length_mapSet_new {κ α : Type} [DecidableEq κ] {m : List (κ × α)} {k : κ} {v : α}
    (h : mapHas m k = false) : (mapSet m k v).length = m.length + 1 := by
  unfold mapSet
  rw [if_neg (by simp [h])]
  simp

theorem setDelete_eq_self {α : Type} [DecidableEq α] {s : List α} {x : α} (h : x ∉ s) :
    setDelete s x = s := by
  unfold setDelete
  refine List.filter_eq_self.mpr fun y hy => ?_
  simp only [decide_eq_true_eq]
  exact fun hc => h (hc ▸ hy)

/-! ### Basic graph accessors -/

theorem mem_adjGet_iff {g : Graph} {k j : Nat} :
    j ∈ g.adjGet k ↔ ∃ s, mapGet? g.adj k = some s ∧ j ∈ s := by
  unfold Graph.adjGet
  cases h : mapGet? g.adj k with
  | none => simp
  | some s => simp

theorem adjGet_of_get {g : Graph} {k : Nat} {s : List Nat}
    (h : mapGet? g.adj k = some s) : g.adjGet k = s := by
  unfold Graph.adjGet
  rw [h]
  rfl

theorem adjGet_of_none {g : Graph} {k : Nat} (h : mapGet? g.adj k = none) :
    g.adjGet k = [] := by
  unfold Graph.adjGet
  rw [h]
  rfl

theorem present_iff {g : Graph} {v : Nat} :
    g.present v = true ↔ ∃ n ∈ g.nodes, n.id = v := by
  unfold Graph.present
  rw [List.any_eq_true]
  simp

/-- Destructured well-formedness facts. -/
theorem WF.symmAdj {g : Graph} (h : WF g) : Symm g := by
  intro a b hb
  obtain ⟨s, hs, hmem⟩ := mem_adjGet_iff.mp hb
  exact h.2.2.2.2.2.1 (a, s) (mapGet?_mem hs) b hmem

theorem WF.present_mapHas {g : Graph} (h : WF g) {v : Nat} (hv : g.present v = true) :
    mapHas g.adj v = true := by
  obtain ⟨n, hn, hid⟩ := present_iff.mp hv
  exact hid ▸ h.2.2.2.2.1 n hn

theorem WF.adj_mem_present {g : Graph} (h : WF g) {k j : Nat} (hj : j ∈ g.adjGet k) :
    g.present j = true := by
  have hk := h.symmAdj k j hj
  obtain ⟨s, hs, hmem⟩ := mem_adjGet_iff.mp hk
  exact h.2.2.2.1 (j, s) (mapGet?_mem hs)

theorem WF.adj_key_present {g : Graph} (h : WF g) {k j : Nat} (hj : j ∈ g.adjGet k) :
    g.present k = true := by
  obtain ⟨s, hs, hmem⟩ := mem_adjGet_iff.mp hj
  exact h.2.2.2.1 (k, s) (mapGet?_mem hs)

theorem WF.no_self_adj {g : Graph} (h : WF g) {j : Nat} : j ∉ g.adjGet j := by
  intro hj
  obtain ⟨s, hs, hmem⟩ := mem_adjGet_iff.mp hj
  obtain ⟨q, hq, hcanon⟩ := h.2.2.2.2.2.2.2.2.2.2.1 (j, s) (mapGet?_mem hs) j hmem
  have hne := (h.2.2.2.2.2.2.2.1 q hq).2.2
  unfold canonPair at hcanon
  have h1 : min q.2.a q.2.b = j := by simpa using congrArg Prod.fst hcanon
  have h2 : max q.2.a q.2.b = j := by simpa using congrArg Prod.snd hcanon
  rcases Nat.le_total q.2.a q.2.b with hle | hle
  · rw [Nat.min_eq_left hle] at h1
    rw [Nat.max_eq_right hle] at h2
    exact hne (h1.trans h2.symm)
  · rw [Nat.min_eq_right hle] at h1
    rw [Nat.max_eq_left hle] at h2
    exact hne (h2.trans h1.symm)

theorem WF.present_lt_nextId {g : Graph} (h : WF g) {v : Nat} (hv : g.present v = true) :
    v < g.nextId := by
  obtain ⟨n, hn, hid⟩ := present_iff.mp hv
  exact hid ▸ h.2.2.2.2.2.2.1 n hn

theorem WF.adjGet_nodup {g : Graph} (h : WF g) (k : Nat) : (g.adjGet k).Nodup := by
  cases hs : mapGet? g.adj k with
  | none => rw [adjGet_of_none hs]; exact List.nodup_nil
  | some s => rw [adjGet_of_get hs]; exact h.2.2.1 (k, s) (mapGet?_mem hs)

/-! ### `addEdge` characterization -/

theorem addEdge_self {g : Graph} {a : Nat} {d : Bool} :
    g.addEdge a a d = some (g, false) := by
  unfold Graph.addEdge
  rw [if_pos rfl]

theorem addEdge_dup_undir {g : Graph} {a b : Nat} (hab : ¬ a = b)
    (hkey : mapHas g.edgeMap (Graph.edgeKey a b) = true) :
    g.addEdge a b false = some (g, false) := by
  unfold Graph.edgeKey at hkey
  simp [Graph.addEdge, hab, hkey]

theorem addEdge_dup_dir {g : Graph} {a b : Nat} (hab : ¬ a = b)
    (hkey : mapHas g.edgeMap (EdgeKey.dir a b) = true) :
    g.addEdge a b true = some (g, false) := by
  simp [Graph.addEdge, hab, hkey]

theorem addEdge_new_undir {g : Graph} {a b : Nat} {sa sb : List Nat} (hab : ¬ a = b)
    (hkey : mapHas g.edgeMap (Graph.edgeKey a b) = false)
    (hsa : mapGet? g.adj a = some sa) (hsb : mapGet? g.adj b = some sb) :
    g.addEdge a b false = some
      ({ g with
          edgeMap := mapSet g.edgeMap (Graph.edgeKey a b) ⟨min a b, max a b, false⟩
          adj := mapSet (mapSet g.adj a (setAdd sa b)) b (setAdd sb a) }, true) := by
  have hba : ¬ b = a := fun hc => hab hc.symm
  have hsb2 : mapGet? (mapSet g.adj a (setAdd sa b)) b = some sb := by
    rw [mapGet?_mapSet_ne hba]
    exact hsb
  unfold Graph.edgeKey at *
  simp [Graph.addEdge, hab, hkey, hsa, hsb2]

theorem addEdge_new_dir {g : Graph} {a b : Nat} {sa sb : List Nat} (hab : ¬ a = b)
    (hkey : mapHas g.edgeMap (EdgeKey.dir a b) = false)
    (hsa : mapGet? g.adj a = some sa) (hsb : mapGet? g.adj b = some sb) :
    g.addEdge a b true = some
      ({ g with
          edgeMap := mapSet g.edgeMap (EdgeKey.dir a b) ⟨a, b, true⟩
          adj := mapSet (mapSet g.adj a (setAdd sa b)) b (setAdd sb a) }, true) := by
  have hba : ¬ b = a := fun hc => hab hc.symm
  have hsb2 : mapGet? (mapSet g.adj a (setAdd sa b)) b = some sb := by
    rw [mapGet?_mapSet_ne hba]
    exact hsb
  simp [Graph.addEdge, hab, hkey, hsa, hsb2]

/-- Every successful `addEdge` either mutates nothing or performs the
symmetric adjacency insertion. -/
theorem addEdge_adj_cases {g g' : Graph} {a b : Nat} {d : Bool} {r : Bool}
    (h : g.addEdge a b d = some (g', r)) :
    (g' = g ∧ r = false) ∨
    (r = true ∧ ¬ a = b ∧ ∃ sa sb, mapGet? g.adj a = some sa ∧
      mapGet? g.adj b = some sb ∧
      g'.adj = mapSet (mapSet g.adj a (setAdd sa b)) b (setAdd sb a) ∧
      g'.nodes = g.nodes ∧ g'.nextId = g.nextId) := by
  by_cases hab : a = b
  · rw [hab, addEdge_self] at h
    left
    have := Option.some.inj h
    exact ⟨(congrArg Prod.fst this).symm, (congrArg Prod.snd this).symm⟩
  have hba : ¬ b = a := fun hc => hab hc.symm
  cases d with
  | false =>
    by_cases hkey : mapHas g.edgeMap (Graph.edgeKey a b) = true
    · rw [addEdge_dup_undir hab hkey] at h
      left
      have := Option.some.inj h
      exact ⟨(congrArg Prod.fst this).symm, (congrArg Prod.snd this).symm⟩
    · cases hsa : mapGet? g.adj a with
      | none =>
        exfalso
        unfold Graph.edgeKey at hkey
        unfold Graph.addEdge at h
        simp [hab, hkey, hsa] at h
      | some sa =>
        cases hsb : mapGet? g.adj b with
        | none =>
          exfalso
          have hsb2 : mapGet? (mapSet g.adj a (setAdd sa b)) b = none := by
            rw [mapGet?_mapSet_ne hba]
            exact hsb
          unfold Graph.edgeKey at hkey
          unfold Graph.addEdge at h
          simp [hab, hkey, hsa, hsb2] at h
        | some sb =>
          rw [addEdge_new_undir hab (by simpa using hkey) hsa hsb] at h
          have hpair := Option.some.inj h
          have hg := congrArg Prod.fst hpair
          have hr := congrArg Prod.snd hpair
          right
          subst hg
          exact ⟨hr.symm, hab, sa, sb, rfl, rfl, rfl, rfl, rfl⟩
  | true =>
    by_cases hkey : mapHas g.edgeMap (EdgeKey.dir a b) = true
    · rw [addEdge_dup_dir hab hkey] at h
      left
      have := Option.some.inj h
      exact ⟨(congrArg Prod.fst this).symm, (congrArg Prod.snd this).symm⟩
    · cases hsa : mapGet? g.adj a with
      | none =>
        exfalso
        unfold Graph.addEdge at h
        simp [hab, hkey, hsa] at h
      | some sa =>
        cases hsb : mapGet? g.adj b with
        | none =>
          exfalso
          have hsb2 : mapGet? (mapSet g.adj a (setAdd sa b)) b = none := by
            rw [mapGet?_mapSet_ne hba]
            exact hsb
          unfold Graph.addEdge at h
          simp [hab, hkey, hsa, hsb2] at h
        | some sb =>
          rw [addEdge_new_dir hab (by simpa using hkey) hsa hsb] at h
          have hpair := Option.some.inj h
          have hg := congrArg Prod.fst hpair
          have hr := congrArg Prod.snd hpair
          right
          subst hg
          exact ⟨hr.symm, hab, sa, sb, rfl, rfl, rfl, rfl, rfl⟩

/-- Under the presence precondition (and the invariant tying nodes to
adjacency entries), `addEdge` cannot hit its error branch. -/
theorem addEdge_isSome {g : Graph} {a b : Nat} {d : Bool} (hwf : WF g)
    (ha : g.present a = true) (hb : g.present b = true) :
    (g.addEdge a b d).isSome = true := by
  by_cases hab : a = b
  · rw [hab, addEdge_self]
    rfl
  have hba : ¬ b = a := fun hc => hab hc.symm
  obtain ⟨sa, hsa⟩ := Option.isSome_iff_exists.mp (mapGet?_isSome.mpr (hwf.present_mapHas ha))
  obtain ⟨sb, hsb⟩ := Option.isSome_iff_exists.mp (mapGet?_isSome.mpr (hwf.present_mapHas hb))
  cases d with
  | false =>
    by_cases hkey : mapHas g.edgeMap (Graph.edgeKey a b) = true
    · rw [addEdge_dup_undir hab hkey]
      rfl
    · rw [addEdge_new_undir hab (by simpa using hkey) hsa hsb]
      rfl
  | true =>
    by_cases hkey : mapHas g.edgeMap (EdgeKey.dir a b) = true
    · rw [addEdge_dup_dir hab hkey]
      rfl
    · rw [addEdge_new_dir hab (by simpa using hkey) hsa hsb]
      rfl

/-! ### `deleteEdge`, `deleteEdgeByKey`, `addNode`, `deleteNode`,
`renameNode` characterizations -/

theorem mapHas_mapDelete_ne {κ α : Type} [DecidableEq κ] {m : List (κ × α)} {k k' : κ}
    (h : ¬ k' = k) : mapHas (mapDelete m k) k' = mapHas m k' := by
  rw [mapHas_eq_isSome, mapHas_eq_isSome, mapGet?_mapDelete_ne h]

theorem mapGet?_map_pair_get {κ α β : Type} [DecidableEq κ] (t : κ × α → β)
    (m : List (κ × α)) (k : κ) :
    mapGet? (m.map (fun p => (p.1, t p))) k = (mapGet? m k).map (fun v => t (k, v)) := by
  rw [mapGet?_map_pair]
  cases hf : m.find? (fun p => decide (p.1 = k)) with
  | none =>
    unfold mapGet?
    rw [hf]
    rfl
  | some pr =>
    have hk : pr.1 = k := by simpa using List.find?_some hf
    unfold mapGet?
    rw [hf, ← hk]
    rfl

/-- The key actually looked up by `deleteEdge`. -/
def delKey (a b : Nat) (d : Bool) : EdgeKey :=
  if d then EdgeKey.dir a b else EdgeKey.undir (min a b) (max a b)

theorem deleteEdge_absent {g : Graph} {a b : Nat} {d : Bool}
    (h : mapHas g.edgeMap (delKey a b d) = false) :
    g.deleteEdge a b d = some (g, false) := by
  unfold Graph.deleteEdge
  unfold delKey at h
  simp [h]

theorem deleteEdge_present {g : Graph} {a b : Nat} {d : Bool} {sa sb : List Nat}
    (hab : ¬ a = b) (hkey : mapHas g.edgeMap (delKey a b d) = true)
    (hsa : mapGet? g.adj a = some sa) (hsb : mapGet? g.adj b = some sb) :
    g.deleteEdge a b d = some
      ({ g with
          edgeMap := mapDelete g.edgeMap (delKey a b d)
          adj := mapSet (mapSet g.adj a (setDelete sa b)) b (setDelete sb a) }, true) := by
  have hba : ¬ b = a := fun hc => hab hc.symm
  have hsb2 : mapGet? (mapSet g.adj a (setDelete sa b)) b = some sb := by
    rw [mapGet?_mapSet_ne hba]
    exact hsb
  unfold Graph.deleteEdge delKey
  unfold delKey at hkey
  simp [hkey, hsa, hsb2]

/-- Under `WF`, a present `deleteEdge` key forces its two arguments to be
distinct present nodes. -/
theorem WF.delKey_present {g : Graph} (hwf : WF g) {a b : Nat} {d : Bool}
    (hkey : mapHas g.edgeMap (delKey a b d) = true) :
    g.present a = true ∧ g.present b = true ∧ ¬ a = b := by
  obtain ⟨q, hq⟩ := mapHas_iff.mp hkey
  have h8 := hwf.2.2.2.2.2.2.2.1 (delKey a b d, q) hq
  have h12 := hwf.2.2.2.2.2.2.2.2.2.2.2 (delKey a b d, q) hq
  cases hd : q.directed with
  | true =>
    have hk := h12.1 hd
    cases d with
    | true =>
      have : EdgeKey.dir a b = EdgeKey.dir q.a q.b := by
        rw [← hk]
        rfl
      have ha : a = q.a := by injection this
      have hb : b = q.b := by injection this with h1 h2
      exact ⟨ha ▸ h8.1, hb ▸ h8.2.1, fun hc => h8.2.2 (by rw [← ha, ← hb, hc])⟩
    | false =>
      exfalso
      have : EdgeKey.undir (min a b) (max a b) = EdgeKey.dir q.a q.b := by
        rw [← hk]
        rfl
      exact EdgeKey.noConfusion this
  | false =>
    have hk := (h12.2 hd).1
    cases d with
    | true =>
      exfalso
      have : EdgeKey.dir a b = EdgeKey.undir q.a q.b := by
        rw [← hk]
        rfl
      exact EdgeKey.noConfusion this
    | false =>
      have : EdgeKey.undir (min a b) (max a b) = EdgeKey.undir q.a q.b := by
        rw [← hk]
        rfl
      have hmin : min a b = q.a := by injection this
      have hmax : max a b = q.b := by injection this with h1 h2
      have hab : ¬ a = b := by
        intro hc
        subst hc
        apply h8.2.2
        rw [← hmin, ← hmax]
        simp
      have hmem : a = min a b ∨ a = max a b := by
        rcases Nat.le_total a b with hle | hle
        · exact Or.inl (by rw [Nat.min_eq_left hle])
        · exact Or.inr (by rw [Nat.max_eq_left hle])
      have hmemb : b = min a b ∨ b = max a b := by
        rcases Nat.le_total a b with hle | hle
        · exact Or.inr (by rw [Nat.max_eq_right hle])
        · exact Or.inl (by rw [Nat.min_eq_right hle])
      have hpa : g.present a = true := by
        rcases hmem with h | h
        · rw [h, hmin]; exact h8.1
        · rw [h, hmax]; exact h8.2.1
      have hpb : g.present b = true := by
        rcases hmemb with h | h
        · rw [h, hmin]; exact h8.1
        · rw [h, hmax]; exact h8.2.1
      exact ⟨hpa, hpb, hab⟩

theorem deleteEdgeByKey_absent {g : Graph} {key : EdgeKey}
    (h : mapHas g.edgeMap key = false) : g.deleteEdgeByKey key = (g, false) := by
  unfold Graph.deleteEdgeByKey
  simp [h]

theorem deleteEdgeByKey_present {g : Graph} {key : EdgeKey} {e : EdgeRec} {sa sb : List Nat}
    (he : mapGet? g.edgeMap key = some e) (hab : ¬ e.a = e.b)
    (hsa : mapGet? g.adj e.a = some sa) (hsb : mapGet? g.adj e.b = some sb) :
    g.deleteEdgeByKey key =
      ({ g with
          edgeMap := mapDelete g.edgeMap key
          adj := mapSet (mapSet g.adj e.a (setDelete sa e.b)) e.b (setDelete sb e.a) }, true) := by
  have hba : ¬ e.b = e.a := fun hc => hab hc.symm
  have hkey : mapHas g.edgeMap key = true := by
    rw [mapHas_eq_isSome, he]
    rfl
  have hhasa : mapHas g.adj e.a = true := by
    rw [mapHas_eq_isSome, hsa]
    rfl
  have hsb2 : mapGet? (mapSet g.adj e.a (setDelete sa e.b)) e.b = some sb := by
    rw [mapGet?_mapSet_ne hba]
    exact hsb
  have hhasb : mapHas (mapSet g.adj e.a (setDelete sa e.b)) e.b = true := by
    rw [mapHas_eq_isSome, hsb2]
    rfl
  unfold Graph.deleteEdgeByKey
  simp [hkey, he, hhasa, hsa, hhasb, hsb2]

theorem addNode_adj {g : Graph} {x y : Int} (hfresh : mapHas g.adj g.nextId = false) :
    (g.addNode x y).1.adj = g.adj ++ [(g.nextId, [])] := by
  unfold Graph.addNode
  simpa using mapSet_eq_append hfresh

theorem addNode_adjGet {g : Graph} {x y : Int} (hfresh : mapHas g.adj g.nextId = false)
    (k : Nat) :
    (g.addNode x y).1.adjGet k = if k = g.nextId then [] else g.adjGet k := by
  unfold Graph.adjGet
  rw [addNode_adj hfresh, mapGet?_append_single]
  by_cases hk : k = g.nextId
  · subst hk
    rw [mapGet?_eq_none.mpr hfresh, if_pos rfl, if_pos rfl]
    rfl
  · rw [if_neg hk, if_neg (fun hc => hk hc.symm)]
    cases mapGet? g.adj k <;> rfl

/-- Effect on lookups of the neighbor-scrub fold inside `deleteNode`. -/
theorem foldDelete_get (id : Nat) :
    ∀ (neigh : List Nat) (m : List (Nat × List Nat)), neigh.Nodup → ∀ k : Nat,
      mapGet? (neigh.foldl
        (fun m v =>
          if mapHas m v then mapSet m v (setDelete ((mapGet? m v).getD []) id) else m) m) k
      = if k ∈ neigh then (mapGet? m k).map (fun s => setDelete s id) else mapGet? m k := by
  intro neigh
  induction neigh with
  | nil =>
    intro m _ k
    rw [if_neg (show k ∉ ([] : List Nat) by simp)]
    rfl
  | cons v vs ih =>
    intro m hnd k
    have hv : v ∉ vs := (List.nodup_cons.mp hnd).1
    have hvs : vs.Nodup := (List.nodup_cons.mp hnd).2
    rw [List.foldl_cons, ih _ hvs k]
    by_cases hkv : k = v
    · have hknv : k ∉ vs := fun hc => hv (hkv ▸ hc)
      rw [if_neg hknv, if_pos (show k ∈ v :: vs by rw [hkv]; exact List.mem_cons_self v vs)]
      by_cases hhas : mapHas m v = true
      · rw [if_pos hhas]
        obtain ⟨s, hs⟩ := Option.isSome_iff_exists.mp (mapGet?_isSome.mpr hhas)
        have hgd : (mapGet? m v).getD [] = s := by rw [hs]; rfl
        rw [hgd, hkv, mapGet?_mapSet_self, hs]
        rfl
      · rw [if_neg hhas]
        have hnone : mapGet? m k = none := by
          rw [hkv]
          exact mapGet?_eq_none.mpr (by simpa using hhas)
        rw [hnone]
        rfl
    · by_cases hkvs : k ∈ vs
      · rw [if_pos hkvs, if_pos (List.mem_cons_of_mem v hkvs)]
        by_cases hhas : mapHas m v = true
        · rw [if_pos hhas, mapGet?_mapSet_ne hkv]
        · rw [if_neg hhas]
      · rw [if_neg hkvs, if_neg (show k ∉ v :: vs by simp [hkv, hkvs])]
        by_cases hhas : mapHas m v = true
        · rw [if_pos hhas, mapGet?_mapSet_ne hkv]
        · rw [if_neg hhas]

/-- The net effect of `deleteNode` on adjacency lookups. -/
theorem deleteNode_adjGet {g : Graph} (hwf : WF g) (id k : Nat) :
    ((g.deleteNode id).1).adjGet k = if k = id then [] else setDelete (g.adjGet k) id := by
  unfold Graph.deleteNode Graph.adjGet
  rw [mapGet?_map_pair_get (fun q : Nat × List Nat =>
    if id ∈ q.2 then setDelete q.2 id else q.2)]
  by_cases hhas : mapHas g.adj id = true
  · rw [if_pos hhas]
    by_cases hk : k = id
    · subst hk
      rw [mapGet?_mapDelete_self, if_pos rfl]
      rfl
    · rw [mapGet?_mapDelete_ne hk, if_neg hk,
        foldDelete_get id _ g.adj
          (show ((mapGet? g.adj id).getD []).Nodup from hwf.adjGet_nodup id) k]
      by_cases hkn : k ∈ (mapGet? g.adj id).getD []
      · rw [if_pos hkn]
        cases hs : mapGet? g.adj k with
        | none => rfl
        | some u =>
          have hid : id ∉ setDelete u id := by
            rw [mem_setDelete]
            exact fun hc => hc.2 rfl
          simp [hid]
      · rw [if_neg hkn]
        cases hs : mapGet? g.adj k with
        | none => rfl
        | some u =>
          by_cases hin : id ∈ u
          · simp [hin]
          · simp [hin, setDelete_eq_self hin]
  · rw [if_neg hhas]
    by_cases hk : k = id
    · subst hk
      rw [mapGet?_eq_none.mpr (by simpa using hhas), if_pos rfl]
      rfl
    · rw [if_neg hk]
      cases hs : mapGet? g.adj k with
      | none => rfl
      | some u =>
        by_cases hin : id ∈ u
        · simp [hin]
        · simp [hin, setDelete_eq_self hin]


/-- The adjacency index after a successful `renameNode`. -/
theorem renameNode_adj {g : Graph} {oldId newId : Nat} (hon : ¬ oldId = newId)
    (hnew : g.nodes.any (fun n => n.id = newId) = false) :
    ((g.renameNode oldId newId).1).adj =
      (mapSet (mapDelete g.adj oldId) newId ((mapGet? g.adj oldId).getD [])).map
        (fun p => if p.1 = newId then p
          else if oldId ∈ p.2 then (p.1, setAdd (setDelete p.2 oldId) newId) else p) := by
  unfold Graph.renameNode
  rw [if_neg hon, if_neg (show ¬ (g.nodes.any (fun n => decide (n.id = newId))) = true by
    simp only [hnew]; exact Bool.false_ne_true)]

/-- The net effect of a successful `renameNode` on adjacency lookups,
assuming `newId` has no stale adjacency entry (guaranteed by `WF`). -/
theorem renameNode_adjGet {g : Graph} {oldId newId : Nat} (hon : ¬ oldId = newId)
    (hnew : g.nodes.any (fun n => n.id = newId) = false)
    (hkeynew : mapHas g.adj newId = false) (k : Nat) :
    ((g.renameNode oldId newId).1).adjGet k =
      if k = newId then g.adjGet oldId
      else if k = oldId then []
      else if oldId ∈ g.adjGet k then setAdd (setDelete (g.adjGet k) oldId) newId
      else g.adjGet k := by
  have hcongr :
      (mapSet (mapDelete g.adj oldId) newId ((mapGet? g.adj oldId).getD [])).map
        (fun p => if p.1 = newId then p
          else if oldId ∈ p.2 then (p.1, setAdd (setDelete p.2 oldId) newId) else p)
      = (mapSet (mapDelete g.adj oldId) newId ((mapGet? g.adj oldId).getD [])).map
        (fun p => (p.1,
          (fun q : Nat × List Nat =>
            if q.1 = newId then q.2
            else if oldId ∈ q.2 then setAdd (setDelete q.2 oldId) newId else q.2) p)) := by
    refine List.map_congr_left fun p _ => ?_
    show _ = (p.1, if p.1 = newId then p.2
      else if oldId ∈ p.2 then setAdd (setDelete p.2 oldId) newId else p.2)
    split_ifs <;> rfl
  unfold Graph.adjGet
  rw [renameNode_adj hon hnew, hcongr, mapGet?_map_pair_get]
  have hnoldnew : ¬ newId = oldId := fun hc => hon hc.symm
  have hhas1 : mapHas (mapDelete g.adj oldId) newId = false := by
    rw [mapHas_mapDelete_ne hnoldnew]
    exact hkeynew
  rw [mapSet_eq_append hhas1, mapGet?_append_single]
  by_cases hk : k = newId
  · rw [if_pos hk]
    have h1 : mapGet? (mapDelete g.adj oldId) k = none := by
      rw [hk]
      exact mapGet?_eq_none.mpr hhas1
    rw [h1, if_pos hk.symm, Option.none_or]
    simp only [Option.map_some', Option.getD_some]
    rw [if_pos hk]
  · rw [if_neg hk, if_neg (fun hc => hk hc.symm)]
    by_cases hko : k = oldId
    · rw [if_pos hko, hko, mapGet?_mapDelete_self]
      rfl
    · rw [if_neg hko, mapGet?_mapDelete_ne hko]
      cases hs : mapGet? g.adj k with
      | none =>
        simp only [Option.or_none, Option.map_none', Option.getD_none]
        rw [if_neg (show oldId ∉ (List.nil : List Nat) by simp)]
      | some u =>
        simp only [Option.or_none, Option.map_some', Option.getD_some]
        rw [if_neg hk]

/-! ### Symmetry preservation -/

theorem symm_of_bounded {g : Graph}
    (h : ∀ p ∈ g.adj, ∀ j ∈ p.2, p.1 ∈ g.adjGet j) : Symm g := by
  intro a b hb
  obtain ⟨s, hs, hmem⟩ := mem_adjGet_iff.mp hb
  exact h (a, s) (mapGet?_mem hs) b hmem

theorem WF.nextId_fresh {g : Graph} (hwf : WF g) : mapHas g.adj g.nextId = false := by
  by_contra hcon
  have h' : mapHas g.adj g.nextId = true := by simpa using hcon
  obtain ⟨v, hv⟩ := mapHas_iff.mp h'
  have hp := hwf.2.2.2.1 (g.nextId, v) hv
  exact absurd (hwf.present_lt_nextId hp) (lt_irrefl _)

theorem symm_addNode {g : Graph} (hwf : WF g) (x y : Int) :
    Symm (g.addNode x y).1 := by
  intro a b hb
  rw [addNode_adjGet hwf.nextId_fresh] at hb ⊢
  by_cases ha : a = g.nextId
  · rw [if_pos ha] at hb
    exact absurd hb (List.not_mem_nil b)
  · rw [if_neg ha] at hb
    have hab := hwf.symmAdj a b hb
    have hbp : g.present b = true := hwf.adj_mem_present hb
    have hbne : ¬ b = g.nextId := fun hc =>
      absurd (hc ▸ hwf.present_lt_nextId hbp) (lt_irrefl _)
    rw [if_neg hbne]
    exact hab

theorem symm_of_add_adj {g g' : Graph} {a b : Nat} {sa sb : List Nat} (hs : Symm g)
    (hab : ¬ a = b) (hsa : mapGet? g.adj a = some sa) (hsb : mapGet? g.adj b = some sb)
    (hadj : g'.adj = mapSet (mapSet g.adj a (setAdd sa b)) b (setAdd sb a)) : Symm g' := by
  have hba : ¬ b = a := fun hc => hab hc.symm
  have hga : g'.adjGet a = setAdd sa b := by
    unfold Graph.adjGet
    rw [hadj, mapGet?_mapSet_ne hab, mapGet?_mapSet_self]
    rfl
  have hgb : g'.adjGet b = setAdd sb a := by
    unfold Graph.adjGet
    rw [hadj, mapGet?_mapSet_self]
    rfl
  have hgk : ∀ k, ¬ k = a → ¬ k = b → g'.adjGet k = g.adjGet k := by
    intro k hka hkb
    unfold Graph.adjGet
    rw [hadj, mapGet?_mapSet_ne hkb, mapGet?_mapSet_ne hka]
  have hsa' : g.adjGet a = sa := adjGet_of_get hsa
  have hsb' : g.adjGet b = sb := adjGet_of_get hsb
  intro x z hz
  by_cases hxa : x = a
  · rw [hxa, hga, mem_setAdd] at hz
    rcases hz with hz | hzb
    · have hzadj : z ∈ g.adjGet a := by rw [hsa']; exact hz
      have haz := hs a z hzadj
      by_cases hza : z = a
      · rw [hza, hga, mem_setAdd]
        left
        rw [hza, hsa'] at haz
        rw [hxa]
        exact haz
      · by_cases hzb : z = b
        · rw [hzb, hgb, mem_setAdd]
          right
          exact hxa
        · rw [hgk z hza hzb, hxa]
          exact haz
    · rw [hzb, hgb, mem_setAdd]
      right
      exact hxa
  · by_cases hxb : x = b
    · rw [hxb, hgb, mem_setAdd] at hz
      rcases hz with hz | hza
      · have hzadj : z ∈ g.adjGet b := by rw [hsb']; exact hz
        have hbz := hs b z hzadj
        by_cases hza : z = a
        · rw [hza, hga, mem_setAdd]
          right
          exact hxb
        · by_cases hzb2 : z = b
          · rw [hzb2, hgb, mem_setAdd]
            left
            rw [hzb2, hsb'] at hbz
            rw [hxb]
            exact hbz
          · rw [hgk z hza hzb2, hxb]
            exact hbz
      · rw [hza, hga, mem_setAdd]
        right
        exact hxb
    · rw [hgk x hxa hxb] at hz
      have hxz := hs x z hz
      by_cases hza : z = a
      · rw [hza, hga, mem_setAdd]
        left
        rw [hza, hsa'] at hxz
        exact hxz
      · by_cases hzb : z = b
        · rw [hzb, hgb, mem_setAdd]
          left
          rw [hzb, hsb'] at hxz
          exact hxz
        · rw [hgk z hza hzb]
          exact hxz

theorem symm_addEdge {g g' : Graph} {a b : Nat} {d r : Bool} (hs : Symm g)
    (h : g.addEdge a b d = some (g', r)) : Symm g' := by
  rcases addEdge_adj_cases h with ⟨rfl, _⟩ | ⟨_, hab, sa, sb, hsa, hsb, hadj, _, _⟩
  · exact hs
  · exact symm_of_add_adj hs hab hsa hsb hadj

theorem symm_of_delete_adj {g g' : Graph} {a b : Nat} {sa sb : List Nat} (hs : Symm g)
    (hab : ¬ a = b) (hsa : mapGet? g.adj a = some sa) (hsb : mapGet? g.adj b = some sb)
    (hadj : g'.adj = mapSet (mapSet g.adj a (setDelete sa b)) b (setDelete sb a)) :
    Symm g' := by
  have hba : ¬ b = a := fun hc => hab hc.symm
  have hga : g'.adjGet a = setDelete sa b := by
    unfold Graph.adjGet
    rw [hadj, mapGet?_mapSet_ne hab, mapGet?_mapSet_self]
    rfl
  have hgb : g'.adjGet b = setDelete sb a := by
    unfold Graph.adjGet
    rw [hadj, mapGet?_mapSet_self]
    rfl
  have hgk : ∀ k, ¬ k = a → ¬ k = b → g'.adjGet k = g.adjGet k := by
    intro k hka hkb
    unfold Graph.adjGet
    rw [hadj, mapGet?_mapSet_ne hkb, mapGet?_mapSet_ne hka]
  have hsa' : g.adjGet a = sa := adjGet_of_get hsa
  have hsb' : g.adjGet b = sb := adjGet_of_get hsb
  intro x z hz
  by_cases hxa : x = a
  · rw [hxa, hga, mem_setDelete] at hz
    have hzadj : z ∈ g.adjGet a := by rw [hsa']; exact hz.1
    have haz := hs a z hzadj
    by_cases hza : z = a
    · rw [hza, hga, mem_setDelete, hxa]
      rw [hza, hsa'] at haz
      exact ⟨haz, hab⟩
    · rw [hgk z hza hz.2, hxa]
      exact haz
  · by_cases hxb : x = b
    · rw [hxb, hgb, mem_setDelete] at hz
      have hzadj : z ∈ g.adjGet b := by rw [hsb']; exact hz.1
      have hbz := hs b z hzadj
      by_cases hzb : z = b
      · rw [hzb, hgb, mem_setDelete, hxb]
        rw [hzb, hsb'] at hbz
        exact ⟨hbz, hba⟩
      · rw [hgk z hz.2 hzb, hxb]
        exact hbz
    · rw [hgk x hxa hxb] at hz
      have hxz := hs x z hz
      by_cases hza : z = a
      · rw [hza, hga, mem_setDelete]
        rw [hza, hsa'] at hxz
        exact ⟨hxz, hxb⟩
      · by_cases hzb : z = b
        · rw [hzb, hgb, mem_setDelete]
          rw [hzb, hsb'] at hxz
          exact ⟨hxz, hxa⟩
        · rw [hgk z hza hzb]
          exact hxz

theorem symm_deleteEdge {g g' : Graph} {a b : Nat} {d r : Bool} (hwf : WF g)
    (h : g.deleteEdge a b d = some (g', r)) : Symm g' := by
  by_cases hkey : mapHas g.edgeMap (delKey a b d) = true
  · obtain ⟨hpa, hpb, hab⟩ := hwf.delKey_present hkey
    obtain ⟨sa, hsa⟩ :=
      Option.isSome_iff_exists.mp (mapGet?_isSome.mpr (hwf.present_mapHas hpa))
    obtain ⟨sb, hsb⟩ :=
      Option.isSome_iff_exists.mp (mapGet?_isSome.mpr (hwf.present_mapHas hpb))
    rw [deleteEdge_present hab hkey hsa hsb] at h
    obtain ⟨hg, hr⟩ := Prod.mk.inj (Option.some.inj h)
    exact symm_of_delete_adj hwf.symmAdj hab hsa hsb (by rw [← hg])
  · rw [deleteEdge_absent (by simpa using hkey)] at h
    obtain ⟨hg, hr⟩ := Prod.mk.inj (Option.some.inj h)
    rw [← hg]
    exact hwf.symmAdj

theorem symm_deleteEdgeByKey {g : Graph} (hwf : WF g) (key : EdgeKey) :
    Symm (g.deleteEdgeByKey key).1 := by
  by_cases hkey : mapHas g.edgeMap key = true
  · obtain ⟨e, he⟩ := Option.isSome_iff_exists.mp (mapGet?_isSome.mpr hkey)
    have h8 := hwf.2.2.2.2.2.2.2.1 (key, e) (mapGet?_mem he)
    have hab : ¬ e.a = e.b := h8.2.2
    obtain ⟨sa, hsa⟩ :=
      Option.isSome_iff_exists.mp (mapGet?_isSome.mpr (hwf.present_mapHas h8.1))
    obtain ⟨sb, hsb⟩ :=
      Option.isSome_iff_exists.mp (mapGet?_isSome.mpr (hwf.present_mapHas h8.2.1))
    rw [deleteEdgeByKey_present he hab hsa hsb]
    exact symm_of_delete_adj hwf.symmAdj hab hsa hsb rfl
  · rw [deleteEdgeByKey_absent (by simpa using hkey)]
    exact hwf.symmAdj

theorem symm_deleteNode {g : Graph} (hwf : WF g) (id : Nat) :
    Symm (g.deleteNode id).1 := by
  intro x z hz
  rw [deleteNode_adjGet hwf] at hz ⊢
  by_cases hx : x = id
  · rw [if_pos hx] at hz
    exact absurd hz (List.not_mem_nil z)
  · rw [if_neg hx, mem_setDelete] at hz
    have hxz := hwf.symmAdj x z hz.1
    rw [if_neg hz.2, mem_setDelete]
    exact ⟨hxz, hx⟩

theorem symm_renameNode {g : Graph} (hwf : WF g) (o n : Nat) :
    Symm (g.renameNode o n).1 := by
  by_cases hon : o = n
  · unfold Graph.renameNode
    rw [if_pos hon]
    exact hwf.symmAdj
  by_cases hconf : (g.nodes.any fun nd => nd.id = n) = true
  · unfold Graph.renameNode
    rw [if_neg hon, if_pos hconf]
    exact hwf.symmAdj
  · have hnew : (g.nodes.any fun nd => nd.id = n) = false := by simpa using hconf
    have hkeynew : mapHas g.adj n = false := by
      by_contra hcon
      have h' : mapHas g.adj n = true := by simpa using hcon
      obtain ⟨v, hv⟩ := mapHas_iff.mp h'
      have hpn := hwf.2.2.2.1 (n, v) hv
      unfold Graph.present at hpn
      rw [hnew] at hpn
      exact Bool.false_ne_true hpn
    have hNotMemNew : ∀ k, n ∉ g.adjGet k := by
      intro k hk
      have hkn := hwf.symmAdj k n hk
      obtain ⟨s, hs, _⟩ := mem_adjGet_iff.mp hkn
      have : mapHas g.adj n = true := by
        rw [mapHas_eq_isSome, hs]
        rfl
      rw [hkeynew] at this
      exact Bool.false_ne_true this
    intro x z hz
    rw [renameNode_adjGet hon hnew hkeynew] at hz ⊢
    by_cases hx : x = n
    · rw [if_pos hx] at hz
      have hoz := hwf.symmAdj o z hz
      by_cases hzn : z = n
      · exfalso
        rw [hzn] at hz
        exact hNotMemNew o hz
      · by_cases hzo : z = o
        · exfalso
          rw [hzo] at hz
          exact hwf.no_self_adj hz
        · rw [if_neg hzn, if_neg hzo, if_pos hoz, mem_setAdd]
          right
          exact hx
    · rw [if_neg hx] at hz
      by_cases hxo : x = o
      · rw [if_pos hxo] at hz
        exact absurd hz (List.not_mem_nil z)
      · rw [if_neg hxo] at hz
        by_cases hmem : o ∈ g.adjGet x
        · rw [if_pos hmem, mem_setAdd] at hz
          rcases hz with hz | hzn
          · rw [mem_setDelete] at hz
            have hxz := hwf.symmAdj x z hz.1
            by_cases hzn : z = n
            · exfalso
              rw [hzn] at hz
              exact hNotMemNew x hz.1
            · rw [if_neg hzn, if_neg (show ¬ z = o from hz.2)]
              by_cases ho : o ∈ g.adjGet z
              · rw [if_pos ho, mem_setAdd]
                left
                rw [mem_setDelete]
                exact ⟨hxz, hxo⟩
              · rw [if_neg ho]
                exact hxz
          · rw [hzn, if_pos rfl]
            exact hwf.symmAdj x o hmem
        · rw [if_neg hmem] at hz
          have hxz := hwf.symmAdj x z hz
          by_cases hzn : z = n
          · exfalso
            rw [hzn] at hz
            exact hNotMemNew x hz
          · by_cases hzo : z = o
            · exfalso
              rw [hzo] at hz
              exact hmem hz
            · rw [if_neg hzn, if_neg hzo]
              by_cases ho : o ∈ g.adjGet z
              · rw [if_pos ho, mem_setAdd]
                left
                rw [mem_setDelete]
                exact ⟨hxz, hxo⟩
              · rw [if_neg ho]
                exact hxz

theorem symm_clear (g : Graph) : Symm g.clear := by
  intro a b hb
  unfold Graph.clear Graph.empty Graph.adjGet mapGet? at hb
  simp at hb

/-! ### Further operation facts -/

theorem renameNode_success {g : Graph} {o n : Nat} (hon : ¬ o = n)
    (hnew : (g.nodes.any fun nd => nd.id = n) = false) :
    (g.renameNode o n).2 = true ∧
    (g.renameNode o n).1.nodes
      = g.nodes.map (fun nd => if nd.id = o then { nd with id := n } else nd) ∧
    (g.renameNode o n).1.nextId = max g.nextId (n + 1) := by
  unfold Graph.renameNode
  rw [if_neg hon, if_neg (show ¬ (g.nodes.any fun nd => decide (nd.id = n)) = true by
    simp only [hnew]; exact Bool.false_ne_true)]
  exact ⟨rfl, rfl, rfl⟩

theorem renameNode_map_pair (o n : Nat) (m : List (Nat × List Nat)) :
    m.map (fun p => if p.1 = n then p
      else if o ∈ p.2 then (p.1, setAdd (setDelete p.2 o) n) else p)
    = m.map (fun p => (p.1,
        (fun q : Nat × List Nat =>
          if q.1 = n then q.2
          else if o ∈ q.2 then setAdd (setDelete q.2 o) n else q.2) p)) := by
  refine List.map_congr_left fun p _ => ?_
  show _ = (p.1, if p.1 = n then p.2
    else if o ∈ p.2 then setAdd (setDelete p.2 o) n else p.2)
  split_ifs <;> rfl

theorem renameNode_mapHas_new {g : Graph} {o n : Nat} (hon : ¬ o = n)
    (hnew : (g.nodes.any fun nd => nd.id = n) = false) :
    mapHas ((g.renameNode o n).1).adj n = true := by
  rw [renameNode_adj hon hnew, renameNode_map_pair, mapHas_map_pair2, mapHas_mapSet_self]

theorem deleteEdge_nodes_nextId {g g' : Graph} {a b : Nat} {d r : Bool}
    (h : g.deleteEdge a b d = some (g', r)) :
    g'.nodes = g.nodes ∧ g'.nextId = g.nextId := by
  simp only [Graph.deleteEdge] at h
  split at h
  all_goals try split at h
  all_goals try split at h
  all_goals try split at h
  all_goals
    first
      | exact Option.noConfusion h
      | (obtain ⟨hg, hr⟩ := Prod.mk.inj (Option.some.inj h)
         rw [← hg]
         exact ⟨rfl, rfl⟩)

theorem deleteEdgeByKey_nodes_nextId (g : Graph) (key : EdgeKey) :
    (g.deleteEdgeByKey key).1.nodes = g.nodes ∧
    (g.deleteEdgeByKey key).1.nextId = g.nextId := by
  simp only [Graph.deleteEdgeByKey]
  split
  all_goals try split
  all_goals constructor <;>
    simp only [apply_ite Graph.nodes, apply_ite Graph.nextId, ite_self]

/-! ### Claim theorems: the graph model (C3, C4, C6, C7, C9, C10) -/

/-- C6: on the path `0-1-2-3`, `analyze` returns exactly the three path
edges as bridges (as an unordered set) and exactly `{1, 2}` as the set of
articulation points. -/
theorem path_graph_bridges_aps :
    pathG.nodeIds = [0, 1, 2, 3] ∧
    pathG.edgeMap.map Prod.fst
      = [Graph.edgeKey 0 1, Graph.edgeKey 1 2, Graph.edgeKey 2 3] ∧
    (pathG.analyze.map (fun r => r.articulationPoints.toFinset)) = some {1, 2} ∧
    (pathG.analyze.map (fun r => (r.bridges.map (fun e => Graph.edgeKey e.1 e.2)).toFinset))
      = some {Graph.edgeKey 0 1, Graph.edgeKey 1 2, Graph.edgeKey 2 3} := by
  have h : pathG.analyze = some pathResult := by decide
  refine ⟨by decide, by decide, ?_, ?_⟩
  · rw [h]
    simp only [Option.map_some']
    congr 1
    ext k
    simp [pathResult]
    tauto
  · rw [h]
    simp only [Option.map_some']
    congr 1
    ext k
    simp [pathResult, Graph.edgeKey]
    tauto

/-- C3 (counterexample): with both endpoints present, `a ≠ b`, and the
canonical key `0-1` already in the edge collection, `addEdge(0, 1, true)`
nevertheless returns `true` and mutates the graph — the duplicate check
for directed insertions consults the directed key, not the canonical
one. -/
theorem addEdge_directed_key_cex :
    Graph.present twoG 0 = true ∧ Graph.present twoG 1 = true ∧ ¬ (0 : Nat) = 1 ∧
    mapHas twoG.edgeMap (Graph.edgeKey 0 1) = true ∧
    (twoG.addEdge 0 1 true).map (fun p => p.2) = some true ∧
    ¬ (twoG.addEdge 0 1 true).map (fun p => p.1) = some twoG := by decide

/-- C3 (amended): for present distinct endpoints, `addEdge` returns
`false` with no mutation exactly when `a = b` or the key it checks —
the canonical key for undirected, the directed key `(a, b)` for
directed — already exists; otherwise it inserts one edge entry, adds `b`
to `adjacency[a]` and `a` to `adjacency[b]`, and returns `true`. -/
theorem addEdge_failure_characterization (g : Graph) (a b : Nat) (d : Bool) (hwf : WF g)
    (ha : g.present a = true) (hb2 : g.present b = true) :
    (a = b → g.addEdge a b d = some (g, false)) ∧
    (¬ a = b →
      mapHas g.edgeMap (if d then EdgeKey.dir a b else Graph.edgeKey a b) = true →
      g.addEdge a b d = some (g, false)) ∧
    (¬ a = b →
      mapHas g.edgeMap (if d then EdgeKey.dir a b else Graph.edgeKey a b) = false →
      ∃ g', g.addEdge a b d = some (g', true) ∧
        g'.edgeMap.length = g.edgeMap.length + 1 ∧
        b ∈ g'.adjGet a ∧ a ∈ g'.adjGet b ∧
        g'.nodes = g.nodes ∧ g'.nextId = g.nextId) := by
  obtain ⟨sa, hsa⟩ :=
    Option.isSome_iff_exists.mp (mapGet?_isSome.mpr (hwf.present_mapHas ha))
  obtain ⟨sb, hsb⟩ :=
    Option.isSome_iff_exists.mp (mapGet?_isSome.mpr (hwf.present_mapHas hb2))
  refine ⟨fun hab => hab ▸ addEdge_self, ?_, ?_⟩
  · intro hab hkey
    cases d with
    | false => exact addEdge_dup_undir hab (by simpa using hkey)
    | true => exact addEdge_dup_dir hab (by simpa using hkey)
  · intro hab hkey
    have hba : ¬ b = a := fun hc => hab hc.symm
    cases d with
    | false =>
      refine ⟨_, addEdge_new_undir hab (by simpa using hkey) hsa hsb,
        length_mapSet_new (by simpa using hkey), ?_, ?_, rfl, rfl⟩
      · refine mem_adjGet_iff.mpr ⟨setAdd sa b, ?_, mem_setAdd.mpr (Or.inr rfl)⟩
        show mapGet? (mapSet (mapSet g.adj a (setAdd sa b)) b (setAdd sb a)) a
          = some (setAdd sa b)
        rw [mapGet?_mapSet_ne hab, mapGet?_mapSet_self]
      · refine mem_adjGet_iff.mpr ⟨setAdd sb a, ?_, mem_setAdd.mpr (Or.inr rfl)⟩
        show mapGet? (mapSet (mapSet g.adj a (setAdd sa b)) b (setAdd sb a)) b
          = some (setAdd sb a)
        rw [mapGet?_mapSet_self]
    | true =>
      refine ⟨_, addEdge_new_dir hab (by simpa using hkey) hsa hsb,
        length_mapSet_new (by simpa using hkey), ?_, ?_, rfl, rfl⟩
      · refine mem_adjGet_iff.mpr ⟨setAdd sa b, ?_, mem_setAdd.mpr (Or.inr rfl)⟩
        show mapGet? (mapSet (mapSet g.adj a (setAdd sa b)) b (setAdd sb a)) a
          = some (setAdd sa b)
        rw [mapGet?_mapSet_ne hab, mapGet?_mapSet_self]
      · refine mem_adjGet_iff.mpr ⟨setAdd sb a, ?_, mem_setAdd.mpr (Or.inr rfl)⟩
        show mapGet? (mapSet (mapSet g.adj a (setAdd sa b)) b (setAdd sb a)) b
          = some (setAdd sb a)
        rw [mapGet?_mapSet_self]

/-- Witness for `addEdge_failure_characterization` at `twoG`, `(0, 1)`,
undirected, where the canonical key is already present. -/
theorem addEdge_failure_characterization_witness :
    twoG.addEdge 0 1 false = some (twoG, false) :=
  (addEdge_failure_characterization twoG 0 1 false (by decide) (by decide)
    (by decide)).2.1 (by decide) (by decide)

/-- C4 (counterexample): renaming a node id that does not exist does not
fail — on the empty graph, `renameNode(0, 1)` returns `true` and mutates
the graph (it installs an adjacency entry for `1` and advances the
allocator). -/
theorem renameNode_unknown_cex :
    Graph.present Graph.empty 0 = false ∧
    (Graph.empty.renameNode 0 1).2 = true ∧
    ¬ (Graph.empty.renameNode 0 1).1 = Graph.empty := by decide

/-- C4 (amended): `renameNode` never validates `old_id`.  With `old_id`
absent it returns `false` (with no mutation) only on a `new_id` conflict;
in every other case it returns `true`, and when `old_id ≠ new_id` it
leaves the node list unchanged but installs an adjacency entry for
`new_id` and advances the allocator past `new_id`. -/
theorem renameNode_unknown_behavior (g : Graph) (oldId newId : Nat)
    (hold : g.present oldId = false) :
    (oldId = newId → g.renameNode oldId newId = (g, true)) ∧
    ((g.nodes.any fun nd => nd.id = newId) = true →
      g.renameNode oldId newId = (g, false)) ∧
    (¬ oldId = newId → (g.nodes.any fun nd => nd.id = newId) = false →
      (g.renameNode oldId newId).2 = true ∧
      (g.renameNode oldId newId).1.nodes = g.nodes ∧
      (g.renameNode oldId newId).1.nextId = max g.nextId (newId + 1) ∧
      mapHas ((g.renameNode oldId newId).1).adj newId = true) := by
  refine ⟨?_, ?_, ?_⟩
  · intro h
    unfold Graph.renameNode
    rw [if_pos h]
  · intro hconf
    have hon : ¬ oldId = newId := by
      intro hc
      rw [hc] at hold
      unfold Graph.present at hold
      exact absurd (hconf.symm.trans hold) (by decide)
    unfold Graph.renameNode
    rw [if_neg hon, if_pos hconf]
  · intro hon hnew
    obtain ⟨h2, hnodes, hnext⟩ := renameNode_success hon hnew
    refine ⟨h2, ?_, hnext, renameNode_mapHas_new hon hnew⟩
    rw [hnodes]
    have hpt : ∀ nd ∈ g.nodes,
        (if nd.id = oldId then { nd with id := newId } else nd) = nd := by
      intro nd hnd
      have hne : ¬ nd.id = oldId := by
        intro hc
        have hpres : g.present oldId = true := present_iff.mpr ⟨nd, hnd, hc⟩
        rw [hold] at hpres
        exact Bool.false_ne_true hpres
      rw [if_neg hne]
    rw [List.map_congr_left hpt]
    exact List.map_id g.nodes

/-- Witness for `renameNode_unknown_behavior` on the empty graph. -/
theorem renameNode_unknown_behavior_witness :
    (Graph.empty.renameNode 0 1).2 = true ∧
    (Graph.empty.renameNode 0 1).1.nodes = Graph.empty.nodes ∧
    (Graph.empty.renameNode 0 1).1.nextId = max Graph.empty.nextId 2 ∧
    mapHas ((Graph.empty.renameNode 0 1).1).adj 1 = true :=
  (renameNode_unknown_behavior Graph.empty 0 1 (by decide)).2.2 (by decide) (by decide)

/-- C7 (counterexample): adjacency symmetry alone is not preserved by
`addNode`.  `stale01` has symmetric adjacency, but its allocator is stale
(`nextId = 0` with an adjacency entry keyed `0`), so `addNode` replaces
that entry with an empty set and breaks symmetry. -/
theorem symm_alone_not_inductive_cex :
    Symm stale01 ∧ ¬ Symm ((stale01.addNode 100 100).1) :=
  ⟨symm_of_bounded (by decide), fun h => absurd (h 1 0 (by decide)) (by decide)⟩

/-- C7 (amended): on a graph satisfying the full Graph Model invariant
`WF` (which includes adjacency symmetry), every operation leaves the
adjacency index symmetric: `b ∈ adjacency[a] ⇔ a ∈ adjacency[b]`. -/
theorem symm_after_ops_of_WF (g : Graph) (hwf : WF g) :
    (∀ (x y : Int) (u v : Nat),
      v ∈ ((g.addNode x y).1).adjGet u ↔ u ∈ ((g.addNode x y).1).adjGet v) ∧
    (∀ (a b : Nat) (d : Bool) (g' : Graph) (r : Bool), g.addEdge a b d = some (g', r) →
      ∀ u v : Nat, v ∈ g'.adjGet u ↔ u ∈ g'.adjGet v) ∧
    (∀ (a b : Nat) (d : Bool) (g' : Graph) (r : Bool), g.deleteEdge a b d = some (g', r) →
      ∀ u v : Nat, v ∈ g'.adjGet u ↔ u ∈ g'.adjGet v) ∧
    (∀ (key : EdgeKey) (u v : Nat),
      v ∈ ((g.deleteEdgeByKey key).1).adjGet u ↔ u ∈ ((g.deleteEdgeByKey key).1).adjGet v) ∧
    (∀ id u v : Nat,
      v ∈ ((g.deleteNode id).1).adjGet u ↔ u ∈ ((g.deleteNode id).1).adjGet v) ∧
    (∀ o n u v : Nat,
      v ∈ ((g.renameNode o n).1).adjGet u ↔ u ∈ ((g.renameNode o n).1).adjGet v) ∧
    (∀ u v : Nat, v ∈ g.clear.adjGet u ↔ u ∈ g.clear.adjGet v) :=
  ⟨fun x y u v => ⟨fun h => symm_addNode hwf x y u v h, fun h => symm_addNode hwf x y v u h⟩,
   fun _ _ _ _ _ h u v =>
     ⟨fun hm => symm_addEdge hwf.symmAdj h u v hm, fun hm => symm_addEdge hwf.symmAdj h v u hm⟩,
   fun _ _ _ _ _ h u v =>
     ⟨fun hm => symm_deleteEdge hwf h u v hm, fun hm => symm_deleteEdge hwf h v u hm⟩,
   fun key u v =>
     ⟨fun hm => symm_deleteEdgeByKey hwf key u v hm,
      fun hm => symm_deleteEdgeByKey hwf key v u hm⟩,
   fun id u v =>
     ⟨fun hm => symm_deleteNode hwf id u v hm, fun hm => symm_deleteNode hwf id v u hm⟩,
   fun o n u v =>
     ⟨fun hm => symm_renameNode hwf o n u v hm, fun hm => symm_renameNode hwf o n v u hm⟩,
   fun u v => ⟨fun hm => symm_clear g u v hm, fun hm => symm_clear g v u hm⟩⟩

/-- Witness for `symm_after_ops_of_WF` on `pathG` after `addNode`. -/
theorem symm_after_ops_of_WF_witness :
    (0 : Nat) ∈ ((pathG.addNode 5 5).1).adjGet 1 ↔
      (1 : Nat) ∈ ((pathG.addNode 5 5).1).adjGet 0 :=
  (symm_after_ops_of_WF pathG (by decide)).1 5 5 1 0

/-- C9: `addEdge` is total only under the presence precondition — on a
graph holding only node `0`, `addEdge(0, 1)` hits the missing adjacency
entry (a JS `TypeError`, modelled as `none`); with both endpoints
present (and the model invariant tying nodes to adjacency entries) the
error branch is unreachable. -/
theorem addEdge_partial_totality :
    Graph.addEdge oneG 0 1 false = none ∧
    ∀ (g : Graph) (a b : Nat) (d : Bool), WF g →
      g.present a = true → g.present b = true → (g.addEdge a b d).isSome = true :=
  ⟨by decide, fun _ _ _ _ hwf ha hb => addEdge_isSome hwf ha hb⟩

/-- Witness for `addEdge_partial_totality` at `twoG`. -/
theorem addEdge_partial_totality_witness :
    (twoG.addEdge 0 1 true).isSome = true :=
  addEdge_partial_totality.2 twoG 0 1 true (by decide) (by decide) (by decide)

/-- C10: every present node id is below the allocator `nextId`; every
Graph Model operation preserves this, and consequently the `disc` /
`low` / `parent` arrays of `analyze` (sized `nextId`) are defined (not
`undefined`) at every present node id. -/
theorem idsBound_invariant_ops (g : Graph) (hb : idsBound g) :
    (∀ x y : Int, idsBound (g.addNode x y).1) ∧
    (∀ (a b : Nat) (d : Bool) (g' : Graph) (r : Bool),
      g.addEdge a b d = some (g', r) → idsBound g') ∧
    (∀ (a b : Nat) (d : Bool) (g' : Graph) (r : Bool),
      g.deleteEdge a b d = some (g', r) → idsBound g') ∧
    (∀ key : EdgeKey, idsBound (g.deleteEdgeByKey key).1) ∧
    (∀ id : Nat, idsBound (g.deleteNode id).1) ∧
    (∀ o n : Nat, idsBound (g.renameNode o n).1) ∧
    idsBound g.clear ∧
    (∀ n ∈ g.nodes, (initSt g).disc n.id = some (-1) ∧
      (initSt g).low n.id = some 0 ∧ (initSt g).parent n.id = some (-1)) := by
  refine ⟨?_, ?_, ?_, ?_, ?_, ?_, ?_, ?_⟩
  · intro x y nd hnd
    rcases List.mem_append.mp hnd with h | h
    · exact Nat.lt_succ_of_lt (hb nd h)
    · have hnd2 : nd = ⟨g.nextId, x, y⟩ := by simpa using h
      rw [hnd2]
      exact Nat.lt_succ_self _
  · intro a b d g' r h
    rcases addEdge_adj_cases h with ⟨rfl, _⟩ | ⟨_, _, sa, sb, _, _, _, hnodes, hnext⟩
    · exact hb
    · intro nd hnd
      rw [hnext]
      exact hb nd (hnodes ▸ hnd)
  · intro a b d g' r h
    obtain ⟨hnodes, hnext⟩ := deleteEdge_nodes_nextId h
    intro nd hnd
    rw [hnext]
    exact hb nd (hnodes ▸ hnd)
  · intro key nd hnd
    obtain ⟨hnodes, hnext⟩ := deleteEdgeByKey_nodes_nextId g key
    rw [hnext]
    exact hb nd (hnodes ▸ hnd)
  · intro id nd hnd
    have hnd2 : nd ∈ g.nodes.filter (fun n => decide (¬ n.id = id)) := hnd
    exact hb nd (List.mem_filter.mp hnd2).1
  · intro o n
    by_cases hon : o = n
    · unfold Graph.renameNode
      rw [if_pos hon]
      exact hb
    by_cases hconf : (g.nodes.any fun nd => nd.id = n) = true
    · unfold Graph.renameNode
      rw [if_neg hon, if_pos hconf]
      exact hb
    · have hnew : (g.nodes.any fun nd => nd.id = n) = false := by simpa using hconf
      obtain ⟨_, hnodes, hnext⟩ := renameNode_success hon hnew
      intro nd hnd
      rw [hnext, hnodes] at *
      obtain ⟨m, hm, hmap⟩ := List.mem_map.mp hnd
      by_cases hmo : m.id = o
      · rw [← hmap, if_pos hmo]
        exact Nat.lt_of_lt_of_le (Nat.lt_succ_self n) (Nat.le_max_right _ _)
      · rw [← hmap, if_neg hmo]
        exact Nat.lt_of_lt_of_le (hb m hm) (Nat.le_max_left _ _)
  · intro nd hnd
    exact absurd hnd (List.not_mem_nil nd)
  · intro nd hnd
    have hlt := hb nd hnd
    refine ⟨?_, ?_, ?_⟩
    · show (if nd.id < g.nextId then some (-1 : Int) else none) = some (-1)
      rw [if_pos hlt]
    · show (if nd.id < g.nextId then some (0 : Int) else none) = some 0
      rw [if_pos hlt]
    · show (if nd.id < g.nextId then some (-1 : Int) else none) = some (-1)
      rw [if_pos hlt]

/-- Witness for `idsBound_invariant_ops` at `pathG`. -/
theorem idsBound_invariant_ops_witness :
    idsBound ((pathG.addNode 7 7).1) :=
  (idsBound_invariant_ops pathG (by decide)).1 7 7

/-! ### `analyzeWithSteps` refines `analyze` (projection ladder) -/

theorem visitUpdS_base (s : StS) (u : Nat) : (visitUpdS s u).base = visitUpd s.base u := rfl

theorem treePreS_base (s : StS) (u v : Nat) : (treePreS s u v).base = treePre s.base u v := rfl

theorem backUpdS_base (s : StS) (u v : Nat) : (backUpdS s u v).base = backUpd s.base u v := rfl

theorem afterChildS_base (s : StS) (u v : Nat) (ch : Nat) :
    (afterChildS s u v ch).base = afterChild s.base u v ch := by
  unfold afterChildS afterChild
  simp only [apply_ite StS.base]

theorem residualS_base (s : StS) : (residualS s).base = residual s.base := by
  unfold residualS residual
  cases s.base.edgeStack <;> rfl

theorem dfsLoopS_base (g : Graph) (rec : St → Nat → Option St)
    (recS : StS → Nat → Option StS)
    (hrec : ∀ (s : StS) (w : Nat), Option.map StS.base (recS s w) = rec s.base w)
    (u : Nat) :
    ∀ (ns : List Nat) (s : StS) (ch : Nat),
      Option.map StS.base (dfsLoopS g recS u s ch ns) = dfsLoop g rec u s.base ch ns := by
  intro ns
  induction ns with
  | nil => intro s ch; rfl
  | cons v rest ih =>
    intro s ch
    simp only [dfsLoopS, dfsLoop]
    by_cases hp : g.present v = true
    · rw [if_pos hp, if_pos hp]
      by_cases hd : s.base.disc v = some (-1)
      · rw [if_pos hd, if_pos hd]
        have hstep := hrec (treePreS s u v) v
        rw [treePreS_base] at hstep
        cases hS : recS (treePreS s u v) v with
        | none =>
          have hnone : rec (treePre s.base u v) v = none := by
            rw [← hstep, hS]
            rfl
          rw [hnone]
          rfl
        | some s2 =>
          have hsome : rec (treePre s.base u v) v = some s2.base := by
            rw [← hstep, hS]
            rfl
          rw [hsome]
          show Option.map StS.base
              (dfsLoopS g recS u (afterChildS s2 u v (ch + 1)) (ch + 1) rest)
            = dfsLoop g rec u (afterChild s2.base u v (ch + 1)) (ch + 1) rest
          rw [ih, afterChildS_base]
      · rw [if_neg hd, if_neg hd]
        by_cases hb : backCond s.base u v = true
        · rw [if_pos hb, if_pos hb, ih, backUpdS_base]
        · rw [if_neg hb, if_neg hb, ih]
    · rw [if_neg hp, if_neg hp, ih]

theorem dfsGoS_base (g : Graph) :
    ∀ (fuel : Nat) (s : StS) (u : Nat),
      Option.map StS.base (dfsGoS g fuel s u) = dfsGo g fuel s.base u := by
  intro fuel
  induction fuel with
  | zero => intro s u; rfl
  | succ f ih =>
    intro s u
    show Option.map StS.base (dfsLoopS g (dfsGoS g f) u (visitUpdS s u) 0 (g.adjGet u))
      = dfsLoop g (dfsGo g f) u (visitUpd s.base u) 0 (g.adjGet u)
    rw [← visitUpdS_base]
    exact dfsLoopS_base g (dfsGo g f) (dfsGoS g f) ih u (g.adjGet u) (visitUpdS s u) 0

theorem rootStepS_base (g : Graph) (fuel : Nat) (s : StS) (nd : Node) :
    Option.map StS.base (rootStepS g fuel s nd) = rootStep g fuel s.base nd := by
  unfold rootStepS rootStep
  by_cases hd : s.base.disc nd.id = some (-1)
  · rw [if_pos hd, if_pos hd]
    have hstep := dfsGoS_base g fuel s nd.id
    cases hS : dfsGoS g fuel s nd.id with
    | none =>
      have hnone : dfsGo g fuel s.base nd.id = none := by
        rw [← hstep, hS]
        rfl
      rw [hnone]
      rfl
    | some s1 =>
      have hsome : dfsGo g fuel s.base nd.id = some s1.base := by
        rw [← hstep, hS]
        rfl
      rw [hsome]
      show some (residualS s1).base = some (residual s1.base)
      rw [residualS_base]
  · rw [if_neg hd, if_neg hd]
    rfl

theorem rootsLoopS_base (g : Graph) (fuel : Nat) :
    ∀ (nds : List Node) (s : StS),
      Option.map StS.base (rootsLoopS g fuel s nds) = rootsLoop g fuel s.base nds := by
  intro nds
  induction nds with
  | nil => intro s; rfl
  | cons nd rest ih =>
    intro s
    simp only [rootsLoopS, rootsLoop]
    have hstep := rootStepS_base g fuel s nd
    cases hS : rootStepS g fuel s nd with
    | none =>
      have hnone : rootStep g fuel s.base nd = none := by
        rw [← hstep, hS]
        rfl
      rw [hnone]
      rfl
    | some s1 =>
      have hsome : rootStep g fuel s.base nd = some s1.base := by
        rw [← hstep, hS]
        rfl
      rw [hsome]
      show Option.map StS.base (rootsLoopS g fuel s1 rest) = rootsLoop g fuel s1.base rest
      exact ih s1

/-- C1: for every graph, `analyze` and the `Result` half of
`analyzeWithSteps` are equal as results — same articulation points, same
bridge list, same components in the same order, same edge-to-component
map. -/
theorem analyzeWithSteps_result_eq_analyze (g : Graph) :
    (g.analyzeWithSteps).map Prod.fst = g.analyze := by
  unfold Graph.analyzeWithSteps Graph.analyze
  have h : Option.map StS.base (rootsLoopS g (fuelOf g) ⟨initSt g, []⟩ g.nodes)
      = rootsLoop g (fuelOf g) (initSt g) g.nodes :=
    rootsLoopS_base g (fuelOf g) g.nodes ⟨initSt g, []⟩
  cases hS : rootsLoopS g (fuelOf g) ⟨initSt g, []⟩ g.nodes with
  | none =>
    have hnone : rootsLoop g (fuelOf g) (initSt g) g.nodes = none := by
      rw [← h, hS]
      rfl
    rw [hnone]
    rfl
  | some s =>
    have hsome : rootsLoop g (fuelOf g) (initSt g) g.nodes = some s.base := by
      rw [← h, hS]
      rfl
    rw [hsome]
    rfl

/-! ### The ghost analyzer projects onto `analyzeWithSteps` -/

theorem visitUpdG_toS (s : StG) (u : Nat) : (visitUpdG s u).toS = visitUpdS s.toS u := by
  simp only [visitUpdG, visitUpdS, emitG, StG.toS, List.map_append]
  rfl

theorem treePreG_toS (s : StG) (u v : Nat) : (treePreG s u v).toS = treePreS s.toS u v := by
  simp only [treePreG, treePreS, emitG, StG.toS, List.map_append]
  rfl

theorem backUpdG_toS (s : StG) (u v : Nat) : (backUpdG s u v).toS = backUpdS s.toS u v := by
  simp only [backUpdG, backUpdS, emitG, StG.toS, List.map_append, List.append_assoc]
  rfl

theorem afterChildG_toS (s : StG) (u v ch : Nat) :
    (afterChildG s u v ch).toS = afterChildS s.toS u v ch := by
  simp only [afterChildG, afterChildS, emitG, StG.toS]
  split_ifs <;> simp [List.map_append]

theorem residualG_toS (s : StG) : (residualG s).toS = residualS s.toS := by
  simp only [residualG, residualS, emitG, StG.toS]
  cases s.base.edgeStack with
  | nil => rfl
  | cons e rest => simp [List.map_append]

theorem dfsLoopG_toS (g : Graph) (recS : StS → Nat → Option StS)
    (recG : StG → Nat → Option StG)
    (hrec : ∀ (s : StG) (w : Nat), Option.map StG.toS (recG s w) = recS s.toS w)
    (u : Nat) :
    ∀ (ns : List Nat) (s : StG) (ch : Nat),
      Option.map StG.toS (dfsLoopG g recG u s ch ns) = dfsLoopS g recS u s.toS ch ns := by
  intro ns
  induction ns with
  | nil => intro s ch; rfl
  | cons v rest ih =>
    intro s ch
    simp only [dfsLoopG, dfsLoopS]
    by_cases hp : g.present v = true
    · rw [if_pos hp, if_pos hp]
      by_cases hd : s.base.disc v = some (-1)
      · rw [if_pos hd, if_pos (show (StG.toS s).base.disc v = some (-1) from hd)]
        have hstep := hrec (treePreG s u v) v
        rw [treePreG_toS] at hstep
        cases hS : recG (treePreG s u v) v with
        | none =>
          have hnone : recS (treePreS s.toS u v) v = none := by
            rw [← hstep, hS]
            rfl
          rw [hnone]
          rfl
        | some s2 =>
          have hsome : recS (treePreS s.toS u v) v = some s2.toS := by
            rw [← hstep, hS]
            rfl
          rw [hsome]
          show Option.map StG.toS
              (dfsLoopG g recG u (afterChildG s2 u v (ch + 1)) (ch + 1) rest)
            = dfsLoopS g recS u (afterChildS s2.toS u v (ch + 1)) (ch + 1) rest
          rw [ih, afterChildG_toS]
      · rw [if_neg hd, if_neg (show ¬ (StG.toS s).base.disc v = some (-1) from hd)]
        by_cases hb : backCond s.base u v = true
        · rw [if_pos hb, if_pos (show backCond (StG.toS s).base u v = true from hb), ih,
            backUpdG_toS]
        · rw [if_neg hb, if_neg (show ¬ backCond (StG.toS s).base u v = true from hb), ih]
    · rw [if_neg hp, if_neg hp, ih]

theorem dfsGoG_toS (g : Graph) :
    ∀ (fuel : Nat) (s : StG) (u : Nat),
      Option.map StG.toS (dfsGoG g fuel s u) = dfsGoS g fuel s.toS u := by
  intro fuel
  induction fuel with
  | zero => intro s u; rfl
  | succ f ih =>
    intro s u
    show Option.map StG.toS (dfsLoopG g (dfsGoG g f) u (visitUpdG s u) 0 (g.adjGet u))
      = dfsLoopS g (dfsGoS g f) u (visitUpdS s.toS u) 0 (g.adjGet u)
    rw [← visitUpdG_toS]
    exact dfsLoopG_toS g (dfsGoS g f) (dfsGoG g f) ih u (g.adjGet u) (visitUpdG s u) 0

theorem rootStepG_toS (g : Graph) (fuel : Nat) (s : StG) (nd : Node) :
    Option.map StG.toS (rootStepG g fuel s nd) = rootStepS g fuel s.toS nd := by
  unfold rootStepG rootStepS
  by_cases hd : s.base.disc nd.id = some (-1)
  · rw [if_pos hd, if_pos (show (StG.toS s).base.disc nd.id = some (-1) from hd)]
    have hstep := dfsGoG_toS g fuel s nd.id
    cases hS : dfsGoG g fuel s nd.id with
    | none =>
      have hnone : dfsGoS g fuel s.toS nd.id = none := by
        rw [← hstep, hS]
        rfl
      rw [hnone]
      rfl
    | some s1 =>
      have hsome : dfsGoS g fuel s.toS nd.id = some s1.toS := by
        rw [← hstep, hS]
        rfl
      rw [hsome]
      show some (residualG s1).toS = some (residualS s1.toS)
      rw [residualG_toS]
  · rw [if_neg hd, if_neg (show ¬ (StG.toS s).base.disc nd.id = some (-1) from hd)]
    rfl

theorem rootsLoopG_toS (g : Graph) (fuel : Nat) :
    ∀ (nds : List Node) (s : StG),
      Option.map StG.toS (rootsLoopG g fuel s nds) = rootsLoopS g fuel s.toS nds := by
  intro nds
  induction nds with
  | nil => intro s; rfl
  | cons nd rest ih =>
    intro s
    simp only [rootsLoopG, rootsLoopS]
    have hstep := rootStepG_toS g fuel s nd
    cases hS : rootStepG g fuel s nd with
    | none =>
      have hnone : rootStepS g fuel s.toS nd = none := by
        rw [← hstep, hS]
        rfl
      rw [hnone]
      rfl
    | some s1 =>
      have hsome : rootStepS g fuel s.toS nd = some s1.toS := by
        rw [← hstep, hS]
        rfl
      rw [hsome]
      show Option.map StG.toS (rootsLoopG g fuel s1 rest) = rootsLoopS g fuel s1.toS rest
      exact ih s1

/-- Erasing the ghost snapshots recovers `analyzeWithSteps` exactly. -/
theorem analyzeWithStepsGhost_toSteps (g : Graph) :
    (g.analyzeWithStepsGhost).map (fun p => (p.1, p.2.map (fun gs => gs.step)))
      = g.analyzeWithSteps := by
  unfold Graph.analyzeWithStepsGhost Graph.analyzeWithSteps
  have h : Option.map StG.toS (rootsLoopG g (fuelOf g) ⟨initSt g, [], [], []⟩ g.nodes)
      = rootsLoopS g (fuelOf g) ⟨initSt g, []⟩ g.nodes :=
    rootsLoopG_toS g (fuelOf g) g.nodes ⟨initSt g, [], [], []⟩
  cases hS : rootsLoopG g (fuelOf g) ⟨initSt g, [], [], []⟩ g.nodes with
  | none =>
    have hnone : rootsLoopS g (fuelOf g) ⟨initSt g, []⟩ g.nodes = none := by
      rw [← h, hS]
      rfl
    rw [hnone]
    rfl
  | some s =>
    have hsome : rootsLoopS g (fuelOf g) ⟨initSt g, []⟩ g.nodes = some s.toS := by
      rw [← h, hS]
      rfl
    rw [hsome]
    rfl

/-! ### Termination: `analyze` always returns a result -/

theorem treePre_disc (st : St) (u v : Nat) : (treePre st u v).disc = st.disc := rfl

theorem backUpd_disc (st : St) (u v : Nat) : (backUpd st u v).disc = st.disc := rfl

theorem afterChild_disc (st : St) (u v ch : Nat) : (afterChild st u v ch).disc = st.disc := by
  unfold afterChild
  simp only [apply_ite St.disc, ite_self]

theorem residual_disc (st : St) : (residual st).disc = st.disc := by
  unfold residual
  cases st.edgeStack <;> rfl

theorem visit_time_ne_unvisited (t : Nat) : ¬ (some ((t + 1 : Nat) : Int) = some (-1)) := by
  intro h
  have := Option.some.inj h
  omega

theorem uv_congr {g : Graph} {st st' : St} (h : st'.disc = st.disc) : uv g st' = uv g st := by
  unfold uv unvis
  rw [h]

theorem uv_le_of_disc_mono {g : Graph} {st st' : St}
    (h : ∀ i, st'.disc i = some (-1) → st.disc i = some (-1)) : uv g st' ≤ uv g st := by
  unfold uv unvis
  exact (List.monotone_filter_right _ (fun i hi =>
    decide_eq_true (h i (of_decide_eq_true hi)))).length_le

theorem mem_unvis {g : Graph} {st : St} {u : Nat} (hd : st.disc u = some (-1))
    (hp : g.present u = true) : u ∈ unvis g st := by
  unfold unvis
  rw [List.mem_filter]
  refine ⟨List.mem_dedup.mpr ?_, decide_eq_true hd⟩
  obtain ⟨n, hn, hid⟩ := present_iff.mp hp
  exact hid ▸ List.mem_map_of_mem (fun nd => nd.id) hn

theorem uv_visitUpd_lt {g : Graph} {st : St} {u : Nat} (hd : st.disc u = some (-1))
    (hp : g.present u = true) : uv g (visitUpd st u) < uv g st := by
  have hmem := mem_unvis hd hp
  unfold uv
  have hsub : unvis g (visitUpd st u) = (unvis g st).filter (fun i => decide (¬ i = u)) := by
    unfold unvis
    rw [List.filter_filter]
    refine List.filter_congr fun i _ => ?_
    by_cases hiu : i = u
    · rw [hiu]
      have : (visitUpd st u).disc u = some ((st.time + 1 : Nat) : Int) := by
        unfold visitUpd updF
        simp
      rw [this]
      simp
      omega
    · have : (visitUpd st u).disc i = st.disc i := by
        unfold visitUpd updF
        simp [hiu]
      rw [this]
      simp [hiu]
  rw [hsub]
  exact List.length_filter_lt_length_iff_exists.mpr ⟨u, hmem, by simp⟩

theorem uv_le_len (g : Graph) (st : St) : uv g st ≤ g.nodes.length := by
  unfold uv unvis
  refine le_trans (List.length_filter_le _ _) (le_trans (List.dedup_sublist _).length_le ?_)
  unfold Graph.nodeIds
  rw [List.length_map]

theorem dfsLoop_disc_mono (g : Graph) (rec : St → Nat → Option St)
    (hrec : ∀ st w st', rec st w = some st' →
      ∀ i, st'.disc i = some (-1) → st.disc i = some (-1)) (u : Nat) :
    ∀ (ns : List Nat) (st : St) (ch : Nat) (st' : St),
      dfsLoop g rec u st ch ns = some st' →
      ∀ i, st'.disc i = some (-1) → st.disc i = some (-1) := by
  intro ns
  induction ns with
  | nil =>
    intro st ch st' h i hi
    have := Option.some.inj h
    rw [← this] at hi
    exact hi
  | cons v rest ih =>
    intro st ch st' h i hi
    rw [dfsLoop] at h
    by_cases hp : g.present v = true
    · rw [if_pos hp] at h
      by_cases hd : st.disc v = some (-1)
      · rw [if_pos hd] at h
        cases hR : rec (treePre st u v) v with
        | none =>
          rw [hR] at h
          exact Option.noConfusion h
        | some st2 =>
          rw [hR] at h
          have h2 := ih _ _ _ h i hi
          rw [afterChild_disc] at h2
          have h3 := hrec _ _ _ hR i h2
          rw [treePre_disc] at h3
          exact h3
      · rw [if_neg hd] at h
        by_cases hb : backCond st u v = true
        · rw [if_pos hb] at h
          have h2 := ih _ _ _ h i hi
          rw [backUpd_disc] at h2
          exact h2
        · rw [if_neg hb] at h
          exact ih _ _ _ h i hi
    · rw [if_neg hp] at h
      exact ih _ _ _ h i hi

theorem dfsGo_disc_mono (g : Graph) :
    ∀ (fuel : Nat) (st : St) (u : Nat) (st' : St),
      dfsGo g fuel st u = some st' →
      ∀ i, st'.disc i = some (-1) → st.disc i = some (-1) := by
  intro fuel
  induction fuel with
  | zero =>
    intro st u st' h
    exact Option.noConfusion h
  | succ f ih =>
    intro st u st' h i hi
    have h2 := dfsLoop_disc_mono g (dfsGo g f) ih u _ _ _ _ h i hi
    by_cases hiu : i = u
    · exfalso
      have : (visitUpd st u).disc u = some ((st.time + 1 : Nat) : Int) := by
        unfold visitUpd updF
        simp
      rw [hiu, this] at h2
      exact visit_time_ne_unvisited st.time h2
    · have : (visitUpd st u).disc i = st.disc i := by
        unfold visitUpd updF
        simp [hiu]
      rw [this] at h2
      exact h2

theorem dfsLoop_total (g : Graph) (rec : St → Nat → Option St) (f : Nat)
    (hrecTotal : ∀ st w, st.disc w = some (-1) → g.present w = true →
      uv g st ≤ f → (rec st w).isSome = true)
    (hrecMono : ∀ st w st', rec st w = some st' →
      ∀ i, st'.disc i = some (-1) → st.disc i = some (-1)) (u : Nat) :
    ∀ (ns : List Nat) (st : St) (ch : Nat),
      uv g st ≤ f → (dfsLoop g rec u st ch ns).isSome = true := by
  intro ns
  induction ns with
  | nil => intro st ch _; rfl
  | cons v rest ih =>
    intro st ch hb
    rw [dfsLoop]
    by_cases hp : g.present v = true
    · rw [if_pos hp]
      by_cases hd : st.disc v = some (-1)
      · rw [if_pos hd]
        have htp : uv g (treePre st u v) = uv g st := uv_congr (treePre_disc st u v)
        have hrs := hrecTotal (treePre st u v) v hd hp (htp ▸ hb)
        cases hR : rec (treePre st u v) v with
        | none =>
          rw [hR] at hrs
          exact Bool.noConfusion hrs
        | some st2 =>
          have hm : uv g st2 ≤ uv g (treePre st u v) :=
            uv_le_of_disc_mono (hrecMono _ _ _ hR)
          have hb2 : uv g (afterChild st2 u v (ch + 1)) ≤ f := by
            rw [uv_congr (afterChild_disc st2 u v (ch + 1))]
            exact le_trans hm (htp ▸ hb)
          exact ih _ _ hb2
      · rw [if_neg hd]
        by_cases hback : backCond st u v = true
        · rw [if_pos hback]
          exact ih _ _ (by rw [uv_congr (backUpd_disc st u v)]; exact hb)
        · rw [if_neg hback]
          exact ih _ _ hb
    · rw [if_neg hp]
      exact ih _ _ hb

theorem dfsGo_total (g : Graph) :
    ∀ (fuel : Nat) (st : St) (u : Nat), st.disc u = some (-1) → g.present u = true →
      uv g st ≤ fuel → (dfsGo g fuel st u).isSome = true := by
  intro fuel
  induction fuel with
  | zero =>
    intro st u hd hp hb
    have hmem := mem_unvis hd hp
    have hpos : 0 < uv g st := List.length_pos.mpr (List.ne_nil_of_mem hmem)
    omega
  | succ f ih =>
    intro st u hd hp hb
    show (dfsLoop g (dfsGo g f) u (visitUpd st u) 0 (g.adjGet u)).isSome = true
    refine dfsLoop_total g (dfsGo g f) f ih (dfsGo_disc_mono g f) u _ _ 0 ?_
    have := uv_visitUpd_lt hd hp
    omega

theorem rootsLoop_total (g : Graph) :
    ∀ (nds : List Node) (st : St), (∀ nd ∈ nds, g.present nd.id = true) →
      (rootsLoop g (fuelOf g) st nds).isSome = true := by
  intro nds
  induction nds with
  | nil => intro st _; rfl
  | cons nd rest ih =>
    intro st hsub
    rw [rootsLoop]
    unfold rootStep
    by_cases hd : st.disc nd.id = some (-1)
    · rw [if_pos hd]
      have hg := dfsGo_total g (fuelOf g) st nd.id hd (hsub nd (List.mem_cons_self nd rest))
        (le_trans (uv_le_len g st) (Nat.le_succ _))
      cases hR : dfsGo g (fuelOf g) st nd.id with
      | none =>
        rw [hR] at hg
        exact Bool.noConfusion hg
      | some st1 =>
        exact ih (residual st1) (fun x hx => hsub x (List.mem_cons_of_mem nd hx))
    · rw [if_neg hd]
      exact ih st (fun x hx => hsub x (List.mem_cons_of_mem nd hx))

/-- `analyze` never runs out of fuel: it returns a result on every graph. -/
theorem analyze_isSome (g : Graph) : (g.analyze).isSome = true := by
  unfold Graph.analyze
  have h := rootsLoop_total g g.nodes (initSt g)
    (fun nd hnd => present_iff.mpr ⟨nd, hnd, rfl⟩)
  cases hR : rootsLoop g (fuelOf g) (initSt g) g.nodes with
  | none =>
    rw [hR] at h
    exact Bool.noConfusion h
  | some st => rfl

/-- C8: for every well-formed graph snapshot, `analyze` terminates with a
`Result` carrying all four fields (`articulationPoints`, `bridges`,
`components`, `edgeToComp`) — the fuel-exhaustion branch (`none`), the
model's image of a runtime error or non-termination, is unreachable — and
on the empty graph every field of the result is empty. -/
theorem analyze_total_on_wf (g : Graph) (hwf : WF g) :
    (∃ ap br cs e2c, g.analyze = some ⟨ap, br, cs, e2c⟩) ∧
    Graph.empty.analyze = some ⟨[], [], [], []⟩ := by
  refine ⟨?_, rfl⟩
  obtain ⟨r, hr⟩ := Option.isSome_iff_exists.mp (analyze_isSome g)
  exact ⟨r.articulationPoints, r.bridges, r.components, r.edgeToComp, hr⟩

theorem analyze_total_on_wf_witness :
    (∃ ap br cs e2c, pathG.analyze = some ⟨ap, br, cs, e2c⟩) ∧
    Graph.empty.analyze = some ⟨[], [], [], []⟩ :=
  analyze_total_on_wf pathG (by decide)

/-! ### Trace coherence: every emitted snapshot is the live state -/

theorem cohFrom_append (p : Snap) (l1 l2 : List GStep) :
    cohFrom p (l1 ++ l2) ↔ cohFrom p l1 ∧ cohFrom (lastSnap p l1) l2 := by
  induction l1 generalizing p with
  | nil => simp [cohFrom, lastSnap]
  | cons g l ih => simp [cohFrom, lastSnap, ih, and_assoc]

theorem lastSnap_append (p : Snap) (l1 l2 : List GStep) :
    lastSnap p (l1 ++ l2) = lastSnap (lastSnap p l1) l2 := by
  induction l1 generalizing p with
  | nil => rfl
  | cons g l ih => simp [lastSnap, ih]

theorem popUntil_append (u v : Nat) :
    ∀ st : List (Nat × Nat), st = (popUntil u v st).1 ++ (popUntil u v st).2 := by
  intro st
  induction st with
  | nil => rfl
  | cons e rest ih =>
    rw [popUntil]
    split_ifs with h
    · rfl
    · show e :: rest = e :: ((popUntil u v rest).1 ++ (popUntil u v rest).2)
      rw [← ih]

theorem coh_emit (s s2 : StG) (e : Step) (hg : s2.gsteps = s.gsteps) (h : Coh s)
    (hok : snapOK (liveSnap s) ⟨e, s2.base.edgeStack, s2.gvis, s2.gpushed⟩) :
    Coh (emitG s2 e) := by
  obtain ⟨hc, hl⟩ := h
  constructor
  · show cohFrom snap0 (s2.gsteps ++ [⟨e, s2.base.edgeStack, s2.gvis, s2.gpushed⟩])
    rw [hg, cohFrom_append, hl]
    exact ⟨hc, hok, trivial⟩
  · show lastSnap snap0 (s2.gsteps ++ [⟨e, s2.base.edgeStack, s2.gvis, s2.gpushed⟩])
        = liveSnap (emitG s2 e)
    rw [lastSnap_append]
    rfl

theorem visitUpdG_coh (s : StG) (u : Nat) (h : Coh s) : Coh (visitUpdG s u) := by
  show Coh (emitG { s with base := visitUpd s.base u, gvis := setAdd s.gvis u }
    (Step.visit u ((s.base.time + 1 : Nat) : Int) ((s.base.time + 1 : Nat) : Int)))
  exact coh_emit s _ _ rfl h ⟨rfl, rfl, rfl⟩

theorem treePreG_coh (s : StG) (u v : Nat) (h : Coh s) : Coh (treePreG s u v) := by
  show Coh (emitG { s with base := treePre s.base u v, gpushed := s.gpushed ++ [(u, v)] }
    (Step.pushEdge u v false))
  exact coh_emit s _ _ rfl h ⟨rfl, rfl, rfl⟩

theorem backUpdG_coh (s : StG) (u v : Nat) (h : Coh s) : Coh (backUpdG s u v) := by
  have h1 : Coh (emitG
      ⟨{ s.base with edgeStack := (u, v) :: s.base.edgeStack }, s.gvis,
        s.gpushed ++ [(u, v)], s.gsteps⟩ (Step.pushEdge u v true)) :=
    coh_emit s _ _ rfl h ⟨rfl, rfl, rfl⟩
  show Coh (emitG _ _)
  exact coh_emit _ _ _ rfl h1 rfl

theorem gLow1_coh (u v : Nat) (s : StG) (h : Coh s) : Coh (gLow1 u v s) :=
  coh_emit s _ _ rfl h rfl

theorem gAp1_coh (u ch : Nat) (s : StG) (h : Coh s) : Coh (gAp1 u ch s) := by
  unfold gAp1
  split_ifs with hc
  · exact coh_emit s _ _ rfl h rfl
  · exact h

theorem gAp2_coh (u v : Nat) (s : StG) (h : Coh s) : Coh (gAp2 u v s) := by
  unfold gAp2
  split_ifs with hc
  · exact coh_emit s _ _ rfl h rfl
  · exact h

theorem gBridge_coh (u v : Nat) (s : StG) (h : Coh s) : Coh (gBridge u v s) := by
  unfold gBridge
  split_ifs with hc
  · exact coh_emit s _ _ rfl h rfl
  · exact h

theorem gPop_coh (u v : Nat) (s : StG) (h : Coh s) : Coh (gPop u v s) := by
  unfold gPop
  split_ifs with h1 h2
  · obtain ⟨hc, hl⟩ := h
    refine ⟨hc, ?_⟩
    show lastSnap snap0 s.gsteps
        = ((popUntil u v s.base.edgeStack).2, s.gvis, s.gpushed)
    rw [hl]
    show (s.base.edgeStack, s.gvis, s.gpushed) = _
    have hd := popUntil_append u v s.base.edgeStack
    rw [List.isEmpty_iff.mp h2, List.nil_append] at hd
    exact congrArg (fun l => (l, s.gvis, s.gpushed)) hd
  · exact coh_emit s _ _ rfl h ⟨popUntil_append u v s.base.edgeStack, rfl, rfl⟩
  · exact h

theorem afterChildG_eq (s : StG) (u v ch : Nat) :
    afterChildG s u v ch = gPop u v (gBridge u v (gAp2 u v (gAp1 u ch (gLow1 u v s)))) := rfl

theorem afterChildG_coh (s : StG) (u v ch : Nat) (h : Coh s) : Coh (afterChildG s u v ch) := by
  rw [afterChildG_eq]
  exact gPop_coh u v _ (gBridge_coh u v _ (gAp2_coh u v _ (gAp1_coh u ch _ (gLow1_coh u v s h))))

theorem residualG_coh (s : StG) (h : Coh s) : Coh (residualG s) := by
  unfold residualG
  cases hst : s.base.edgeStack with
  | nil => exact h
  | cons e rest =>
    refine coh_emit s _ _ rfl h ⟨?_, rfl, rfl⟩
    show s.base.edgeStack = (e :: rest) ++ []
    rw [hst, List.append_nil]

theorem dfsLoopG_coh (g : Graph) (rec : StG → Nat → Option StG)
    (hrec : ∀ s w s2, rec s w = some s2 → Coh s → Coh s2) (u : Nat) :
    ∀ (ns : List Nat) (s : StG) (ch : Nat) (s2 : StG),
      dfsLoopG g rec u s ch ns = some s2 → Coh s → Coh s2 := by
  intro ns
  induction ns with
  | nil =>
    intro s ch s2 h hc
    exact (Option.some.inj h) ▸ hc
  | cons v rest ih =>
    intro s ch s2 h hc
    rw [dfsLoopG] at h
    by_cases hp : g.present v = true
    · rw [if_pos hp] at h
      by_cases hd : s.base.disc v = some (-1)
      · rw [if_pos hd] at h
        cases hR : rec (treePreG s u v) v with
        | none =>
          rw [hR] at h
          exact Option.noConfusion h
        | some s3 =>
          rw [hR] at h
          exact ih _ _ _ h (afterChildG_coh s3 u v (ch + 1) (hrec _ _ _ hR (treePreG_coh s u v hc)))
      · rw [if_neg hd] at h
        by_cases hb : backCond s.base u v = true
        · rw [if_pos hb] at h
          exact ih _ _ _ h (backUpdG_coh s u v hc)
        · rw [if_neg hb] at h
          exact ih _ _ _ h hc
    · rw [if_neg hp] at h
      exact ih _ _ _ h hc

theorem dfsGoG_coh (g : Graph) :
    ∀ (fuel : Nat) (s : StG) (u : Nat) (s2 : StG),
      dfsGoG g fuel s u = some s2 → Coh s → Coh s2 := by
  intro fuel
  induction fuel with
  | zero =>
    intro s u s2 h hc
    exact Option.noConfusion h
  | succ f ih =>
    intro s u s2 h hc
    have h2 : dfsLoopG g (dfsGoG g f) u (visitUpdG s u) 0 (g.adjGet u) = some s2 := h
    exact dfsLoopG_coh g (dfsGoG g f) ih u _ _ _ _ h2 (visitUpdG_coh s u hc)

theorem rootStepG_coh (g : Graph) (fuel : Nat) (s : StG) (nd : Node) (s2 : StG)
    (h : rootStepG g fuel s nd = some s2) (hc : Coh s) : Coh s2 := by
  unfold rootStepG at h
  split_ifs at h with hd
  · cases hR : dfsGoG g fuel s nd.id with
    | none =>
      rw [hR] at h
      exact Option.noConfusion h
    | some s1 =>
      rw [hR] at h
      exact (Option.some.inj h) ▸ residualG_coh s1 (dfsGoG_coh g fuel s nd.id s1 hR hc)
  · exact (Option.some.inj h) ▸ hc

theorem rootsLoopG_coh (g : Graph) (fuel : Nat) :
    ∀ (nds : List Node) (s s2 : StG),
      rootsLoopG g fuel s nds = some s2 → Coh s → Coh s2 := by
  intro nds
  induction nds with
  | nil =>
    intro s s2 h hc
    exact (Option.some.inj h) ▸ hc
  | cons nd rest ih =>
    intro s s2 h hc
    rw [rootsLoopG] at h
    cases hR : rootStepG g fuel s nd with
    | none =>
      rw [hR] at h
      exact Option.noConfusion h
    | some s1 =>
      rw [hR] at h
      exact ih _ _ h (rootStepG_coh g fuel s nd s1 hR hc)

theorem ghost_coh (g : Graph) (r : AResult) (gs : List GStep)
    (h : g.analyzeWithStepsGhost = some (r, gs)) : cohFrom snap0 gs := by
  unfold Graph.analyzeWithStepsGhost at h
  cases hR : rootsLoopG g (fuelOf g) ⟨initSt g, [], [], []⟩ g.nodes with
  | none =>
    rw [hR] at h
    exact Option.noConfusion h
  | some s =>
    rw [hR] at h
    have hsnd : s.gsteps = gs := congrArg Prod.snd (Option.some.inj h)
    have hcoh : Coh s :=
      rootsLoopG_coh g (fuelOf g) g.nodes ⟨initSt g, [], [], []⟩ s hR ⟨trivial, rfl⟩
    exact hsnd ▸ hcoh.1

/-! ### Replay against the coherent trace -/

theorem jsSet_append_single {α : Type} [DecidableEq α] (l : List α) (x : α) :
    jsSet (l ++ [x]) = setAdd (jsSet l) x := by
  unfold jsSet
  rw [List.foldl_append]
  rfl

theorem replayStep_snap (prev : Snap) (gsi : GStep) (racc : Replay)
    (hok : snapOK prev gsi)
    (hv : racc.visitedNodes = prev.2.1)
    (hp : racc.pushedEdges = jsSet (pushKeys prev.2.2)) :
    (replayStep racc gsi.step).visitedNodes = gsi.visitedSnap ∧
    (replayStep racc gsi.step).pushedEdges = jsSet (pushKeys gsi.pushedSnap) := by
  obtain ⟨st, ss, vs, ps⟩ := gsi
  cases st with
  | visit u d l =>
    have hok2 : ss = prev.1 ∧ vs = setAdd prev.2.1 u ∧ ps = prev.2.2 := hok
    obtain ⟨h1, h2, h3⟩ := hok2
    refine ⟨?_, ?_⟩
    · show setAdd racc.visitedNodes u = vs
      rw [hv, h2]
    · show racc.pushedEdges = jsSet (pushKeys ps)
      rw [hp, h3]
  | pushEdge u v b =>
    have hok2 : ss = (u, v) :: prev.1 ∧ vs = prev.2.1 ∧ ps = prev.2.2 ++ [(u, v)] := hok
    obtain ⟨h1, h2, h3⟩ := hok2
    refine ⟨?_, ?_⟩
    · show racc.visitedNodes = vs
      rw [hv, h2]
    · show setAdd racc.pushedEdges (Graph.edgeKey u v) = jsSet (pushKeys ps)
      rw [h3, hp]
      simp only [pushKeys, List.map_append, List.map_cons, List.map_nil]
      rw [jsSet_append_single]
  | updateLow a b c d =>
    have hok2 : (ss, vs, ps) = prev := hok
    refine ⟨?_, ?_⟩
    · show racc.visitedNodes = vs
      rw [hv, ← hok2]
    · show racc.pushedEdges = jsSet (pushKeys ps)
      rw [hp, ← hok2]
  | markAP u =>
    have hok2 : (ss, vs, ps) = prev := hok
    refine ⟨?_, ?_⟩
    · show racc.visitedNodes = vs
      rw [hv, ← hok2]
    · show racc.pushedEdges = jsSet (pushKeys ps)
      rw [hp, ← hok2]
  | markBridge u v =>
    have hok2 : (ss, vs, ps) = prev := hok
    refine ⟨?_, ?_⟩
    · show racc.visitedNodes = vs
      rw [hv, ← hok2]
    · show racc.pushedEdges = jsSet (pushKeys ps)
      rw [hp, ← hok2]
  | popComponent i es vsx =>
    have hok2 : prev.1 = es ++ ss ∧ vs = prev.2.1 ∧ ps = prev.2.2 := hok
    obtain ⟨h1, h2, h3⟩ := hok2
    refine ⟨?_, ?_⟩
    · show racc.visitedNodes = vs
      rw [hv, h2]
    · show racc.pushedEdges = jsSet (pushKeys ps)
      rw [hp, h3]

theorem replay_coh_aux :
    ∀ (gs : List GStep) (prev : Snap) (racc : Replay),
      cohFrom prev gs →
      racc.visitedNodes = prev.2.1 →
      racc.pushedEdges = jsSet (pushKeys prev.2.2) →
      ∀ (i : Nat) (gsi : GStep), gs.get? i = some gsi →
        (((gs.map GStep.step).take (i + 1)).foldl replayStep racc).visitedNodes
          = gsi.visitedSnap ∧
        (((gs.map GStep.step).take (i + 1)).foldl replayStep racc).pushedEdges
          = jsSet (pushKeys gsi.pushedSnap) := by
  intro gs
  induction gs with
  | nil =>
    intro prev racc _ _ _ i gsi hg
    exact Option.noConfusion hg
  | cons g0 rest ih =>
    intro prev racc hcoh hv hp i gsi hg
    have hcoh2 : snapOK prev g0 ∧ cohFrom g0.snap rest := hcoh
    have hstep := replayStep_snap prev g0 racc hcoh2.1 hv hp
    cases i with
    | zero =>
      have hg0 : g0 = gsi := Option.some.inj hg
      rw [← hg0]
      exact hstep
    | succ j =>
      have hgj : rest.get? j = some gsi := hg
      exact ih g0.snap (replayStep racc g0.step) hcoh2.2 hstep.1 hstep.2 j gsi hgj

/-- C2 (corrected): replaying the first `i+1` trace events reconstructs the
visited-node set exactly as it stood when the `(i+1)`-th event was emitted,
but the reconstructed "pending" edge set equals the deduplicated keys of
every edge ever pushed up to that event, not the live edge stack: the
replay loop never removes edges popped into a finalized component.  Stated
over the ghost-instrumented run, whose event list projects to the trace of
`analyzeWithSteps` (first conjunct) and whose snapshots record the live
algorithm state at each emission. -/
theorem applyStepsUpTo_reconstruction (g : Graph) (r : AResult) (gs : List GStep)
    (h : g.analyzeWithStepsGhost = some (r, gs)) (i : Nat) (gsi : GStep)
    (hi : gs.get? i = some gsi) :
    g.analyzeWithSteps = some (r, gs.map GStep.step) ∧
    (applyStepsUpTo (gs.map GStep.step) i).visitedNodes = gsi.visitedSnap ∧
    (applyStepsUpTo (gs.map GStep.step) i).pushedEdges = jsSet (pushKeys gsi.pushedSnap) := by
  refine ⟨?_, ?_⟩
  · rw [← analyzeWithStepsGhost_toSteps g, h]
    rfl
  · exact replay_coh_aux gs snap0 initReplay (ghost_coh g r gs h) rfl rfl i gsi hi

theorem applyStepsUpTo_reconstruction_witness :
    twoG.analyzeWithSteps = some (twoRes, twoGhost.map GStep.step) ∧
    (applyStepsUpTo (twoGhost.map GStep.step) 2).visitedNodes
      = (⟨Step.visit 1 2 2, [(0, 1)], [0, 1], [(0, 1)]⟩ : GStep).visitedSnap ∧
    (applyStepsUpTo (twoGhost.map GStep.step) 2).pushedEdges
      = jsSet (pushKeys (⟨Step.visit 1 2 2, [(0, 1)], [0, 1], [(0, 1)]⟩ : GStep).pushedSnap) :=
  applyStepsUpTo_reconstruction twoG twoRes twoGhost (by decide) 2
    ⟨Step.visit 1 2 2, [(0, 1)], [0, 1], [(0, 1)]⟩ (by decide)

/-- C2: counterexample to "an edge popped into a finalized component no
longer counts as pending".  On the two-node, one-edge graph the last trace
event (index 5) pops the component containing edge `0-1`; the live edge
stack at that instant is empty, yet the stepper replay of events `0..5`
still reports the edge as pushed/pending, because `applyStepsUpTo` never
deletes from `pushedEdges` when it replays a `popComponent` event. -/
theorem replay_popped_edge_pending_cex :
    ((ghostSteps twoG).get? 5).map GStep.step
      = some (Step.popComponent 0 [(0, 1)] [0, 1]) ∧
    ((ghostSteps twoG).get? 5).map GStep.stackSnap = some [] ∧
    (applyStepsUpTo ((ghostSteps twoG).map GStep.step) 5).pushedEdges
      = [EdgeKey.undir 0 1] := by
  decide

/-! ### Small facts: canonical pairs, option comparisons, field updates -/

theorem canonPair_comm (a b : Nat) : canonPair a b = canonPair b a := by
  unfold canonPair
  rw [Nat.min_comm, Nat.max_comm]

theorem canonPair_eq {a b c d : Nat} (h : canonPair a b = canonPair c d) :
    (a = c ∧ b = d) ∨ (a = d ∧ b = c) := by
  unfold canonPair at h
  have h1 : min a b = min c d := congrArg Prod.fst h
  have h2 : max a b = max c d := congrArg Prod.snd h
  omega

theorem oLt_asymm {x y : Option Int} (h1 : oLt x y = true) (h2 : oLt y x = true) : False := by
  cases x with
  | none => exact Bool.noConfusion h1
  | some a =>
    cases y with
    | none => exact Bool.noConfusion h1
    | some b =>
      unfold oLt at h1 h2
      have := of_decide_eq_true h1
      have := of_decide_eq_true h2
      omega

theorem updF_ne (f : Nat → Option Int) (u : Nat) (x : Option Int) {w : Nat} (h : ¬ w = u) :
    updF f u x w = f w := by
  unfold updF
  exact if_neg h

theorem cpairs_append (l1 l2 : List (Nat × Nat)) :
    cpairs (l1 ++ l2) = cpairs l1 ++ cpairs l2 := by
  unfold cpairs
  rw [List.map_append]

theorem mem_cpairs_of_mem {l : List (Nat × Nat)} {u v : Nat} (h : (u, v) ∈ l) :
    canonPair u v ∈ cpairs l :=
  List.mem_map_of_mem (fun p => canonPair p.1 p.2) h

theorem mem_cpairs_append_left {l1 l2 : List (Nat × Nat)} {q : Nat × Nat}
    (h : q ∈ cpairs l1) : q ∈ cpairs (l1 ++ l2) := by
  rw [cpairs_append]
  exact List.mem_append_left _ h

theorem flatEdges_append (cs1 cs2 : List Comp) :
    flatEdges (cs1 ++ cs2) = flatEdges cs1 ++ flatEdges cs2 := by
  unfold flatEdges
  rw [List.map_append, List.flatten_append]

theorem flatEdges_cons (c : Comp) (cs : List Comp) :
    flatEdges (c :: cs) = c.edges ++ flatEdges cs := rfl

theorem vis_congr {st st' : St} (h : st'.disc = st.disc) (w : Nat) :
    vis st' w ↔ vis st w := by
  unfold vis
  rw [h]

theorem visitUpd_disc_self2 (st : St) (u : Nat) :
    (visitUpd st u).disc u = some ((st.time + 1 : Nat) : Int) := by
  show updF st.disc u (some ((st.time + 1 : Nat) : Int)) u = _
  unfold updF
  exact if_pos rfl

theorem visitUpd_disc_ne (st : St) {u w : Nat} (h : ¬ w = u) :
    (visitUpd st u).disc w = st.disc w := by
  show updF st.disc u (some ((st.time + 1 : Nat) : Int)) w = _
  exact updF_ne _ _ _ h

theorem vis_visitUpd_self (st : St) (u : Nat) : vis (visitUpd st u) u := by
  unfold vis
  rw [visitUpd_disc_self2]
  intro h
  have := Option.some.inj h
  omega

theorem vis_visitUpd_of {st : St} {w : Nat} (u : Nat) (h : vis st w) : vis (visitUpd st u) w := by
  by_cases hw : w = u
  · rw [hw]
    exact vis_visitUpd_self st u
  · unfold vis at h ⊢
    rw [visitUpd_disc_ne st hw]
    exact h

theorem treePre_parent_self (st : St) (u v : Nat) :
    (treePre st u v).parent v = some (u : Int) := by
  show updF st.parent v (some (u : Int)) v = _
  unfold updF
  exact if_pos rfl

theorem treePre_parent_ne (st : St) (u : Nat) {v w : Nat} (h : ¬ w = v) :
    (treePre st u v).parent w = st.parent w :=
  updF_ne _ _ _ h

theorem afterChild_parent (st : St) (u v ch : Nat) :
    (afterChild st u v ch).parent = st.parent := by
  unfold afterChild
  simp only [apply_ite St.parent, ite_self]

theorem afterChild_time (st : St) (u v ch : Nat) :
    (afterChild st u v ch).time = st.time := by
  unfold afterChild
  simp only [apply_ite St.time, ite_self]

theorem residual_parent (st : St) : (residual st).parent = st.parent := by
  unfold residual
  cases st.edgeStack <;> rfl

theorem residual_time (st : St) : (residual st).time = st.time := by
  unfold residual
  cases st.edgeStack <;> rfl

theorem residual_stack_empty (st : St) : (residual st).edgeStack = [] := by
  unfold residual
  cases hst : st.edgeStack with
  | nil => exact hst
  | cons e rest => rfl

theorem residual_stack_perm (st : St) :
    ((residual st).edgeStack ++ flatEdges (residual st).comps).Perm
      (st.edgeStack ++ flatEdges st.comps) := by
  unfold residual
  cases hst : st.edgeStack with
  | nil =>
    show (st.edgeStack ++ flatEdges st.comps).Perm ([] ++ flatEdges st.comps)
    rw [hst]
  | cons e rest =>
    show ([] ++ flatEdges (st.comps ++ [(⟨e :: rest, vertsOf (e :: rest)⟩ : Comp)])).Perm
      ((e :: rest) ++ flatEdges st.comps)
    rw [List.nil_append, flatEdges_append, flatEdges_cons]
    rw [show flatEdges ([] : List Comp) = [] from rfl, List.append_nil]
    exact List.perm_append_comm

/-! ### Field facts of the ghost helpers -/

theorem visitUpdG_base (s : StG) (u : Nat) : (visitUpdG s u).base = visitUpd s.base u := rfl

theorem visitUpdG_gpushed (s : StG) (u : Nat) : (visitUpdG s u).gpushed = s.gpushed := rfl

theorem treePreG_base (s : StG) (u v : Nat) : (treePreG s u v).base = treePre s.base u v := rfl

theorem treePreG_gpushed (s : StG) (u v : Nat) :
    (treePreG s u v).gpushed = s.gpushed ++ [(u, v)] := rfl

theorem backUpdG_base (s : StG) (u v : Nat) : (backUpdG s u v).base = backUpd s.base u v := rfl

theorem backUpdG_gpushed (s : StG) (u v : Nat) :
    (backUpdG s u v).gpushed = s.gpushed ++ [(u, v)] := rfl

theorem gLow1_fields (u v : Nat) (s : StG) :
    (gLow1 u v s).base.edgeStack = s.base.edgeStack ∧
    (gLow1 u v s).base.comps = s.base.comps ∧
    (gLow1 u v s).base.disc = s.base.disc ∧
    (gLow1 u v s).base.parent = s.base.parent ∧
    (gLow1 u v s).base.time = s.base.time ∧
    (gLow1 u v s).gpushed = s.gpushed :=
  ⟨rfl, rfl, rfl, rfl, rfl, rfl⟩

theorem gAp1_fields (u ch : Nat) (s : StG) :
    (gAp1 u ch s).base.edgeStack = s.base.edgeStack ∧
    (gAp1 u ch s).base.comps = s.base.comps ∧
    (gAp1 u ch s).base.disc = s.base.disc ∧
    (gAp1 u ch s).base.parent = s.base.parent ∧
    (gAp1 u ch s).base.time = s.base.time ∧
    (gAp1 u ch s).gpushed = s.gpushed := by
  unfold gAp1
  split_ifs <;> exact ⟨rfl, rfl, rfl, rfl, rfl, rfl⟩

theorem gAp2_fields (u v : Nat) (s : StG) :
    (gAp2 u v s).base.edgeStack = s.base.edgeStack ∧
    (gAp2 u v s).base.comps = s.base.comps ∧
    (gAp2 u v s).base.disc = s.base.disc ∧
    (gAp2 u v s).base.parent = s.base.parent ∧
    (gAp2 u v s).base.time = s.base.time ∧
    (gAp2 u v s).gpushed = s.gpushed := by
  unfold gAp2
  split_ifs <;> exact ⟨rfl, rfl, rfl, rfl, rfl, rfl⟩

theorem gBridge_fields (u v : Nat) (s : StG) :
    (gBridge u v s).base.edgeStack = s.base.edgeStack ∧
    (gBridge u v s).base.comps = s.base.comps ∧
    (gBridge u v s).base.disc = s.base.disc ∧
    (gBridge u v s).base.parent = s.base.parent ∧
    (gBridge u v s).base.time = s.base.time ∧
    (gBridge u v s).gpushed = s.gpushed := by
  unfold gBridge
  split_ifs <;> exact ⟨rfl, rfl, rfl, rfl, rfl, rfl⟩

theorem gPop_fields (u v : Nat) (s : StG) :
    (gPop u v s).base.disc = s.base.disc ∧
    (gPop u v s).base.parent = s.base.parent ∧
    (gPop u v s).base.time = s.base.time ∧
    (gPop u v s).gpushed = s.gpushed := by
  unfold gPop
  split_ifs <;> exact ⟨rfl, rfl, rfl, rfl⟩

theorem gPop_stack_perm (u v : Nat) (s : StG) :
    ((gPop u v s).base.edgeStack ++ flatEdges (gPop u v s).base.comps).Perm
      (s.base.edgeStack ++ flatEdges s.base.comps) := by
  unfold gPop
  split_ifs with h1 h2
  · show ((popUntil u v s.base.edgeStack).2 ++ flatEdges s.base.comps).Perm _
    have hd := popUntil_append u v s.base.edgeStack
    rw [List.isEmpty_iff.mp h2, List.nil_append] at hd
    rw [← hd]
  · have hd := popUntil_append u v s.base.edgeStack
    set pr := popUntil u v s.base.edgeStack with hpr
    show (pr.2 ++ flatEdges (s.base.comps ++ [(⟨pr.1, vertsOf pr.1⟩ : Comp)])).Perm
      (s.base.edgeStack ++ flatEdges s.base.comps)
    rw [flatEdges_append, flatEdges_cons]
    rw [show flatEdges ([] : List Comp) = [] from rfl, List.append_nil]
    have p1 : (pr.2 ++ (flatEdges s.base.comps ++ pr.1)).Perm
        (pr.2 ++ (pr.1 ++ flatEdges s.base.comps)) :=
      List.Perm.append_left _ List.perm_append_comm
    have p2 : pr.2 ++ (pr.1 ++ flatEdges s.base.comps)
        = (pr.2 ++ pr.1) ++ flatEdges s.base.comps := by rw [List.append_assoc]
    have p3 : ((pr.2 ++ pr.1) ++ flatEdges s.base.comps).Perm
        ((pr.1 ++ pr.2) ++ flatEdges s.base.comps) :=
      List.Perm.append_right _ List.perm_append_comm
    have p4 : (pr.1 ++ pr.2) ++ flatEdges s.base.comps
        = s.base.edgeStack ++ flatEdges s.base.comps := by rw [← hd]
    exact ((p1.trans (p2 ▸ p3)).trans (p4 ▸ List.Perm.refl _)).trans (List.Perm.refl _)
  · exact List.Perm.refl _

theorem afterChildG_gpushed (s : StG) (u v ch : Nat) :
    (afterChildG s u v ch).gpushed = s.gpushed := by
  rw [afterChildG_eq]
  rw [(gPop_fields u v _).2.2.2, (gBridge_fields u v _).2.2.2.2.2,
    (gAp2_fields u v _).2.2.2.2.2, (gAp1_fields u ch _).2.2.2.2.2,
    (gLow1_fields u v _).2.2.2.2.2]

theorem afterChildG_disc (s : StG) (u v ch : Nat) :
    (afterChildG s u v ch).base.disc = s.base.disc := by
  rw [afterChildG_eq]
  rw [(gPop_fields u v _).1, (gBridge_fields u v _).2.2.1,
    (gAp2_fields u v _).2.2.1, (gAp1_fields u ch _).2.2.1, (gLow1_fields u v _).2.2.1]

theorem afterChildG_parent (s : StG) (u v ch : Nat) :
    (afterChildG s u v ch).base.parent = s.base.parent := by
  rw [afterChildG_eq]
  rw [(gPop_fields u v _).2.1, (gBridge_fields u v _).2.2.2.1,
    (gAp2_fields u v _).2.2.2.1, (gAp1_fields u ch _).2.2.2.1, (gLow1_fields u v _).2.2.2.1]

theorem afterChildG_time (s : StG) (u v ch : Nat) :
    (afterChildG s u v ch).base.time = s.base.time := by
  rw [afterChildG_eq]
  rw [(gPop_fields u v _).2.2.1, (gBridge_fields u v _).2.2.2.2.1,
    (gAp2_fields u v _).2.2.2.2.1, (gAp1_fields u ch _).2.2.2.2.1,
    (gLow1_fields u v _).2.2.2.2.1]

theorem afterChildG_stack_perm (s : StG) (u v ch : Nat) :
    ((afterChildG s u v ch).base.edgeStack ++ flatEdges (afterChildG s u v ch).base.comps).Perm
      (s.base.edgeStack ++ flatEdges s.base.comps) := by
  rw [afterChildG_eq]
  have h := gPop_stack_perm u v (gBridge u v (gAp2 u v (gAp1 u ch (gLow1 u v s))))
  rw [(gBridge_fields u v _).1, (gBridge_fields u v _).2.1,
    (gAp2_fields u v _).1, (gAp2_fields u v _).2.1,
    (gAp1_fields u ch _).1, (gAp1_fields u ch _).2.1,
    (gLow1_fields u v _).1, (gLow1_fields u v _).2.1] at h
  exact h

theorem residualG_gpushed (s : StG) : (residualG s).gpushed = s.gpushed := by
  unfold residualG
  cases hst : s.base.edgeStack with
  | nil => rfl
  | cons e rest => rfl

theorem residualG_base (s : StG) : (residualG s).base = residual s.base := by
  unfold residualG residual
  cases hst : s.base.edgeStack with
  | nil => rfl
  | cons e rest => rfl

/-! ### Algebra of segment facts, and invariant preservation per helper -/

theorem efacts_refl (s : StG) : EFacts s s :=
  ⟨⟨[], (List.append_nil _).symm⟩, fun _ _ => rfl, fun _ _ => rfl, fun _ _ => rfl, fun _ h => h⟩

theorem efacts_trans {s1 s2 s3 : StG} (a : EFacts s1 s2) (b : EFacts s2 s3) : EFacts s1 s3 := by
  obtain ⟨l1, hl1⟩ := a.pushes
  obtain ⟨l2, hl2⟩ := b.pushes
  refine ⟨⟨l1 ++ l2, ?_⟩, ?_, ?_, ?_, ?_⟩
  · rw [hl2, hl1, List.append_assoc]
  · intro w h
    rw [b.discSt w (a.visMono w h), a.discSt w h]
  · intro w h
    rw [b.parSt w (a.visMono w h), a.parSt w h]
  · intro w h
    have h2 : ¬ vis s2.base w := fun hv => h (b.visMono w hv)
    rw [b.parUn w h, a.parUn w h2]
  · exact fun w h => b.visMono w (a.visMono w h)

theorem covers_refl (g : Graph) (s : StG) : Covers g s s :=
  fun _ _ h1 h2 => absurd h1 h2

theorem covers_trans {g : Graph} (hsym : Symm g) {s1 s2 s3 : StG}
    (c12 : Covers g s1 s2) (c23 : Covers g s2 s3)
    (e23 : EFacts s2 s3) : Covers g s1 s3 := by
  intro w hpw hw1 hw3 x hx hpx hx3
  by_cases hw2 : vis s2.base w
  · by_cases hx2 : vis s2.base x
    · obtain ⟨l2, hl2⟩ := e23.pushes
      have h := c12 w hpw hw1 hw2 x hx hpx hx2
      show canonPair w x ∈ cpairs s3.gpushed
      rw [hl2]
      exact mem_cpairs_append_left h
    · have hx2d : s2.base.disc x = some (-1) := of_not_not hx2
      have h := c23 x hpx hx2d hx3 w (hsym w x hx) hpw hw3
      rw [canonPair_comm]
      exact h
  · have hw2d : s2.base.disc w = some (-1) := of_not_not hw2
    exact c23 w hpw hw2d hw3 x hx hpx hx3

theorem ginv_visitUpdG {g : Graph} {s : StG} {u : Nat} (hA : GInvA g s u)
    (hd : s.base.disc u = some (-1)) : GInv g (visitUpdG s u) := by
  have hnv : ¬ vis s.base u := fun hv => hv hd
  refine ⟨?_, ?_, ?_, ?_, ?_, ?_⟩
  · exact hA.conserve
  · exact hA.nodup
  · intro p hp
    have hp2 : p ∈ s.gpushed := hp
    obtain ⟨h1, h2⟩ := hA.both p hp2
    refine ⟨vis_visitUpd_of u h1, ?_⟩
    cases h2 with
    | inl hv => exact vis_visitUpd_of u hv
    | inr he =>
      show vis (visitUpd s.base u) p.2
      rw [he]
      exact vis_visitUpd_self s.base u
  · intro p hp
    have hp2 : p ∈ s.gpushed := hp
    cases hA.orient p hp2 with
    | inl hpar =>
      left
      exact hpar
    | inr hlt =>
      obtain ⟨hv2, hlt⟩ := hlt
      have h1 := (hA.both p hp2).1
      have hne2 : ¬ p.2 = u := fun he => hnv (he ▸ hv2)
      have hne1 : ¬ p.1 = u := fun he => hnv (he ▸ h1)
      right
      refine ⟨vis_visitUpd_of u hv2, ?_⟩
      show oLt ((visitUpd s.base u).disc p.2) ((visitUpd s.base u).disc p.1) = true
      rw [visitUpd_disc_ne s.base hne2, visitUpd_disc_ne s.base hne1]
      exact hlt
  · intro w d hw
    have hw2 : (visitUpd s.base u).disc w = some d := hw
    show d ≤ ((s.base.time + 1 : Nat) : Int)
    by_cases hwu : w = u
    · rw [hwu, visitUpd_disc_self2] at hw2
      have := Option.some.inj hw2
      omega
    · rw [visitUpd_disc_ne s.base hwu] at hw2
      have := hA.timeB w d hw2
      omega
  · intro w hw
    show ((visitUpd s.base u).disc w).isSome = true
    by_cases hwu : w = u
    · rw [hwu, visitUpd_disc_self2]
      rfl
    · rw [visitUpd_disc_ne s.base hwu]
      exact hA.discSome w hw

theorem dpre_treePreG {g : Graph} {s : StG} {u v : Nat} (hG : GInv g s)
    (hvisu : vis s.base u) (hp : g.present v = true) (hd : s.base.disc v = some (-1)) :
    DPre g (treePreG s u v) v := by
  have hnvv : ¬ vis s.base v := fun hv => hv hd
  refine ⟨⟨?_, ?_, ?_, ?_, ?_, ?_⟩, hp, hd, ?_⟩
  · show (s.gpushed ++ [(u, v)]).Perm
      (((u, v) :: s.base.edgeStack) ++ flatEdges s.base.comps)
    have h2 : ((s.base.edgeStack ++ flatEdges s.base.comps) ++ [(u, v)]).Perm
        ((u, v) :: (s.base.edgeStack ++ flatEdges s.base.comps)) :=
      List.perm_append_singleton _ _
    exact (List.Perm.append_right [(u, v)] hG.conserve).trans h2
  · show (cpairs (s.gpushed ++ [(u, v)])).Nodup
    rw [cpairs_append]
    rw [List.nodup_append]
    refine ⟨hG.nodup, List.nodup_singleton _, ?_⟩
    intro q hq hq2
    have hq3 : q = canonPair u v := List.mem_singleton.mp hq2
    obtain ⟨p, hpmem, hpe⟩ := List.mem_map.mp hq
    rw [hq3] at hpe
    cases canonPair_eq hpe with
    | inl h => exact hnvv (h.2 ▸ (hG.both p hpmem).2)
    | inr h => exact hnvv (h.1 ▸ (hG.both p hpmem).1)
  · intro p hp2
    have hp3 : p ∈ s.gpushed ++ [(u, v)] := hp2
    cases List.mem_append.mp hp3 with
    | inl hold =>
      obtain ⟨h1, h2⟩ := hG.both p hold
      exact ⟨h1, Or.inl h2⟩
    | inr hnew =>
      have he : p = (u, v) := List.mem_singleton.mp hnew
      rw [he]
      exact ⟨hvisu, Or.inr rfl⟩
  · intro p hp2
    have hp3 : p ∈ s.gpushed ++ [(u, v)] := hp2
    cases List.mem_append.mp hp3 with
    | inl hold =>
      cases hG.orient p hold with
      | inl hpar =>
        left
        show (treePre s.base u v).parent p.2 = some (p.1 : Int)
        have hne : ¬ p.2 = v := fun he => hnvv (he ▸ (hG.both p hold).2)
        rw [treePre_parent_ne s.base u hne]
        exact hpar
      | inr h => exact Or.inr h
    | inr hnew =>
      have he : p = (u, v) := List.mem_singleton.mp hnew
      left
      rw [he]
      exact treePre_parent_self s.base u v
  · exact hG.timeB
  · exact hG.discSome
  · intro pv hpv
    have hps : (treePre s.base u v).parent v = some (pv : Int) := hpv
    rw [treePre_parent_self s.base u v] at hps
    have h2 := Option.some.inj hps
    have hupv : u = pv := by exact_mod_cast h2
    rw [← hupv]
    exact mem_cpairs_of_mem (List.mem_append_right _ (List.mem_singleton.mpr rfl))

theorem ginv_backUpdG {g : Graph} {s : StG} {u v : Nat} (hG : GInv g s)
    (hvisu : vis s.base u) (hvisv : vis s.base v)
    (hLN : (u, v) ∉ s.gpushed)
    (hPar : ¬ s.base.parent u = some (v : Int))
    (hLt : oLt (s.base.disc v) (s.base.disc u) = true) :
    GInv g (backUpdG s u v) := by
  refine ⟨?_, ?_, ?_, ?_, ?_, ?_⟩
  · show (s.gpushed ++ [(u, v)]).Perm
      (((u, v) :: s.base.edgeStack) ++ flatEdges s.base.comps)
    have h2 : ((s.base.edgeStack ++ flatEdges s.base.comps) ++ [(u, v)]).Perm
        ((u, v) :: (s.base.edgeStack ++ flatEdges s.base.comps)) :=
      List.perm_append_singleton _ _
    exact (List.Perm.append_right [(u, v)] hG.conserve).trans h2
  · show (cpairs (s.gpushed ++ [(u, v)])).Nodup
    rw [cpairs_append, List.nodup_append]
    refine ⟨hG.nodup, List.nodup_singleton _, ?_⟩
    intro q hq hq2
    have hq3 : q = canonPair u v := List.mem_singleton.mp hq2
    obtain ⟨p, hpmem, hpe⟩ := List.mem_map.mp hq
    rw [hq3] at hpe
    cases canonPair_eq hpe with
    | inl h =>
      have hpuv : p = (u, v) := Prod.ext h.1 h.2
      exact hLN (hpuv ▸ hpmem)
    | inr h =>
      cases hG.orient p hpmem with
      | inl hpar =>
        rw [h.1, h.2] at hpar
        exact hPar hpar
      | inr hor =>
        rw [h.1, h.2] at hor
        exact oLt_asymm hLt hor.2
  · intro p hp2
    have hp3 : p ∈ s.gpushed ++ [(u, v)] := hp2
    cases List.mem_append.mp hp3 with
    | inl hold => exact hG.both p hold
    | inr hnew =>
      have he : p = (u, v) := List.mem_singleton.mp hnew
      rw [he]
      exact ⟨hvisu, hvisv⟩
  · intro p hp2
    have hp3 : p ∈ s.gpushed ++ [(u, v)] := hp2
    cases List.mem_append.mp hp3 with
    | inl hold => exact hG.orient p hold
    | inr hnew =>
      have he : p = (u, v) := List.mem_singleton.mp hnew
      rw [he]
      exact Or.inr ⟨hvisv, hLt⟩
  · exact hG.timeB
  · exact hG.discSome

theorem ginv_afterChildG {g : Graph} {s : StG} (u v ch : Nat) (hG : GInv g s) :
    GInv g (afterChildG s u v ch) := by
  refine ⟨?_, ?_, ?_, ?_, ?_, ?_⟩
  · rw [afterChildG_gpushed]
    exact hG.conserve.trans (afterChildG_stack_perm s u v ch).symm
  · rw [afterChildG_gpushed]
    exact hG.nodup
  · intro p hp
    rw [afterChildG_gpushed] at hp
    obtain ⟨h1, h2⟩ := hG.both p hp
    exact ⟨(vis_congr (afterChildG_disc s u v ch) p.1).mpr h1,
      (vis_congr (afterChildG_disc s u v ch) p.2).mpr h2⟩
  · intro p hp
    rw [afterChildG_gpushed] at hp
    cases hG.orient p hp with
    | inl h =>
      left
      rw [afterChildG_parent]
      exact h
    | inr h =>
      right
      refine ⟨(vis_congr (afterChildG_disc s u v ch) p.2).mpr h.1, ?_⟩
      rw [afterChildG_disc]
      exact h.2
  · intro w d hw
    rw [afterChildG_disc] at hw
    rw [afterChildG_time]
    exact hG.timeB w d hw
  · intro w hw
    rw [afterChildG_disc]
    exact hG.discSome w hw

theorem ginv_residualG {g : Graph} {s : StG} (hG : GInv g s) : GInv g (residualG s) := by
  refine ⟨?_, ?_, ?_, ?_, ?_, ?_⟩
  · rw [residualG_gpushed, residualG_base]
    exact hG.conserve.trans (residual_stack_perm s.base).symm
  · rw [residualG_gpushed]
    exact hG.nodup
  · intro p hp
    rw [residualG_gpushed] at hp
    obtain ⟨h1, h2⟩ := hG.both p hp
    rw [residualG_base]
    exact ⟨(vis_congr (residual_disc s.base) p.1).mpr h1,
      (vis_congr (residual_disc s.base) p.2).mpr h2⟩
  · intro p hp
    rw [residualG_gpushed] at hp
    rw [residualG_base]
    cases hG.orient p hp with
    | inl h =>
      left
      rw [residual_parent]
      exact h
    | inr h =>
      right
      refine ⟨(vis_congr (residual_disc s.base) p.2).mpr h.1, ?_⟩
      rw [residual_disc]
      exact h.2
  · intro w d hw
    rw [residualG_base, residual_disc] at hw
    rw [residualG_base, residual_time]
    exact hG.timeB w d hw
  · intro w hw
    rw [residualG_base, residual_disc]
    exact hG.discSome w hw

/-! ### The neighbor loop preserves the accounting invariant and covers `u`'s edges -/

theorem dfsLoopG_main (g : Graph) (hwf : WF g)
    (rec : StG → Nat → Option StG)
    (hrec : ∀ s w s2, rec s w = some s2 → DPre g s w → DPost g s s2 w) (u : Nat) :
    ∀ (ns : List Nat) (s : StG) (ch : Nat) (s2 : StG),
      dfsLoopG g rec u s ch ns = some s2 →
      GInv g s → g.present u = true → vis s.base u →
      ns.Nodup → (∀ y ∈ ns, y ∈ g.adjGet u) →
      (∀ y ∈ ns, (u, y) ∉ s.gpushed) →
      (∀ x ∈ g.adjGet u, g.present x = true → vis s.base x →
        oLt (s.base.disc x) (s.base.disc u) = false → canonPair u x ∈ cpairs s.gpushed) →
      (∀ pv : Nat, s.base.parent u = some (pv : Int) → canonPair pv u ∈ cpairs s.gpushed) →
      GInv g s2 ∧ EFacts s s2 ∧ Covers g s s2 ∧
        (∀ x ∈ ns, g.present x = true → vis s2.base x → canonPair u x ∈ cpairs s2.gpushed) ∧
        (∃ l, s2.gpushed = s.gpushed ++ l ∧ ∀ p ∈ l, p.1 = u ∨ ¬ vis s.base p.1) := by
  intro ns
  induction ns with
  | nil =>
    intro s ch s2 h hG hpu hvu hnd hsub hLN hEINV hHP
    cases Option.some.inj h
    exact ⟨hG, efacts_refl s, covers_refl g s, fun x hx => absurd hx (List.not_mem_nil x),
      ⟨[], (List.append_nil _).symm, fun p hp => absurd hp (List.not_mem_nil p)⟩⟩
  | cons v rest ih =>
    intro s ch s2 h hG hpu hvu hnd hsub hLN hEINV hHP
    rw [dfsLoopG] at h
    have hvadj : v ∈ g.adjGet u := hsub v (List.mem_cons_self v rest)
    have hvnu : ¬ v = u := fun he => hwf.no_self_adj (he ▸ hvadj)
    have hunv : ¬ u = v := fun he => hvnu he.symm
    by_cases hp : g.present v = true
    · rw [if_pos hp] at h
      by_cases hd : s.base.disc v = some (-1)
      · rw [if_pos hd] at h
        cases hR : rec (treePreG s u v) v with
        | none =>
          rw [hR] at h
          exact Option.noConfusion h
        | some s3 =>
          rw [hR] at h
          have hpost := hrec _ _ _ hR (dpre_treePreG hG hvu hp hd)
          have hG3 : GInv g s3 := hpost.inv
          have hE3 : EFacts (treePreG s u v) s3 := hpost.facts
          have hC3 : Covers g (treePreG s u v) s3 := hpost.covers
          have hv3 : vis s3.base v := hpost.visd
          obtain ⟨l3, hl3, hNPF3⟩ := hpost.newPush
          have hsAg : (afterChildG s3 u v (ch + 1)).gpushed = s.gpushed ++ [(u, v)] ++ l3 := by
            rw [afterChildG_gpushed, hl3, treePreG_gpushed]
          have hvuT : vis (treePreG s u v).base u := hvu
          have hvu3 : vis s3.base u := hE3.visMono u hvuT
          have hvuA : vis (afterChildG s3 u v (ch + 1)).base u :=
            (vis_congr (afterChildG_disc s3 u v (ch + 1)) u).mpr hvu3
          have hGA : GInv g (afterChildG s3 u v (ch + 1)) := ginv_afterChildG _ _ _ hG3
          have hEA : EFacts s (afterChildG s3 u v (ch + 1)) := by
            refine ⟨⟨[(u, v)] ++ l3, by rw [hsAg, List.append_assoc]⟩, ?_, ?_, ?_, ?_⟩
            · intro w hw
              rw [afterChildG_disc]
              exact hE3.discSt w hw
            · intro w hw
              rw [afterChildG_parent]
              have hwv : ¬ w = v := fun he => (fun hv2 => hv2 hd : ¬ vis s.base v) (he ▸ hw)
              rw [hE3.parSt w hw]
              exact treePre_parent_ne s.base u hwv
            · intro w hw
              have hw3 : ¬ vis s3.base w := fun hv2 =>
                hw ((vis_congr (afterChildG_disc s3 u v (ch + 1)) w).mpr hv2)
              have hwv : ¬ w = v := fun he => hw3 (he ▸ hv3)
              rw [afterChildG_parent, hE3.parUn w hw3]
              exact treePre_parent_ne s.base u hwv
            · intro w hw
              exact (vis_congr (afterChildG_disc s3 u v (ch + 1)) w).mpr (hE3.visMono w hw)
          have hCA : Covers g s (afterChildG s3 u v (ch + 1)) := by
            intro w hpw hw1 hwA x hx hpx hxA
            have hw3 : vis s3.base w := (vis_congr (afterChildG_disc s3 u v (ch + 1)) w).mp hwA
            have hx3 : vis s3.base x := (vis_congr (afterChildG_disc s3 u v (ch + 1)) x).mp hxA
            have h2 := hC3 w hpw hw1 hw3 x hx hpx hx3
            show canonPair w x ∈ cpairs (afterChildG s3 u v (ch + 1)).gpushed
            rw [afterChildG_gpushed]
            exact h2
          have hLNA : ∀ y ∈ rest, (u, y) ∉ (afterChildG s3 u v (ch + 1)).gpushed := by
            intro y hy hmem
            rw [hsAg] at hmem
            rcases List.mem_append.mp hmem with hmem1 | hmem2
            · rcases List.mem_append.mp hmem1 with hmem3 | hmem4
              · exact hLN y (List.mem_cons_of_mem v hy) hmem3
              · have he2 : (u, y) = (u, v) := List.mem_singleton.mp hmem4
                have hyv : y = v := congrArg Prod.snd he2
                rw [hyv] at hy
                exact (List.nodup_cons.mp hnd).1 hy
            · exact (hNPF3 (u, y) hmem2) hvuT
          have hEINVA : ∀ x ∈ g.adjGet u, g.present x = true →
              vis (afterChildG s3 u v (ch + 1)).base x →
              oLt ((afterChildG s3 u v (ch + 1)).base.disc x)
                ((afterChildG s3 u v (ch + 1)).base.disc u) = false →
              canonPair u x ∈ cpairs (afterChildG s3 u v (ch + 1)).gpushed := by
            intro x hx hpx hvxA holt
            rw [afterChildG_gpushed]
            have hvx3 : vis s3.base x := (vis_congr (afterChildG_disc s3 u v (ch + 1)) x).mp hvxA
            rw [afterChildG_disc] at holt
            by_cases hvsx : vis s.base x
            · have hdx : s3.base.disc x = s.base.disc x := hE3.discSt x hvsx
              have hdu : s3.base.disc u = s.base.disc u := hE3.discSt u hvuT
              rw [hdx, hdu] at holt
              have h2 := hEINV x hx hpx hvsx holt
              rw [hl3]
              apply mem_cpairs_append_left
              show canonPair u x ∈ cpairs (s.gpushed ++ [(u, v)])
              exact mem_cpairs_append_left h2
            · have hdx : s.base.disc x = some (-1) := of_not_not hvsx
              have h2 := hC3 x hpx hdx hvx3 u (hwf.symmAdj u x hx) hpu hvu3
              rw [canonPair_comm]
              exact h2
          have hHPA : ∀ pv : Nat, (afterChildG s3 u v (ch + 1)).base.parent u = some (pv : Int) →
              canonPair pv u ∈ cpairs (afterChildG s3 u v (ch + 1)).gpushed := by
            intro pv hpv
            rw [afterChildG_parent, hE3.parSt u hvuT] at hpv
            have hpv2 : (treePre s.base u v).parent u = some (pv : Int) := hpv
            rw [treePre_parent_ne s.base u hunv] at hpv2
            have h2 := hHP pv hpv2
            rw [afterChildG_gpushed, hl3]
            apply mem_cpairs_append_left
            show canonPair pv u ∈ cpairs (s.gpushed ++ [(u, v)])
            exact mem_cpairs_append_left h2
          have hIH := ih (afterChildG s3 u v (ch + 1)) (ch + 1) s2 h hGA hpu hvuA
            (List.nodup_cons.mp hnd).2 (fun y hy => hsub y (List.mem_cons_of_mem v hy))
            hLNA hEINVA hHPA
          obtain ⟨hG2, hE2, hC2, hup2, ⟨lr, hlr, hlrP⟩⟩ := hIH
          refine ⟨hG2, efacts_trans hEA hE2, covers_trans hwf.symmAdj hCA hC2 hE2, ?_, ?_⟩
          · intro x hxmem hpx hvx2
            rcases List.mem_cons.mp hxmem with hxv | hxr
            · rw [hxv]
              obtain ⟨l2, hl2⟩ := hE2.pushes
              rw [hl2, hsAg]
              apply mem_cpairs_append_left
              apply mem_cpairs_append_left
              exact mem_cpairs_of_mem (List.mem_append_right _ (List.mem_singleton.mpr rfl))
            · exact hup2 x hxr hpx hvx2
          · refine ⟨[(u, v)] ++ l3 ++ lr, ?_, ?_⟩
            · rw [hlr, hsAg]
              simp only [List.append_assoc]
            · intro p hp2
              rcases List.mem_append.mp hp2 with hp3 | hpr
              · rcases List.mem_append.mp hp3 with hp4 | hp5
                · left
                  have he2 : p = (u, v) := List.mem_singleton.mp hp4
                  rw [he2]
                · right
                  exact hNPF3 p hp5
              · rcases hlrP p hpr with h1 | h2
                · exact Or.inl h1
                · right
                  intro hv2
                  exact h2 (hEA.visMono p.1 hv2)
      · rw [if_neg hd] at h
        have hvsv : vis s.base v := hd
        by_cases hb : backCond s.base u v = true
        · rw [if_pos hb] at h
          have hb2 := hb
          unfold backCond at hb2
          rw [Bool.and_eq_true] at hb2
          have hPar : ¬ s.base.parent u = some (v : Int) := of_decide_eq_true hb2.1
          have hLt : oLt (s.base.disc v) (s.base.disc u) = true := hb2.2
          have hGB : GInv g (backUpdG s u v) :=
            ginv_backUpdG hG hvu hvsv (hLN v (List.mem_cons_self v rest)) hPar hLt
          have hvuB : vis (backUpdG s u v).base u := hvu
          have hLNB : ∀ y ∈ rest, (u, y) ∉ (backUpdG s u v).gpushed := by
            intro y hy hmem
            have hmem2 : (u, y) ∈ s.gpushed ++ [(u, v)] := hmem
            rcases List.mem_append.mp hmem2 with h1 | h2
            · exact hLN y (List.mem_cons_of_mem v hy) h1
            · have he2 : (u, y) = (u, v) := List.mem_singleton.mp h2
              have hyv : y = v := congrArg Prod.snd he2
              rw [hyv] at hy
              exact (List.nodup_cons.mp hnd).1 hy
          have hEINVB : ∀ x ∈ g.adjGet u, g.present x = true →
              vis (backUpdG s u v).base x →
              oLt ((backUpdG s u v).base.disc x) ((backUpdG s u v).base.disc u) = false →
              canonPair u x ∈ cpairs (backUpdG s u v).gpushed := by
            intro x hx hpx hvxB holt
            have h2 := hEINV x hx hpx hvxB holt
            show canonPair u x ∈ cpairs (s.gpushed ++ [(u, v)])
            exact mem_cpairs_append_left h2
          have hHPB : ∀ pv : Nat, (backUpdG s u v).base.parent u = some (pv : Int) →
              canonPair pv u ∈ cpairs (backUpdG s u v).gpushed := by
            intro pv hpv
            have h2 := hHP pv hpv
            show canonPair pv u ∈ cpairs (s.gpushed ++ [(u, v)])
            exact mem_cpairs_append_left h2
          have hIH := ih (backUpdG s u v) ch s2 h hGB hpu hvuB (List.nodup_cons.mp hnd).2
            (fun y hy => hsub y (List.mem_cons_of_mem v hy)) hLNB hEINVB hHPB
          obtain ⟨hG2, hE2, hC2, hup2, ⟨lr, hlr, hlrP⟩⟩ := hIH
          have hEB : EFacts s (backUpdG s u v) :=
            ⟨⟨[(u, v)], rfl⟩, fun _ _ => rfl, fun _ _ => rfl, fun _ _ => rfl, fun _ h2 => h2⟩
          have hCB : Covers g s (backUpdG s u v) := by
            intro w hpw hw1 hwB x hx hpx hxB
            exact absurd hw1 hwB
          refine ⟨hG2, efacts_trans hEB hE2, covers_trans hwf.symmAdj hCB hC2 hE2, ?_, ?_⟩
          · intro x hxmem hpx hvx2
            rcases List.mem_cons.mp hxmem with hxv | hxr
            · rw [hxv]
              obtain ⟨l2, hl2⟩ := hE2.pushes
              rw [hl2]
              apply mem_cpairs_append_left
              show canonPair u v ∈ cpairs (s.gpushed ++ [(u, v)])
              exact mem_cpairs_of_mem (List.mem_append_right _ (List.mem_singleton.mpr rfl))
            · exact hup2 x hxr hpx hvx2
          · refine ⟨[(u, v)] ++ lr, ?_, ?_⟩
            · rw [hlr]
              show (backUpdG s u v).gpushed ++ lr = s.gpushed ++ ([(u, v)] ++ lr)
              rw [backUpdG_gpushed, List.append_assoc]
            · intro p hp2
              rcases List.mem_append.mp hp2 with h1 | h2
              · left
                have he2 : p = (u, v) := List.mem_singleton.mp h1
                rw [he2]
              · rcases hlrP p h2 with h3 | h4
                · exact Or.inl h3
                · exact Or.inr h4
        · rw [if_neg hb] at h
          have hpushedv : canonPair u v ∈ cpairs s.gpushed := by
            by_cases hA : s.base.parent u = some (v : Int)
            · have h2 := hHP v hA
              rw [canonPair_comm]
              exact h2
            · have hA2 : decide (¬ s.base.parent u = some (v : Int)) = true := decide_eq_true hA
              have hB : oLt (s.base.disc v) (s.base.disc u) = false := by
                cases hO : oLt (s.base.disc v) (s.base.disc u) with
                | false => rfl
                | true =>
                  exact absurd
                    (show backCond s.base u v = true by unfold backCond; rw [hA2, hO]; rfl) hb
              exact hEINV v hvadj hp hvsv hB
          have hIH := ih s ch s2 h hG hpu hvu (List.nodup_cons.mp hnd).2
            (fun y hy => hsub y (List.mem_cons_of_mem v hy))
            (fun y hy => hLN y (List.mem_cons_of_mem v hy)) hEINV hHP
          obtain ⟨hG2, hE2, hC2, hup2, hNP2⟩ := hIH
          refine ⟨hG2, hE2, hC2, ?_, hNP2⟩
          intro x hxmem hpx hvx2
          rcases List.mem_cons.mp hxmem with hxv | hxr
          · rw [hxv]
            obtain ⟨l2, hl2⟩ := hE2.pushes
            rw [hl2]
            exact mem_cpairs_append_left hpushedv
          · exact hup2 x hxr hpx hvx2
    · rw [if_neg hp] at h
      have hIH := ih s ch s2 h hG hpu hvu (List.nodup_cons.mp hnd).2
        (fun y hy => hsub y (List.mem_cons_of_mem v hy))
        (fun y hy => hLN y (List.mem_cons_of_mem v hy)) hEINV hHP
      obtain ⟨hG2, hE2, hC2, hup2, hNP2⟩ := hIH
      refine ⟨hG2, hE2, hC2, ?_, hNP2⟩
      intro x hxmem hpx hvx2
      rcases List.mem_cons.mp hxmem with hxv | hxr
      · rw [hxv] at hpx
        exact absurd hpx hp
      · exact hup2 x hxr hpx hvx2

theorem dfsGoG_main (g : Graph) (hwf : WF g) :
    ∀ (fuel : Nat) (s : StG) (u : Nat) (s2 : StG),
      dfsGoG g fuel s u = some s2 → DPre g s u → DPost g s s2 u := by
  intro fuel
  induction fuel with
  | zero =>
    intro s u s2 h _
    exact Option.noConfusion h
  | succ f ihf =>
    intro s u s2 h hpre
    have h2 : dfsLoopG g (dfsGoG g f) u (visitUpdG s u) 0 (g.adjGet u) = some s2 := h
    have hGV : GInv g (visitUpdG s u) := ginv_visitUpdG hpre.inv hpre.sentinel
    have hnvu : ¬ vis s.base u := fun hv => hv hpre.sentinel
    have hvuV : vis (visitUpdG s u).base u := vis_visitUpd_self s.base u
    have hLNV : ∀ y ∈ g.adjGet u, (u, y) ∉ (visitUpdG s u).gpushed := by
      intro y hy hmem
      have hmem2 : (u, y) ∈ s.gpushed := hmem
      exact hnvu ((hpre.inv.both (u, y) hmem2).1)
    have hEINVV : ∀ x ∈ g.adjGet u, g.present x = true → vis (visitUpdG s u).base x →
        oLt ((visitUpdG s u).base.disc x) ((visitUpdG s u).base.disc u) = false →
        canonPair u x ∈ cpairs (visitUpdG s u).gpushed := by
      intro x hx hpx hvx holt
      exfalso
      have hxu : ¬ x = u := fun he => hwf.no_self_adj (he ▸ hx)
      have hdu : (visitUpd s.base u).disc u = some ((s.base.time + 1 : Nat) : Int) :=
        visitUpd_disc_self2 s.base u
      have hdx : (visitUpd s.base u).disc x = s.base.disc x := visitUpd_disc_ne s.base hxu
      have hsome := hpre.inv.discSome x hpx
      cases hsx : s.base.disc x with
      | none =>
        rw [hsx] at hsome
        exact Bool.noConfusion hsome
      | some d =>
        have hbd := hpre.inv.timeB x d hsx
        have holt2 : oLt ((visitUpd s.base u).disc x) ((visitUpd s.base u).disc u) = false := holt
        rw [hdx, hsx, hdu] at holt2
        have holt3 : decide (d < ((s.base.time + 1 : Nat) : Int)) = false := holt2
        have hnlt := of_decide_eq_false holt3
        omega
    have hHPV : ∀ pv : Nat, (visitUpdG s u).base.parent u = some (pv : Int) →
        canonPair pv u ∈ cpairs (visitUpdG s u).gpushed := by
      intro pv hpv
      exact hpre.parEdge pv hpv
    have hloop := dfsLoopG_main g hwf (dfsGoG g f) ihf u (g.adjGet u) (visitUpdG s u) 0 s2 h2
      hGV hpre.presU hvuV (hwf.adjGet_nodup u) (fun y hy => hy) hLNV hEINVV hHPV
    obtain ⟨hG2, hE2, hC2, hup2, ⟨lr, hlr, hlrP⟩⟩ := hloop
    have hEV : EFacts s (visitUpdG s u) := by
      refine ⟨⟨[], (List.append_nil _).symm⟩, ?_, ?_, ?_, ?_⟩
      · intro w hw
        have hwu : ¬ w = u := fun he => hnvu (he ▸ hw)
        exact visitUpd_disc_ne s.base hwu
      · intro w _
        rfl
      · intro w _
        rfl
      · intro w hw
        exact vis_visitUpd_of u hw
    refine ⟨hG2, efacts_trans hEV hE2, ?_, hE2.visMono u hvuV, ?_⟩
    · intro w hpw hw1 hw2 x hx hpx hx2
      by_cases hwu : w = u
      · rw [hwu] at hx ⊢
        exact hup2 x hx hpx hx2
      · have hw1V : (visitUpdG s u).base.disc w = some (-1) := by
          show (visitUpd s.base u).disc w = some (-1)
          rw [visitUpd_disc_ne s.base hwu]
          exact hw1
        exact hC2 w hpw hw1V hw2 x hx hpx hx2
    · refine ⟨lr, ?_, ?_⟩
      · rw [hlr]
        rfl
      · intro p hp
        rcases hlrP p hp with h1 | h2
        · rw [h1]
          exact hnvu
        · intro hv
          exact h2 (vis_visitUpd_of u hv)

theorem residualG_disc (s : StG) : (residualG s).base.disc = s.base.disc := by
  rw [residualG_base, residual_disc]

theorem residualG_parent (s : StG) : (residualG s).base.parent = s.base.parent := by
  rw [residualG_base, residual_parent]

theorem rootStepG_main (g : Graph) (hwf : WF g) (fuel : Nat) (s : StG) (nd : Node) (s2 : StG)
    (h : rootStepG g fuel s nd = some s2) (hR : RootInv g s) (hpres : g.present nd.id = true) :
    RootInv g s2 ∧ EFacts s s2 ∧ Covers g s s2 ∧ vis s2.base nd.id := by
  unfold rootStepG at h
  split_ifs at h with hd
  · cases hdf : dfsGoG g fuel s nd.id with
    | none =>
      rw [hdf] at h
      exact Option.noConfusion h
    | some s1 =>
      rw [hdf] at h
      have hpre : DPre g s nd.id := by
        refine ⟨⟨hR.inv.conserve, hR.inv.nodup, ?_, hR.inv.orient, hR.inv.timeB,
          hR.inv.discSome⟩, hpres, hd, ?_⟩
        · intro p hp
          obtain ⟨h1, h2⟩ := hR.inv.both p hp
          exact ⟨h1, Or.inl h2⟩
        · intro pv hpv
          have hnv : ¬ vis s.base nd.id := fun hv => hv hd
          rcases hR.par0 nd.id hnv with h1 | h1
          · rw [h1] at hpv
            have := Option.some.inj hpv
            omega
          · rw [h1] at hpv
            exact Option.noConfusion hpv
      have hpost := dfsGoG_main g hwf fuel s nd.id s1 hdf hpre
      cases Option.some.inj h
      refine ⟨⟨ginv_residualG hpost.inv, ?_, ?_⟩, ?_, ?_, ?_⟩
      · rw [residualG_base]
        exact residual_stack_empty s1.base
      · intro w hw
        have hw1 : ¬ vis s1.base w := fun hv =>
          hw ((vis_congr (residualG_disc s1) w).mpr hv)
        have hnsw : ¬ vis s.base w := fun hv => hw1 (hpost.facts.visMono w hv)
        rw [residualG_parent, hpost.facts.parUn w hw1]
        exact hR.par0 w hnsw
      · have hE1 : EFacts s1 (residualG s1) := by
          refine ⟨⟨[], ?_⟩, ?_, ?_, ?_, ?_⟩
          · rw [residualG_gpushed, List.append_nil]
          · intro w _
            rw [residualG_disc]
          · intro w _
            rw [residualG_parent]
          · intro w _
            rw [residualG_parent]
          · intro w hv
            exact (vis_congr (residualG_disc s1) w).mpr hv
        exact efacts_trans hpost.facts hE1
      · intro w hpw hw1 hw2 x hx hpx hx2
        have hw2b : vis s1.base w := (vis_congr (residualG_disc s1) w).mp hw2
        have hx2b : vis s1.base x := (vis_congr (residualG_disc s1) x).mp hx2
        have h2 := hpost.covers w hpw hw1 hw2b x hx hpx hx2b
        show canonPair w x ∈ cpairs (residualG s1).gpushed
        rw [residualG_gpushed]
        exact h2
      · exact (vis_congr (residualG_disc s1) nd.id).mpr hpost.visd
  · cases Option.some.inj h
    exact ⟨hR, efacts_refl s, covers_refl g s, hd⟩

theorem rootsLoopG_main (g : Graph) (hwf : WF g) (fuel : Nat) :
    ∀ (nds : List Node) (s s2 : StG),
      rootsLoopG g fuel s nds = some s2 → RootInv g s →
      (∀ nd ∈ nds, g.present nd.id = true) →
      RootInv g s2 ∧ EFacts s s2 ∧ Covers g s s2 ∧ (∀ nd ∈ nds, vis s2.base nd.id) := by
  intro nds
  induction nds with
  | nil =>
    intro s s2 h hR _
    cases Option.some.inj h
    exact ⟨hR, efacts_refl s, covers_refl g s, fun nd hnd => absurd hnd (List.not_mem_nil nd)⟩
  | cons nd rest ihn =>
    intro s s2 h hR hpres
    rw [rootsLoopG] at h
    cases hstep : rootStepG g fuel s nd with
    | none =>
      rw [hstep] at h
      exact Option.noConfusion h
    | some s1 =>
      rw [hstep] at h
      obtain ⟨hR1, hE1, hC1, hv1⟩ := rootStepG_main g hwf fuel s nd s1 hstep hR
        (hpres nd (List.mem_cons_self nd rest))
      obtain ⟨hR2, hE2, hC2, hv2⟩ := ihn s1 s2 h hR1
        (fun x hx => hpres x (List.mem_cons_of_mem nd hx))
      refine ⟨hR2, efacts_trans hE1 hE2, covers_trans hwf.symmAdj hC1 hC2 hE2, ?_⟩
      intro x hx
      rcases List.mem_cons.mp hx with h1 | h2
      · rw [h1]
        exact hE2.visMono nd.id hv1
      · exact hv2 x h2

/-! ### Counting: from a duplicate-free conserved push list to unique components -/

/-! ### Counting: from a duplicate-free conserved push list to unique components -/

theorem countP_eq_one_of_nodup_mem {α : Type} [DecidableEq α] :
    ∀ {l : List α} {a : α}, l.Nodup → a ∈ l → l.countP (fun x => decide (x = a)) = 1 := by
  intro l
  induction l with
  | nil =>
    intro a _ ha
    exact absurd ha (List.not_mem_nil a)
  | cons b rest ihc =>
    intro a hn ha
    rw [List.countP_cons]
    rcases List.mem_cons.mp ha with h1 | h2
    · have hz : rest.countP (fun x => decide (x = a)) = 0 := by
        rw [List.countP_eq_zero]
        intro x hx
        simp only [decide_eq_true_eq]
        intro he
        rw [he, h1] at hx
        exact (List.nodup_cons.mp hn).1 hx
      rw [hz, ← h1]
      simp
    · have hne : ¬ b = a := fun he => (List.nodup_cons.mp hn).1 (he ▸ h2)
      rw [ihc (List.nodup_cons.mp hn).2 h2]
      simp [hne]

theorem countP_eq_zero_of_not_mem {α : Type} [DecidableEq α] {l : List α} {a : α}
    (ha : a ∉ l) : l.countP (fun x => decide (x = a)) = 0 := by
  rw [List.countP_eq_zero]
  intro x hx
  simp only [decide_eq_true_eq]
  intro he
  exact ha (he ▸ hx)

theorem count_cpairs_flat (q : Nat × Nat) :
    ∀ cs : List Comp, (cpairs (flatEdges cs)).countP (fun x => decide (x = q))
      = (cs.map (fun c => (cpairs c.edges).countP (fun x => decide (x = q)))).sum := by
  intro cs
  induction cs with
  | nil => rfl
  | cons c rest ihc =>
    rw [flatEdges_cons, cpairs_append, List.countP_append, List.map_cons, List.sum_cons, ihc]

theorem countP_pos_of_sum_zero {α : Type} (f : α → Nat) :
    ∀ l : List α, (l.map f).sum = 0 → l.countP (fun c => decide (0 < f c)) = 0 := by
  intro l
  induction l with
  | nil => intro _; rfl
  | cons c rest ihc =>
    intro h
    rw [List.map_cons, List.sum_cons] at h
    have hc : f c = 0 := by omega
    have hr : (rest.map f).sum = 0 := by omega
    rw [List.countP_cons, ihc hr]
    simp [hc]

theorem countP_pos_of_sum_one {α : Type} (f : α → Nat) :
    ∀ l : List α, (l.map f).sum = 1 → l.countP (fun c => decide (0 < f c)) = 1 := by
  intro l
  induction l with
  | nil =>
    intro h
    exact absurd h (by simp)
  | cons c rest ihc =>
    intro h
    rw [List.map_cons, List.sum_cons] at h
    rw [List.countP_cons]
    by_cases hc : f c = 0
    · have hr : (rest.map f).sum = 1 := by omega
      rw [ihc hr]
      simp [hc]
    · have hc1 : f c = 1 ∧ (rest.map f).sum = 0 := by omega
      rw [countP_pos_of_sum_zero f rest hc1.2]
      simp [Nat.pos_of_ne_zero hc]

theorem compHasEdge_iff {c : Comp} {a b : Nat} :
    compHasEdge c a b = true ↔ canonPair a b ∈ cpairs c.edges := by
  unfold compHasEdge cpairs
  rw [List.any_eq_true]
  constructor
  · rintro ⟨e2, he2, hde⟩
    have h2 := of_decide_eq_true hde
    rw [← h2]
    exact List.mem_map_of_mem _ he2
  · intro h
    obtain ⟨e2, he2, heq⟩ := List.mem_map.mp h
    exact ⟨e2, he2, decide_eq_true heq⟩

theorem countP_pos_iff_mem {α : Type} [DecidableEq α] {l : List α} {a : α} :
    0 < l.countP (fun x => decide (x = a)) ↔ a ∈ l := by
  rw [List.countP_pos_iff]
  constructor
  · rintro ⟨x, hx, he⟩
    have h2 : x = a := of_decide_eq_true he
    exact h2 ▸ hx
  · intro h
    exact ⟨a, h, decide_eq_true rfl⟩
/-- C5: on a well-formed graph every edge of the edge collection lands in
exactly one biconnected component of `analyze`: the components partition
the pushed edges (conservation through component pops), each graph edge is
pushed at least once (both endpoints get visited, and every adjacency pair
with visited endpoints is pushed) and at most once (the canonical pairs of
pushed edges are duplicate-free), so exactly one component contains it. -/
theorem edge_in_exactly_one_component (g : Graph) (hwf : WF g) (r : AResult)
    (hr : g.analyze = some r) (k : EdgeKey) (e : EdgeRec) (he : (k, e) ∈ g.edgeMap) :
    r.components.countP (fun c => compHasEdge c e.a e.b) = 1 := by
  unfold Graph.analyze at hr
  cases hRoot : rootsLoop g (fuelOf g) (initSt g) g.nodes with
  | none =>
    rw [hRoot] at hr
    exact Option.noConfusion hr
  | some st =>
    rw [hRoot] at hr
    have hre : r = AResult.mk st.ap st.bridges st.comps (buildEdgeToComp st.comps) :=
      (Option.some.inj hr).symm
    have hGm := rootsLoopG_toS g (fuelOf g) g.nodes ⟨initSt g, [], [], []⟩
    cases hG : rootsLoopG g (fuelOf g) ⟨initSt g, [], [], []⟩ g.nodes with
    | none =>
      exfalso
      rw [hG] at hGm
      have hSb : Option.map StS.base (rootsLoopS g (fuelOf g)
          (StG.toS ⟨initSt g, [], [], []⟩) g.nodes) = rootsLoop g (fuelOf g) (initSt g) g.nodes :=
        rootsLoopS_base g (fuelOf g) g.nodes (StG.toS ⟨initSt g, [], [], []⟩)
      rw [← hGm, hRoot] at hSb
      exact Option.noConfusion hSb
    | some sG =>
      rw [hG] at hGm
      have hSb : Option.map StS.base (rootsLoopS g (fuelOf g)
          (StG.toS ⟨initSt g, [], [], []⟩) g.nodes) = rootsLoop g (fuelOf g) (initSt g) g.nodes :=
        rootsLoopS_base g (fuelOf g) g.nodes (StG.toS ⟨initSt g, [], [], []⟩)
      rw [← hGm, hRoot] at hSb
      have hbase : sG.base = st := Option.some.inj hSb
      have hR0 : RootInv g ⟨initSt g, [], [], []⟩ := by
        refine ⟨⟨List.Perm.nil, List.nodup_nil, ?_, ?_, ?_, ?_⟩, rfl, ?_⟩
        · intro p hp
          exact absurd hp (List.not_mem_nil p)
        · intro p hp
          exact absurd hp (List.not_mem_nil p)
        · intro w d hw
          show d ≤ ((0 : Nat) : Int)
          have hw2 : (if w < g.nextId then some (-1 : Int) else none) = some d := hw
          split at hw2
          · have := Option.some.inj hw2
            omega
          · exact Option.noConfusion hw2
        · intro w hw
          have hlt := hwf.present_lt_nextId hw
          show (if w < g.nextId then some (-1 : Int) else none).isSome = true
          rw [if_pos hlt]
          rfl
        · intro w _
          by_cases hlt : w < g.nextId
          · left
            show (if w < g.nextId then some (-1 : Int) else none) = some (-1)
            rw [if_pos hlt]
          · right
            show (if w < g.nextId then some (-1 : Int) else none) = none
            rw [if_neg hlt]
      obtain ⟨hRf, hEf, hCf, hvf⟩ := rootsLoopG_main g hwf (fuelOf g) g.nodes _ sG hG hR0
        (fun nd hnd => present_iff.mpr ⟨nd, hnd, rfl⟩)
      obtain ⟨hpa, hpb, hab⟩ := hwf.2.2.2.2.2.2.2.1 (k, e) he
      have hadj := (hwf.2.2.2.2.2.2.2.2.2.1 (k, e) he).1
      have hva : vis sG.base e.a := by
        obtain ⟨n, hn, hid⟩ := present_iff.mp hpa
        rw [← hid]
        exact hvf n hn
      have hvb : vis sG.base e.b := by
        obtain ⟨n, hn, hid⟩ := present_iff.mp hpb
        rw [← hid]
        exact hvf n hn
      have hia : (⟨initSt g, [], [], []⟩ : StG).base.disc e.a = some (-1) := by
        show (if e.a < g.nextId then some (-1 : Int) else none) = some (-1)
        rw [if_pos (hwf.present_lt_nextId hpa)]
      have hmem : canonPair e.a e.b ∈ cpairs sG.gpushed :=
        hCf e.a hpa hia hva e.b hadj hpb hvb
      have hcount1 : (cpairs sG.gpushed).countP
          (fun x => decide (x = canonPair e.a e.b)) = 1 :=
        countP_eq_one_of_nodup_mem hRf.inv.nodup hmem
      have hperm : sG.gpushed.Perm (flatEdges sG.base.comps) := by
        have h5 := hRf.inv.conserve
        rw [hRf.stack, List.nil_append] at h5
        exact h5
      have h6 : (cpairs sG.gpushed).Perm (cpairs (flatEdges sG.base.comps)) := by
        unfold cpairs
        exact hperm.map _
      have hcount2 : (cpairs (flatEdges sG.base.comps)).countP
          (fun x => decide (x = canonPair e.a e.b)) = 1 := by
        rw [← h6.countP_eq]
        exact hcount1
      have hsum := count_cpairs_flat (canonPair e.a e.b) sG.base.comps
      rw [hcount2] at hsum
      have hcp := countP_pos_of_sum_one
        (fun c => (cpairs c.edges).countP (fun x => decide (x = canonPair e.a e.b)))
        sG.base.comps hsum.symm
      have hcongr : ∀ c ∈ st.comps, compHasEdge c e.a e.b = true ↔
          decide (0 < (cpairs c.edges).countP
            (fun x => decide (x = canonPair e.a e.b))) = true := by
        intro c _
        constructor
        · intro h1
          exact decide_eq_true (countP_pos_iff_mem.mpr (compHasEdge_iff.mp h1))
        · intro h2
          exact compHasEdge_iff.mpr (countP_pos_iff_mem.mp (of_decide_eq_true h2))
      rw [hre]
      show st.comps.countP (fun c => compHasEdge c e.a e.b) = 1
      rw [List.countP_congr hcongr]
      rw [← hbase]
      exact hcp

theorem edge_in_exactly_one_component_witness :
    twoRes.components.countP (fun c => compHasEdge c 0 1) = 1 :=
  edge_in_exactly_one_component twoG (by decide) twoRes (by decide)
    (EdgeKey.undir 0 1) ⟨0, 1, false⟩ (by decide)

end AV
